import Mathlib

/-!
Shallow embedding of `src/VirtualMemory.cpp`: a hierarchical page-table
virtual memory over a word-addressed physical memory.  Machine words
(`word_t`, `uint64_t`) are modelled as `Nat`; all arithmetic in the source
that cannot overflow or underflow for the values actually supplied is
rendered as plain `Nat` arithmetic, and the one genuinely bit-level
operation (`getOffset`'s shift pair) is rendered literally and related to
`%` by a lemma.  The physical-memory collaborator (`PhysicalMemory.h`) is
not part of the repository's sources, so it is modelled from the spec.
-/

namespace VM

/-- Configuration constants of `MemoryConstants.h` (not in the repository's
sources; modelled from the spec, which fixes the derived quantities
`PAGE_SIZE = 2^OFFSET_WIDTH`, `NUM_PAGES = 2^(TABLES_DEPTH*OFFSET_WIDTH)`,
`VIRTUAL_MEMORY_SIZE = 2^((TABLES_DEPTH+1)*OFFSET_WIDTH)`). -/
structure Config where
  offsetWidth : Nat
  tablesDepth : Nat
  numFrames : Nat
deriving DecidableEq

def Config.pageSize (c : Config) : Nat := 2 ^ c.offsetWidth

def Config.numPages (c : Config) : Nat := 2 ^ (c.tablesDepth * c.offsetWidth)

def Config.virtualMemorySize (c : Config) : Nat :=
  2 ^ ((c.tablesDepth + 1) * c.offsetWidth)

/-- State of the physical-memory collaborator.  Modelled from the spec:
`ram` is the word store, `swap` the backing storage keyed by page number
(a page's saved contents, as a function of the in-page offset), and
`evicts` / `restores` record every `PMevict` / `PMrestore` call in order,
so that claims about which calls occur are expressible. -/
structure PMState where
  ram : Nat → Nat
  swap : Nat → Option (Nat → Nat)
  evicts : List (Nat × Nat)
  restores : List (Nat × Nat)

/-- Modelled from the spec: reads one word of physical memory. -/
def PMread (s : PMState) (a : Nat) : Nat := s.ram a

/-- Modelled from the spec: writes one word of physical memory. -/
def PMwrite (s : PMState) (a v : Nat) : PMState :=
  { s with ram := fun x => if x = a then v else s.ram x }

/-- Modelled from the spec: persists the current contents of `frame` to
backing storage, associated with `page`. -/
def PMevict (c : Config) (s : PMState) (frame page : Nat) : PMState :=
  { s with
    swap := fun p =>
      if p = page then some (fun i => s.ram (frame * c.pageSize + i)) else s.swap p,
    evicts := s.evicts ++ [(frame, page)] }

/-- Writes `content i` to word `i` of `frame`, for every `i < PAGE_SIZE`. -/
def writeFrame (c : Config) (s : PMState) (frame : Nat) (content : Nat → Nat) : PMState :=
  (List.range c.pageSize).foldl (fun st i => PMwrite st (frame * c.pageSize + i) (content i)) s

/-- Modelled from the spec: loads backing-storage contents for `page` into
`frame`; a page that was never evicted has no backing-storage contents and
the call loads nothing. -/
def PMrestore (c : Config) (s : PMState) (frame page : Nat) : PMState :=
  let s1 := match s.swap page with
            | none => s
            | some content => writeFrame c s frame content
  { s1 with restores := s1.restores ++ [(frame, page)] }

/-- Embeds `clearFrame`: writes 0 to each of the `PAGE_SIZE` words of a frame. -/
def clearFrame (c : Config) (s : PMState) (frameToClear : Nat) : PMState :=
  (List.range c.pageSize).foldl (fun st i => PMwrite st (frameToClear * c.pageSize + i) 0) s

/-- Embeds `getOffset`: `(address << (64 - OFFSET_WIDTH)) >> (64 - OFFSET_WIDTH)`
on `uint64_t`, written out on `Nat` with the wrap-around of the left shift
made explicit. -/
def getOffset (c : Config) (address : Nat) : Nat :=
  address * 2 ^ (64 - c.offsetWidth) % 2 ^ 64 / 2 ^ (64 - c.offsetWidth)

/-- Embeds `getCyclicDist`:
`min (NUM_PAGES - |page1 - page2|) |page1 - page2|` via the source's
comparisons on truncating `Nat` subtraction. -/
def getCyclicDist (c : Config) (page1 page2 : Nat) : Nat :=
  let dist := if page1 > page2 then page1 - page2 else page2 - page1
  if dist < c.numPages - dist then dist else c.numPages - dist

/-- The five accumulators threaded through `findNewFrameHelper` as out
parameters, with the source's initial values being all zero. -/
structure FindAcc where
  maxFrame : Nat
  emptyFrame : Nat
  emptyParentAdd : Nat
  maxDistFrame : Nat
  maxDistParentAdd : Nat
  maxDistPage : Nat
deriving DecidableEq

/-- Embeds the `for (i = 0; i < PAGE_SIZE; i++)` loop body of
`findNewFrameHelper`: scans `count` entries of `currFrame` starting at
entry `i`, updating the accumulators; `descend` is the recursive call used
for a non-leaf nonzero entry.  Returns the accumulators together with the
loop's `isEmpty` flag (true iff every scanned entry is 0). -/
def frameScan (c : Config) (s : PMState) (currFrame currDepth virtualAdd currPageAdd : Nat)
    (descend : Nat → Nat → Nat → FindAcc → FindAcc) :
    Nat → Nat → FindAcc → FindAcc × Bool
  | 0, _, acc => (acc, true)
  | count + 1, i, acc =>
    let value := PMread s (currFrame * c.pageSize + i)
    if value ≠ 0 then
      let acc1 := if value > acc.maxFrame then { acc with maxFrame := value } else acc
      let ithPageAdd := currPageAdd * c.pageSize + i
      let acc2 :=
        if currDepth = c.tablesDepth - 1 then
          let currDistance := getCyclicDist c (virtualAdd / c.pageSize) ithPageAdd
          let maxDistance := getCyclicDist c (virtualAdd / c.pageSize) acc1.maxDistPage
          if currDistance > maxDistance ∨ acc1.maxDistFrame = 0 then
            { acc1 with
              maxDistParentAdd := currFrame * c.pageSize + i,
              maxDistFrame := value,
              maxDistPage := ithPageAdd }
          else acc1
        else
          descend value (currFrame * c.pageSize + i) ithPageAdd acc1
      let r := frameScan c s currFrame currDepth virtualAdd currPageAdd descend count (i + 1) acc2
      (r.1, false)
    else
      frameScan c s currFrame currDepth virtualAdd currPageAdd descend count (i + 1) acc

/-- Embeds `findNewFrameHelper`.  The C function recurses on the tree depth;
here the depth bound is an explicit fuel argument (the top-level call passes
`TABLES_DEPTH`, which the recursion never exhausts, since descent stops at
depth `TABLES_DEPTH - 1`). -/
def findNewFrameHelper (c : Config) (s : PMState) (virtualAdd lastCreatedFrame : Nat) :
    Nat → Nat → Nat → Nat → Nat → FindAcc → FindAcc
  | 0, _, _, _, _, acc => acc
  | fuel + 1, currFrame, currParentAdd, currDepth, currPageAdd, acc =>
    if acc.emptyFrame ≠ 0 then acc
    else
      let r := frameScan c s currFrame currDepth virtualAdd currPageAdd
        (fun value entryAdd ithPageAdd a =>
          findNewFrameHelper c s virtualAdd lastCreatedFrame fuel value entryAdd
            (currDepth + 1) ithPageAdd a)
        c.pageSize 0 acc
      if r.2 = true ∧ currFrame ≠ lastCreatedFrame then
        { r.1 with emptyFrame := currFrame, emptyParentAdd := currParentAdd }
      else r.1

/-- Embeds `findNewFrame`: runs the traversal from the root and picks a frame
by the priority empty → fresh maximal index → evict, returning the chosen
frame together with the updated physical-memory state. -/
def findNewFrame (c : Config) (s : PMState) (virtualAdd lastCreatedFrame : Nat) :
    Nat × PMState :=
  let acc := findNewFrameHelper c s virtualAdd lastCreatedFrame c.tablesDepth 0 0 0 0
    ⟨0, 0, 0, 0, 0, 0⟩
  if acc.emptyFrame ≠ 0 then
    (acc.emptyFrame, PMwrite s acc.emptyParentAdd 0)
  else if acc.maxFrame + 1 < c.numFrames then
    (acc.maxFrame + 1, s)
  else
    let s1 := PMwrite s acc.maxDistParentAdd 0
    let s2 := PMevict c s1 acc.maxDistFrame acc.maxDistPage
    let s3 := clearFrame c s2 acc.maxDistFrame
    (acc.maxDistFrame, s3)

/-- Embeds the `for (level = depth; level > 0; level--)` loop of
`translateVirtualAdd`; returns the final values of `add1` and `currFrame`
together with the updated state. -/
def translateLoop (c : Config) (virtualAdd : Nat) :
    Nat → Nat → Nat → PMState → Nat × Nat × PMState
  | 0, add1, currFrame, s => (add1, currFrame, s)
  | level + 1, add1, _, s =>
    let currValue := getOffset c (virtualAdd / 2 ^ ((level + 1) * c.offsetWidth))
    let currFrame := add1
    let e := PMread s (currFrame * c.pageSize + currValue)
    if e = 0 then
      let r := findNewFrame c s virtualAdd currFrame
      let s1 := PMwrite r.2 (currFrame * c.pageSize + currValue) r.1
      translateLoop c virtualAdd level r.1 currFrame s1
    else
      translateLoop c virtualAdd level e currFrame s

/-- Embeds `translateVirtualAdd`: walks the table, then (unconditionally, as
in the source) restores the target page into the reached frame, and re-reads
the leaf entry as the result (`frameToSave`). -/
def translateVirtualAdd (c : Config) (s : PMState) (virtualAdd : Nat) : Nat × PMState :=
  let r := translateLoop c virtualAdd c.tablesDepth 0 0 s
  let s1 := PMrestore c r.2.2 r.1 (virtualAdd / c.pageSize)
  let frameToSave := PMread s1 (r.2.1 * c.pageSize + getOffset c (virtualAdd / c.pageSize))
  (frameToSave, s1)

/-- Embeds `VMinitialize`: clears frame 0. -/
def VMinitialize (c : Config) (s : PMState) : PMState := clearFrame c s 0

/-- Embeds `VMread`: returns the status (0 or 1), the value read (when the
status is 1; the source leaves `*value` untouched on failure), and the
updated state. -/
def VMread (c : Config) (s : PMState) (virtualAddress : Nat) :
    Nat × Option Nat × PMState :=
  if virtualAddress > c.virtualMemorySize - 1 then (0, none, s)
  else
    let r := translateVirtualAdd c s virtualAddress
    (1, some (PMread r.2 (r.1 * c.pageSize + getOffset c virtualAddress)), r.2)

/-- Embeds `VMwrite`: returns the status (0 or 1) and the updated state. -/
def VMwrite (c : Config) (s : PMState) (virtualAddress value : Nat) : Nat × PMState :=
  if virtualAddress > c.virtualMemorySize - 1 then (0, s)
  else
    let r := translateVirtualAdd c s virtualAddress
    (1, PMwrite r.2 (r.1 * c.pageSize + getOffset c virtualAddress) value)

/-- Modelled from the spec: the physical memory's words start out zero and
the backing storage starts out empty (spec §8, idempotent initialize). -/
def initialState : PMState := ⟨fun _ => 0, fun _ => none, [], []⟩

/-! ### Specification-side view of the table tree

The following definitions express the page-table tree as the spec describes
it: a pre-order traversal from the root that visits table frames and
encounters leaf-level mappings.  They are used to state the allocator
claims and are related to `findNewFrameHelper` by the correspondence
theorems below. -/

/-- A leaf-level mapping: a data frame, the physical address of the
leaf-table entry linking it, and the page number it holds. -/
structure Cand where
  frame : Nat
  entryAdd : Nat
  page : Nat
deriving DecidableEq

/-- A pre-order traversal event: visiting a table frame (with the address
of the entry that points to it, its depth and its page-address prefix), or
encountering a leaf-level mapping. -/
inductive Ev where
  | table (frame parentAdd depth pageAdd : Nat) : Ev
  | cand (cd : Cand) : Ev
deriving DecidableEq

/-- Pre-order events produced by scanning `count` entries of table `frame`
starting at entry `i`; `descend` produces the events of a child subtree. -/
def eventsScan (c : Config) (s : PMState) (frame depth pageAdd : Nat)
    (descend : Nat → Nat → Nat → List Ev) : Nat → Nat → List Ev
  | 0, _ => []
  | count + 1, i =>
    let value := PMread s (frame * c.pageSize + i)
    if value ≠ 0 then
      (if depth = c.tablesDepth - 1 then
        [Ev.cand ⟨value, frame * c.pageSize + i, pageAdd * c.pageSize + i⟩]
      else
        descend value (frame * c.pageSize + i) (pageAdd * c.pageSize + i)) ++
      eventsScan c s frame depth pageAdd descend count (i + 1)
    else
      eventsScan c s frame depth pageAdd descend count (i + 1)

/-- Pre-order events of the subtree rooted at table `frame` (with the given
fuel, depth and page-address prefix); the frame's own visit event comes
first. -/
def visitEvents (c : Config) (s : PMState) : Nat → Nat → Nat → Nat → Nat → List Ev
  | 0, _, _, _, _ => []
  | fuel + 1, frame, parentAdd, depth, pageAdd =>
    Ev.table frame parentAdd depth pageAdd ::
      eventsScan c s frame depth pageAdd
        (fun v ea pa => visitEvents c s fuel v ea (depth + 1) pa) c.pageSize 0

/-- Pre-order events of the whole page-table tree, rooted at frame 0. -/
def treeEvents (c : Config) (s : PMState) : List Ev := visitEvents c s c.tablesDepth 0 0 0 0

/-- A frame is empty iff every one of its `PAGE_SIZE` entries is 0. -/
def allZeroFrame (c : Config) (s : PMState) (f : Nat) : Bool :=
  (List.range c.pageSize).all (fun i => PMread s (f * c.pageSize + i) == 0)

/-- All of `frame`'s words from entry `i` through entry `i + count - 1` are 0. -/
def rangeZero (c : Config) (s : PMState) (frame i count : Nat) : Bool :=
  (List.range' i count).all (fun j => PMread s (frame * c.pageSize + j) == 0)

/-- The first (in pre-order) empty table frame of the traversal that is
linked into the tree (not the root) and is not the protected frame,
together with the address of the parent entry pointing to it. -/
def firstEmptyTable (c : Config) (s : PMState) (lastCreatedFrame : Nat) :
    List Ev → Option (Nat × Nat)
  | [] => none
  | Ev.table f pa _ _ :: rest =>
    if f ≠ 0 ∧ allZeroFrame c s f = true ∧ f ≠ lastCreatedFrame then some (f, pa)
    else firstEmptyTable c s lastCreatedFrame rest
  | Ev.cand _ :: rest => firstEmptyTable c s lastCreatedFrame rest

/-- The frame indices linked anywhere in the tree: every visited table
frame other than the root, and every leaf-mapped data frame (each is the
value of exactly the nonzero parent entry through which the traversal
reached it). -/
def linkVals : List Ev → List Nat
  | [] => []
  | Ev.table f _ _ _ :: rest => (if f = 0 then [] else [f]) ++ linkVals rest
  | Ev.cand cd :: rest => cd.frame :: linkVals rest

/-- The highest frame index currently linked anywhere in the tree. -/
def maxLinked (c : Config) (s : PMState) : Nat :=
  (linkVals (treeEvents c s)).foldr max 0

/-- The leaf-level mappings of the traversal, in pre-order. -/
def cands : List Ev → List Cand
  | [] => []
  | Ev.table _ _ _ _ :: rest => cands rest
  | Ev.cand cd :: rest => cd :: cands rest

/-- The table frames visited by the traversal (the root included). -/
def tableFrames : List Ev → List Nat
  | [] => []
  | Ev.table f _ _ _ :: rest => f :: tableFrames rest
  | Ev.cand _ :: rest => tableFrames rest

/-- The cyclic distance from the target page of `virtualAdd` to a
candidate's page. -/
def candDist (c : Config) (virtualAdd : Nat) (cd : Cand) : Nat :=
  getCyclicDist c (virtualAdd / c.pageSize) cd.page

/-- How one traversal event updates the allocator's accumulators: a linked
frame raises `maxFrame`, and a leaf-level mapping additionally competes for
the eviction candidate (strictly greater cyclic distance wins; the first
candidate is installed unconditionally). -/
def evStep (c : Config) (virtualAdd : Nat) (acc : FindAcc) : Ev → FindAcc
  | Ev.table f _ _ _ =>
    if f = 0 then acc
    else if f > acc.maxFrame then { acc with maxFrame := f } else acc
  | Ev.cand cd =>
    let acc1 := if cd.frame > acc.maxFrame then { acc with maxFrame := cd.frame } else acc
    let currDistance := getCyclicDist c (virtualAdd / c.pageSize) cd.page
    let maxDistance := getCyclicDist c (virtualAdd / c.pageSize) acc1.maxDistPage
    if currDistance > maxDistance ∨ acc1.maxDistFrame = 0 then
      { acc1 with
        maxDistParentAdd := cd.entryAdd,
        maxDistFrame := cd.frame,
        maxDistPage := cd.page }
    else acc1

/-- Folds `evStep` over a list of traversal events. -/
def applyEvents (c : Config) (virtualAdd : Nat) (acc : FindAcc) (l : List Ev) : FindAcc :=
  l.foldl (evStep c virtualAdd) acc

/-- The eviction-candidate triple `(maxDistFrame, maxDistParentAdd,
maxDistPage)` produced by folding the candidate competition over a list of
leaf-level mappings. -/
def distFold (c : Config) (virtualAdd : Nat) : Nat × Nat × Nat → List Cand → Nat × Nat × Nat
  | t, [] => t
  | t, cd :: rest =>
    let next :=
      if candDist c virtualAdd cd > getCyclicDist c (virtualAdd / c.pageSize) t.2.2 ∨ t.1 = 0 then
        (cd.frame, cd.entryAdd, cd.page)
      else t
    distFold c virtualAdd next rest

/-! ### Fixed configurations and states used by witnesses and counterexamples -/

/-- A tiny configuration: one table level of two entries, two physical
frames (`PAGE_SIZE = 2`, `NUM_PAGES = 2`, `VIRTUAL_MEMORY_SIZE = 4`). -/
def cfg1 : Config := ⟨1, 1, 2⟩

/-- Two table levels, four physical frames (`PAGE_SIZE = 2`, `NUM_PAGES = 4`,
`VIRTUAL_MEMORY_SIZE = 8`). -/
def cfg2 : Config := ⟨1, 2, 4⟩

/-- One table level, three physical frames. -/
def cfg3 : Config := ⟨1, 1, 3⟩

/-- A configuration with `NUM_PAGES = 8` (one level of eight entries). -/
def cfg8 : Config := ⟨3, 1, 4⟩

/-- `cfg1` trace: initialize, write 5 to address 0, write 7 to address 2
(evicting page 0), write 9 to address 0 again (evicting page 1 and
restoring page 0's stale backing copy). -/
def rtState : PMState :=
  (VMwrite cfg1 ((VMwrite cfg1 ((VMwrite cfg1 ( VMinitialize cfg1 initialState) 0 5).2) 2 7).2) 0 9).2

/-- `cfg1` trace: initialize, then write 5 to address 0 (page 0 becomes
mapped and its data frame freshly allocated). -/
def mappedState : PMState :=
  (VMwrite cfg1 ( VMinitialize cfg1 initialState) 0 5).2

/-- The `cfg2` state reached in the middle of translating address 4 after
`initialize; write(0, 0)`: the root (frame 0) links frame 1 at entry 0 and
the just-created frame 3 at entry 1, frame 1 links the all-zero data frame
2 (page 0) at entry 0, and the allocator is asked for a frame with frame 3
protected. -/
def midState : PMState :=
  { ram := fun x => if x = 0 then 1 else if x = 1 then 3 else if x = 2 then 2 else 0,
    swap := fun _ => none, evicts := [], restores := [] }

/-- A `cfg3` physical memory whose word 3 (frame 1, word 1) starts out as 42
rather than 0. -/
def dirtyState : PMState :=
  { initialState with ram := fun x => if x = 3 then 42 else 0 }

/-- A `cfg1` physical memory in the eviction tier: the root (frame 0, a
leaf table since `TABLES_DEPTH = 1`) links the data frame 1 (page 1) at
entry 1, both frames are in use, and no table frame is empty. -/
def evictState : PMState :=
  { ram := fun x => if x = 1 then 1 else if x = 2 then 7 else 0,
    swap := fun _ => none, evicts := [], restores := [] }

/-- The frames visited or leaf-mapped by a traversal, in pre-order (the
root included): the occupants of the table tree. -/
def nodesOf : List Ev → List Nat
  | [] => []
  | Ev.table f _ _ _ :: rest => f :: nodesOf rest
  | Ev.cand cd :: rest => cd.frame :: nodesOf rest

/-- The traversal events contributed by entry `i` of table `frame` (the
per-entry block of `eventsScan`): nothing for a zero entry, a single
leaf-level mapping at depth `TABLES_DEPTH - 1`, and a whole subtree
otherwise. -/
def eventsOfEntry (c : Config) (s : PMState) (fuel frame depth pageAdd i : Nat) : List Ev :=
  let value := PMread s (frame * c.pageSize + i)
  if value ≠ 0 then
    if depth = c.tablesDepth - 1 then
      [Ev.cand ⟨value, frame * c.pageSize + i, pageAdd * c.pageSize + i⟩]
    else
      visitEvents c s fuel value (frame * c.pageSize + i) (depth + 1) (pageAdd * c.pageSize + i)
  else []

/-- One call of the public interface: `VMread` or `VMwrite` at a virtual
address. -/
inductive Op where
  | read (a : Nat) : Op
  | write (a v : Nat) : Op

/-- The physical-memory state after one interface call (an out-of-range
address leaves the state untouched, as in the source). -/
def runOp (c : Config) (s : PMState) : Op → PMState
  | Op.read a => (VMread c s a).2.2
  | Op.write a v => (VMwrite c s a v).2

/-- The physical-memory state after a sequence of interface calls. -/
def runOps (c : Config) (s : PMState) (ops : List Op) : PMState :=
  ops.foldl (runOp c) s

/-- The data-model invariant of reachable states (spec §3): the table tree
links every frame at most once, the linked frames are exactly
`0 .. maxLinked` with `maxLinked < NUM_FRAMES`, and every word outside the
tree's frames is 0. -/
def Inv (c : Config) (s : PMState) : Prop :=
  (nodesOf (treeEvents c s)).Nodup ∧
  (∀ g, g ∈ nodesOf (treeEvents c s) ↔ g ≤ maxLinked c s) ∧
  maxLinked c s < c.numFrames ∧
  (∀ g j, g ∉ nodesOf (treeEvents c s) → j < c.pageSize → s.ram (g * c.pageSize + j) = 0)

/-- The leaf-level mappings whose page number is `p` (at most one in a
well-formed tree). -/
def pageCands (c : Config) (s : PMState) (p : Nat) : List Cand :=
  (cands (treeEvents c s)).filter (fun cd => cd.page == p)

/-- The stored data of page `p` at in-page offset `j`: the mapped data
frame's word if the page is mapped, the backing-storage copy if it was
evicted, and 0 for a page never written. -/
def storedWord (c : Config) (s : PMState) (p j : Nat) : Nat :=
  match pageCands c s p with
  | cd :: _ => s.ram (cd.frame * c.pageSize + j)
  | [] =>
    match s.swap p with
    | some ct => ct j
    | none => 0

/-- What one `findNewFrame`-plus-link step of the translation loop
establishes: the invariant again, a nonzero frame linked at the written
entry (as a table below the leaf level, as a leaf-level mapping at it), an
eviction trace extended only by nonzero frames, and unchanged stored data
for every page other than the target. -/
def AllocPost (c : Config) (va : Nat) (s s2 : PMState) (g depG pAG i0 nf : Nat) : Prop :=
  Inv c s2 ∧ nf ≠ 0 ∧
  (if depG = c.tablesDepth - 1
    then (⟨nf, g * c.pageSize + i0, pAG * c.pageSize + i0⟩ : Cand) ∈ cands (treeEvents c s2)
    else Ev.table nf (g * c.pageSize + i0) (depG + 1) (pAG * c.pageSize + i0) ∈
      treeEvents c s2) ∧
  (∀ e ∈ s2.evicts, e ∈ s.evicts ∨ e.1 ≠ 0) ∧
  (∀ p' j, p' ≠ va / c.pageSize → j < c.pageSize →
    storedWord c s2 p' j = storedWord c s p' j)

/-- Two table levels but only two physical frames — fewer than the
`TABLES_DEPTH + 1` frames a single translation needs (`PAGE_SIZE = 2`,
`NUM_PAGES = 4`, `VIRTUAL_MEMORY_SIZE = 8`). -/
def cfg4 : Config := ⟨1, 2, 2⟩

/-! ## Theorems -/

/-- The source's `getOffset` (a shift pair on `uint64_t`) extracts the
`OFFSET_WIDTH` least significant bits, i.e. reduces modulo `PAGE_SIZE`. -/
theorem getOffset_eq_mod (c : Config) (a : Nat) (hw : c.offsetWidth ≤ 64) :
    getOffset c a = a % 2 ^ c.offsetWidth := by
  unfold getOffset
  have hp : 0 < 2 ^ (64 - c.offsetWidth) := Nat.pos_pow_of_pos _ (by norm_num)
  have hsplit : a = 2 ^ c.offsetWidth * (a / 2 ^ c.offsetWidth) + a % 2 ^ c.offsetWidth :=
    (Nat.div_add_mod a (2 ^ c.offsetWidth)).symm
  have hpow : 2 ^ c.offsetWidth * 2 ^ (64 - c.offsetWidth) = 2 ^ 64 := by
    rw [← pow_add]
    congr 1
    omega
  have hlt : a % 2 ^ c.offsetWidth * 2 ^ (64 - c.offsetWidth) < 2 ^ 64 := by
    calc a % 2 ^ c.offsetWidth * 2 ^ (64 - c.offsetWidth)
        < 2 ^ c.offsetWidth * 2 ^ (64 - c.offsetWidth) :=
          (Nat.mul_lt_mul_right hp).mpr (Nat.mod_lt _ (Nat.pos_pow_of_pos _ (by norm_num)))
      _ = 2 ^ 64 := hpow
  have key : a * 2 ^ (64 - c.offsetWidth) =
      a % 2 ^ c.offsetWidth * 2 ^ (64 - c.offsetWidth) + a / 2 ^ c.offsetWidth * 2 ^ 64 := by
    conv_lhs => rw [hsplit]
    rw [← hpow]
    ring
  rw [key, Nat.add_mul_mod_self_right, Nat.mod_eq_of_lt hlt, Nat.mul_div_cancel _ hp]

/-- C1: the round-trip property fails on the code.  Under `cfg1`
(one table level, two pages, two frames), after
`initialize; write(0,5); write(2,7); write(0,9)` — all of which succeed —
`read(0)` succeeds but returns 5, not the last value 9 written to address
0: the translation of an already-mapped page unconditionally calls
`PMrestore`, which overwrites the page's current data frame with the stale
copy saved by the eviction that `write(2,7)` forced. -/
theorem claim1_round_trip_violated :
    (VMwrite cfg1 ((VMwrite cfg1 ((VMwrite cfg1 ( VMinitialize cfg1 initialState) 0 5).2) 2 7).2) 0 9).1 = 1 ∧
    (VMread cfg1 rtState 0).1 = 1 ∧ (VMread cfg1 rtState 0).2.1 = some 5 ∧ (5 : Nat) ≠ 9 := by
  decide

/-- C4: `PMrestore` is not called only for freshly allocated leaf frames.
Under `cfg1`, after `initialize; write(0,5)` exactly one restore has
occurred (for the fresh data frame of page 0, as the claim describes), but
`read(0)` — whose page is already mapped, so the claim requires no
restore — performs a second `PMrestore` call: the source restores
unconditionally after every translation walk. -/
theorem claim4_restore_called_when_mapped :
    mappedState.restores = [(1, 0)] ∧
    (VMread cfg1 mappedState 0).1 = 1 ∧
    (VMread cfg1 mappedState 0).2.2.restores = [(1, 0), (1, 0)] := by
  decide

/-- C5: `VMread` and `VMwrite` return 0 exactly for addresses at or above
`VIRTUAL_MEMORY_SIZE`, leave the physical-memory state untouched in that
case, and return 1 for every in-range address. -/
theorem claim5_bounds_check : ∀ (c : Config) (s : PMState) (a v : Nat),
    ((VMread c s a).1 = 0 ↔ c.virtualMemorySize ≤ a) ∧
    ((VMwrite c s a v).1 = 0 ↔ c.virtualMemorySize ≤ a) ∧
    (c.virtualMemorySize ≤ a → (VMread c s a).2.2 = s ∧ (VMwrite c s a v).2 = s) ∧
    (a < c.virtualMemorySize → (VMread c s a).1 = 1 ∧ (VMwrite c s a v).1 = 1) := by
  intro c s a v
  have h1 : 1 ≤ c.virtualMemorySize := Nat.one_le_two_pow
  unfold VMread VMwrite
  by_cases h : c.virtualMemorySize ≤ a
  · have h2 : a > c.virtualMemorySize - 1 := by omega
    simp only [if_pos h2]
    exact ⟨by simp [h], by simp [h], fun _ => by simp, fun hlt => by omega⟩
  · have h2 : ¬(a > c.virtualMemorySize - 1) := by omega
    simp only [if_neg h2]
    exact ⟨by simp [h], by simp [h], fun hge => absurd hge h, fun _ => by simp⟩

/-- C5 witness: under `cfg1` (`VIRTUAL_MEMORY_SIZE = 4`), reading address 7
fails with 0 and writing address 2 succeeds with 1. -/
theorem claim5_bounds_check_witness :
    (VMread cfg1 initialState 7).1 = 0 ∧ (VMwrite cfg1 initialState 2 9).1 = 1 :=
  ⟨(claim5_bounds_check cfg1 initialState 7 0).1.mpr (by decide),
   ((claim5_bounds_check cfg1 initialState 2 9).2.2.2 (by decide)).2⟩

/-- C9: for in-range pages, `getCyclicDist a b` is
`min |a - b| (NUM_PAGES - |a - b|)`; in particular with `NUM_PAGES = 8`,
`d(1,6) = 3` and `d(0,7) = 1`. -/
theorem claim9_cyclic_distance :
    (∀ (c : Config) (a b : Nat), a < c.numPages → b < c.numPages →
      getCyclicDist c a b = min (Nat.dist a b) (c.numPages - Nat.dist a b)) ∧
    getCyclicDist cfg8 1 6 = 3 ∧ getCyclicDist cfg8 0 7 = 1 := by
  refine ⟨fun c a b _ _ => ?_, by decide, by decide⟩
  unfold getCyclicDist
  simp only [Nat.dist]
  split_ifs <;> omega

/-- C9 witness: the general formula applied at `NUM_PAGES = 8`, `a = 1`,
`b = 6`. -/
theorem claim9_cyclic_distance_witness :
    getCyclicDist cfg8 1 6 = min (Nat.dist 1 6) (cfg8.numPages - Nat.dist 1 6) :=
  claim9_cyclic_distance.1 cfg8 1 6 (by decide) (by decide)

/-- C10: when the allocator answers through the fresh-index tier it returns
`maxFrame + 1` and the physical-memory state completely unchanged (no word
of the returned frame is written), and the translator links such a frame
without clearing it: under `cfg3`, starting from a physical memory whose
word 3 (frame 1, word 1) is 42, `initialize; write(0, 9)` allocates frame 1
fresh for page 0 and word 3 still holds 42 afterwards — `read(1)` returns
it. -/
theorem claim10_fresh_frame_uncleared :
    (∀ (c : Config) (s : PMState) (va lcf : Nat),
      (findNewFrameHelper c s va lcf c.tablesDepth 0 0 0 0 ⟨0, 0, 0, 0, 0, 0⟩).emptyFrame = 0 →
      (findNewFrameHelper c s va lcf c.tablesDepth 0 0 0 0 ⟨0, 0, 0, 0, 0, 0⟩).maxFrame + 1 < c.numFrames →
      findNewFrame c s va lcf =
        ((findNewFrameHelper c s va lcf c.tablesDepth 0 0 0 0 ⟨0, 0, 0, 0, 0, 0⟩).maxFrame + 1, s)) ∧
    ((VMwrite cfg3 ( VMinitialize cfg3 dirtyState) 0 9).2.ram 3 = 42 ∧
     (VMread cfg3 (VMwrite cfg3 ( VMinitialize cfg3 dirtyState) 0 9).2 1).2.1 = some 42) := by
  constructor
  · intro c s va lcf h1 h2
    unfold findNewFrame
    simp only [h1, h2, ne_eq, not_true_eq_false, if_false, if_true, not_false_eq_true]
  · decide

/-- C10 witness: the fresh-index tier applied concretely — the allocator
returns frame 1 under `cfg3` after `initialize` on the dirty memory,
leaving the state untouched. -/
theorem claim10_fresh_frame_uncleared_witness :
    findNewFrame cfg3 ( VMinitialize cfg3 dirtyState) 0 0 =
      ((findNewFrameHelper cfg3 ( VMinitialize cfg3 dirtyState) 0 0 cfg3.tablesDepth 0 0 0 0
          ⟨0, 0, 0, 0, 0, 0⟩).maxFrame + 1,
       VMinitialize cfg3 dirtyState) :=
  claim10_fresh_frame_uncleared.1 cfg3 ( VMinitialize cfg3 dirtyState) 0 0 (by decide) (by decide)

/-- C2 counterexample: an all-zero data frame is a frame linked in the tree
with all `PAGE_SIZE` entries equal to 0, yet the allocator evicts.  In the
`cfg2` state reached while translating address 4 after
`initialize; write(0,0)` (root links frames 1 and 3, frame 1 links the
all-zero data frame 2, frame 3 is the protected frame), frame 2 is linked,
differs from the protected frame, and is all-zero, but
`findNewFrame` performs a `PMevict` call — the traversal never inspects
data frames for emptiness. -/
theorem claim2_counterexample :
    2 ∈ linkVals (treeEvents cfg2 midState) ∧ (2 : Nat) ≠ 3 ∧
    allZeroFrame cfg2 midState 2 = true ∧
    midState.evicts = [] ∧ (findNewFrame cfg2 midState 4 3).2.evicts = [(2, 0)] := by
  decide


theorem helper_pres (c : Config) (s : PMState) (va lcf : Nat)
    (fuel frame parentAdd depth pageAdd : Nat) (acc : FindAcc)
    (h : acc.emptyFrame ≠ 0) :
    findNewFrameHelper c s va lcf fuel frame parentAdd depth pageAdd acc = acc := by
  cases fuel with
  | zero => rfl
  | succ fuel => simp [findNewFrameHelper, h]

theorem frameScan_pres (c : Config) (s : PMState) (va : Nat)
    (frame depth pageAdd : Nat)
    (hdescend : Nat → Nat → Nat → FindAcc → FindAcc)
    (hpres : ∀ v ea p a, a.emptyFrame ≠ 0 → hdescend v ea p a = a) :
    ∀ (count i : Nat) (acc : FindAcc), acc.emptyFrame ≠ 0 →
      (frameScan c s frame depth va pageAdd hdescend count i acc).1.emptyFrame = acc.emptyFrame ∧
      (frameScan c s frame depth va pageAdd hdescend count i acc).1.emptyParentAdd = acc.emptyParentAdd := by
  intro count
  induction count with
  | zero => intro i acc h; exact ⟨rfl, rfl⟩
  | succ count ih =>
    intro i acc h
    simp only [frameScan]
    by_cases hv : PMread s (frame * c.pageSize + i) ≠ 0
    · simp only [if_pos hv]
      set acc1 := if PMread s (frame * c.pageSize + i) > acc.maxFrame then
        { acc with maxFrame := PMread s (frame * c.pageSize + i) } else acc with hacc1
      have h1 : acc1.emptyFrame = acc.emptyFrame ∧ acc1.emptyParentAdd = acc.emptyParentAdd := by
        rw [hacc1]; split <;> exact ⟨rfl, rfl⟩
      by_cases hdep : depth = c.tablesDepth - 1
      · simp only [if_pos hdep]
        set acc2 := if getCyclicDist c (va / c.pageSize) (pageAdd * c.pageSize + i) >
            getCyclicDist c (va / c.pageSize) acc1.maxDistPage ∨ acc1.maxDistFrame = 0 then
          { acc1 with
            maxDistParentAdd := frame * c.pageSize + i,
            maxDistFrame := PMread s (frame * c.pageSize + i),
            maxDistPage := pageAdd * c.pageSize + i } else acc1 with hacc2
        have h2 : acc2.emptyFrame = acc.emptyFrame ∧ acc2.emptyParentAdd = acc.emptyParentAdd := by
          rw [hacc2]; split <;> simp [h1.1, h1.2]
        have := ih (i + 1) acc2 (by rw [h2.1]; exact h)
        exact ⟨this.1.trans h2.1, this.2.trans h2.2⟩
      · simp only [if_neg hdep]
        have hd2 : hdescend (PMread s (frame * c.pageSize + i)) (frame * c.pageSize + i)
            (pageAdd * c.pageSize + i) acc1 = acc1 := hpres _ _ _ _ (by rw [h1.1]; exact h)
        rw [hd2]
        have := ih (i + 1) acc1 (by rw [h1.1]; exact h)
        exact ⟨this.1.trans h1.1, this.2.trans h1.2⟩
    · simp only [if_neg hv]
      exact ih (i + 1) acc h
  


theorem firstEmptyTable_some_props (c : Config) (s : PMState) (lcf : Nat) :
    ∀ (l : List Ev) (f q : Nat), firstEmptyTable c s lcf l = some (f, q) →
      f ≠ 0 ∧ allZeroFrame c s f = true ∧ f ≠ lcf := by
  intro l
  induction l with
  | nil => intro f q h; exact absurd h (by simp [firstEmptyTable])
  | cons e rest ih =>
    intro f q h
    cases e with
    | table g pa d p =>
      rw [firstEmptyTable] at h
      split at h
      · rename_i hcond
        cases h
        exact hcond
      · exact ih f q h
    | cand cd =>
      rw [firstEmptyTable] at h
      exact ih f q h

theorem firstEmptyTable_append (c : Config) (s : PMState) (lcf : Nat) :
    ∀ (l1 l2 : List Ev),
      firstEmptyTable c s lcf (l1 ++ l2) =
        (match firstEmptyTable c s lcf l1 with
         | some x => some x
         | none => firstEmptyTable c s lcf l2) := by
  intro l1
  induction l1 with
  | nil => intro l2; simp [firstEmptyTable]
  | cons e rest ih =>
    intro l2
    cases e with
    | table g pa d p =>
      rw [List.cons_append, firstEmptyTable, firstEmptyTable]
      split
      · rfl
      · exact ih l2
    | cand cd =>
      rw [List.cons_append, firstEmptyTable, firstEmptyTable]
      exact ih l2

theorem evStep_empty (c : Config) (va : Nat) (acc : FindAcc) (e : Ev) :
    (evStep c va acc e).emptyFrame = acc.emptyFrame ∧
    (evStep c va acc e).emptyParentAdd = acc.emptyParentAdd := by
  cases e with
  | table f pa d p => rw [evStep]; split_ifs <;> exact ⟨rfl, rfl⟩
  | cand cd =>
    rw [evStep]
    split_ifs <;> simp_all

theorem applyEvents_append (c : Config) (va : Nat) (acc : FindAcc) (l1 l2 : List Ev) :
    applyEvents c va acc (l1 ++ l2) = applyEvents c va (applyEvents c va acc l1) l2 := by
  simp [applyEvents, List.foldl_append]

theorem applyEvents_empty (c : Config) (va : Nat) :
    ∀ (l : List Ev) (acc : FindAcc),
      (applyEvents c va acc l).emptyFrame = acc.emptyFrame ∧
      (applyEvents c va acc l).emptyParentAdd = acc.emptyParentAdd := by
  intro l
  induction l with
  | nil => intro acc; exact ⟨rfl, rfl⟩
  | cons e rest ih =>
    intro acc
    have h1 := evStep_empty c va acc e
    have h2 := ih (evStep c va acc e)
    exact ⟨h2.1.trans h1.1, h2.2.trans h1.2⟩

theorem rangeZero_eq_allZero (c : Config) (s : PMState) (f : Nat) :
    rangeZero c s f 0 c.pageSize = allZeroFrame c s f := by
  simp [rangeZero, allZeroFrame, List.range_eq_range']

theorem rangeZero_succ (c : Config) (s : PMState) (f i count : Nat) :
    rangeZero c s f i (count + 1) =
      ((PMread s (f * c.pageSize + i) == 0) && rangeZero c s f (i + 1) count) := by
  simp [rangeZero, List.range'_succ]

theorem eventsScan_nil_of_rangeZero (c : Config) (s : PMState) (frame depth pageAdd : Nat)
    (edescend : Nat → Nat → Nat → List Ev) :
    ∀ (count i : Nat), rangeZero c s frame i count = true →
      eventsScan c s frame depth pageAdd edescend count i = [] := by
  intro count
  induction count with
  | zero => intro i h; rfl
  | succ count ih =>
    intro i h
    rw [rangeZero_succ] at h
    simp only [Bool.and_eq_true, beq_iff_eq] at h
    rw [eventsScan]
    simp only [h.1, ne_eq, not_true_eq_false, if_false]
    exact ih (i + 1) h.2

theorem foldr_max_lt (numFrames : Nat) (hpos : 0 < numFrames) :
    ∀ l : List Nat, (∀ v ∈ l, v < numFrames) → l.foldr max 0 < numFrames := by
  intro l
  induction l with
  | nil => intro _; exact hpos
  | cons v rest ih =>
    intro h
    simp only [List.foldr_cons]
    exact max_lt (h v (by simp)) (ih fun x hx => h x (by simp [hx]))

theorem le_foldr_max : ∀ (l : List Nat) (v : Nat), v ∈ l → v ≤ l.foldr max 0 := by
  intro l
  induction l with
  | nil => intro v hv; exact absurd hv (by simp)
  | cons w rest ih =>
    intro v hv
    simp only [List.foldr_cons]
    rcases List.mem_cons.mp hv with h | h
    · exact h ▸ le_max_left _ _
    · exact le_trans (ih v h) (le_max_right _ _)



theorem evStep_table_maxFrame (c : Config) (va : Nat) (acc : FindAcc)
    (f pa d p : Nat) (hf : f ≠ 0) :
    (evStep c va acc (Ev.table f pa d p)).maxFrame = max acc.maxFrame f := by
  rw [evStep]
  split_ifs <;> simp_all <;> omega

theorem evStep_cand_maxFrame (c : Config) (va : Nat) (acc : FindAcc) (cd : Cand) :
    (evStep c va acc (Ev.cand cd)).maxFrame = max acc.maxFrame cd.frame := by
  rw [evStep]
  split_ifs <;> simp_all <;> omega

theorem applyEvents_maxFrame (c : Config) (va : Nat) :
    ∀ (l : List Ev) (acc : FindAcc),
      (applyEvents c va acc l).maxFrame = max acc.maxFrame ((linkVals l).foldr max 0) := by
  intro l
  induction l with
  | nil => intro acc; simp [applyEvents, linkVals]
  | cons e rest ih =>
    intro acc
    have hstep : applyEvents c va acc (e :: rest) = applyEvents c va (evStep c va acc e) rest := rfl
    cases e with
    | table f pa d p =>
      by_cases hf : f = 0
      · rw [hstep, ih]
        have : evStep c va acc (Ev.table f pa d p) = acc := by rw [evStep]; simp [hf]
        rw [this]
        simp [linkVals, hf]
      · rw [hstep, ih, evStep_table_maxFrame c va acc f pa d p hf]
        simp only [linkVals, if_neg hf, List.singleton_append, List.foldr_cons]
        omega
    | cand cd =>
      rw [hstep, ih, evStep_cand_maxFrame]
      simp only [linkVals, List.foldr_cons]
      omega

theorem evStep_table_dist (c : Config) (va : Nat) (acc : FindAcc) (f pa d p : Nat) :
    (evStep c va acc (Ev.table f pa d p)).maxDistFrame = acc.maxDistFrame ∧
    (evStep c va acc (Ev.table f pa d p)).maxDistParentAdd = acc.maxDistParentAdd ∧
    (evStep c va acc (Ev.table f pa d p)).maxDistPage = acc.maxDistPage := by
  rw [evStep]
  split_ifs <;> simp_all

theorem evStep_cand_dist (c : Config) (va : Nat) (acc : FindAcc) (cd : Cand) :
    ((evStep c va acc (Ev.cand cd)).maxDistFrame, (evStep c va acc (Ev.cand cd)).maxDistParentAdd,
      (evStep c va acc (Ev.cand cd)).maxDistPage) =
    (if getCyclicDist c (va / c.pageSize) cd.page > getCyclicDist c (va / c.pageSize) acc.maxDistPage
        ∨ acc.maxDistFrame = 0
     then (cd.frame, cd.entryAdd, cd.page)
     else (acc.maxDistFrame, acc.maxDistParentAdd, acc.maxDistPage)) := by
  rw [evStep]
  by_cases hmax : cd.frame > acc.maxFrame <;> simp only [hmax, if_true, if_false] <;>
    split_ifs <;> simp_all

theorem applyEvents_dist (c : Config) (va : Nat) :
    ∀ (l : List Ev) (acc : FindAcc),
      ((applyEvents c va acc l).maxDistFrame, (applyEvents c va acc l).maxDistParentAdd,
        (applyEvents c va acc l).maxDistPage) =
      distFold c va (acc.maxDistFrame, acc.maxDistParentAdd, acc.maxDistPage) (cands l) := by
  intro l
  induction l with
  | nil => intro acc; simp [applyEvents, cands, distFold]
  | cons e rest ih =>
    intro acc
    have hstep : applyEvents c va acc (e :: rest) = applyEvents c va (evStep c va acc e) rest := rfl
    cases e with
    | table f pa d p =>
      rw [hstep, ih]
      have h := evStep_table_dist c va acc f pa d p
      rw [h.1, h.2.1, h.2.2]
      rfl
    | cand cd =>
      rw [hstep, ih]
      have hcands : cands (Ev.cand cd :: rest) = cd :: cands rest := rfl
      rw [hcands, distFold]
      congr 1
      rw [evStep_cand_dist]
      simp only [candDist]



theorem cands_append : ∀ l1 l2 : List Ev, cands (l1 ++ l2) = cands l1 ++ cands l2 := by
  intro l1
  induction l1 with
  | nil => intro l2; rfl
  | cons e rest ih =>
    intro l2
    cases e with
    | table f pa d p => rw [List.cons_append, cands, cands]; exact ih l2
    | cand cd => rw [List.cons_append, cands, cands, ih l2]; rfl

theorem tableFrames_append : ∀ l1 l2 : List Ev, tableFrames (l1 ++ l2) = tableFrames l1 ++ tableFrames l2 := by
  intro l1
  induction l1 with
  | nil => intro l2; rfl
  | cons e rest ih =>
    intro l2
    cases e with
    | table f pa d p => rw [List.cons_append, tableFrames, tableFrames, ih l2]; rfl
    | cand cd => rw [List.cons_append, tableFrames, tableFrames]; exact ih l2

theorem linkVals_append : ∀ l1 l2 : List Ev, linkVals (l1 ++ l2) = linkVals l1 ++ linkVals l2 := by
  intro l1
  induction l1 with
  | nil => intro l2; rfl
  | cons e rest ih =>
    intro l2
    cases e with
    | table f pa d p => rw [List.cons_append, linkVals, linkVals, ih l2]; rw [List.append_assoc]
    | cand cd => rw [List.cons_append, linkVals, linkVals, ih l2]; rfl

theorem table_mem_linkVals : ∀ (l : List Ev) (f : Nat), f ∈ tableFrames l → f ≠ 0 → f ∈ linkVals l := by
  intro l
  induction l with
  | nil => intro f h; exact absurd h (by simp [tableFrames])
  | cons e rest ih =>
    intro f h hf
    cases e with
    | table g pa d p =>
      rw [tableFrames] at h
      rw [linkVals]
      rcases List.mem_cons.mp h with h1 | h1
      · subst h1
        simp [hf]
      · simp only [List.mem_append]
        exact Or.inr (ih f h1 hf)
    | cand cd =>
      rw [tableFrames] at h
      rw [linkVals]
      exact List.mem_cons_of_mem _ (ih f h hf)

theorem cand_mem_linkVals : ∀ (l : List Ev) (cd : Cand), cd ∈ cands l → cd.frame ∈ linkVals l := by
  intro l
  induction l with
  | nil => intro cd h; exact absurd h (by simp [cands])
  | cons e rest ih =>
    intro cd h
    cases e with
    | table g pa d p =>
      rw [cands] at h
      rw [linkVals]
      simp only [List.mem_append]
      exact Or.inr (ih cd h)
    | cand cd2 =>
      rw [cands] at h
      rw [linkVals]
      rcases List.mem_cons.mp h with h1 | h1
      · subst h1; exact List.mem_cons_self _ _
      · exact List.mem_cons_of_mem _ (ih cd h1)

theorem cands_eventsScan_nonzero (c : Config) (s : PMState) (frame depth pageAdd : Nat)
    (edescend : Nat → Nat → Nat → List Ev)
    (hed : ∀ v ea p, v ≠ 0 → ∀ cd ∈ cands (edescend v ea p), cd.frame ≠ 0) :
    ∀ (count i : Nat), ∀ cd ∈ cands (eventsScan c s frame depth pageAdd edescend count i),
      cd.frame ≠ 0 := by
  intro count
  induction count with
  | zero => intro i cd h; exact absurd h (by simp [eventsScan, cands])
  | succ count ih =>
    intro i cd h
    rw [eventsScan] at h
    by_cases hv : PMread s (frame * c.pageSize + i) ≠ 0
    · rw [if_pos hv] at h
      rw [cands_append] at h
      rcases List.mem_append.mp h with h1 | h1
      · split at h1
        · simp only [cands, List.mem_cons, List.not_mem_nil, or_false] at h1
          subst h1
          exact hv
        · exact hed _ _ _ hv cd h1
      · exact ih (i + 1) cd h1
    · rw [if_neg hv] at h
      exact ih (i + 1) cd h

theorem cands_visit_nonzero (c : Config) (s : PMState) :
    ∀ (fuel frame parentAdd depth pageAdd : Nat),
      ∀ cd ∈ cands (visitEvents c s fuel frame parentAdd depth pageAdd), cd.frame ≠ 0 := by
  intro fuel
  induction fuel with
  | zero => intro frame pa depth p cd h; exact absurd h (by simp [visitEvents, cands])
  | succ fuel ih =>
    intro frame pa depth p cd h
    rw [visitEvents, cands] at h
    exact cands_eventsScan_nonzero c s frame depth p _
      (fun v ea q hv => ih v ea (depth + 1) q) c.pageSize 0 cd h



theorem frameScan_corr (c : Config) (s : PMState) (va lcf : Nat)
    (frame depth pageAdd : Nat)
    (hdescend : Nat → Nat → Nat → FindAcc → FindAcc)
    (edescend : Nat → Nat → Nat → List Ev)
    (hpres : ∀ v ea p a, a.emptyFrame ≠ 0 → hdescend v ea p a = a)
    (hcorr : ∀ v ea p a, depth ≠ c.tablesDepth - 1 → v ≠ 0 → a.emptyFrame = 0 →
      (∀ f q, firstEmptyTable c s lcf (edescend v ea p) = some (f, q) →
          (hdescend v ea p a).emptyFrame = f ∧ (hdescend v ea p a).emptyParentAdd = q) ∧
      (firstEmptyTable c s lcf (edescend v ea p) = none →
          hdescend v ea p a = applyEvents c va a (edescend v ea p).tail))
    (hhead : ∀ v ea p, depth ≠ c.tablesDepth - 1 → v ≠ 0 →
        ∃ tl, edescend v ea p = Ev.table v ea (depth + 1) p :: tl) :
    ∀ (count i : Nat) (acc : FindAcc), acc.emptyFrame = 0 →
      (∀ f q, firstEmptyTable c s lcf (eventsScan c s frame depth pageAdd edescend count i) = some (f, q) →
          (frameScan c s frame depth va pageAdd hdescend count i acc).1.emptyFrame = f ∧
          (frameScan c s frame depth va pageAdd hdescend count i acc).1.emptyParentAdd = q) ∧
      (firstEmptyTable c s lcf (eventsScan c s frame depth pageAdd edescend count i) = none →
          (frameScan c s frame depth va pageAdd hdescend count i acc).1 =
            applyEvents c va acc (eventsScan c s frame depth pageAdd edescend count i)) ∧
      ((frameScan c s frame depth va pageAdd hdescend count i acc).2 = rangeZero c s frame i count) := by
  intro count
  induction count with
  | zero =>
    intro i acc hacc
    refine ⟨fun f q h => absurd h (by simp [eventsScan, firstEmptyTable]), fun _ => rfl, ?_⟩
    simp [frameScan, rangeZero]
  | succ count ih =>
    intro i acc hacc
    by_cases hv : PMread s (frame * c.pageSize + i) ≠ 0
    · -- nonzero entry
      rw [frameScan, eventsScan]
      simp only [if_pos hv]
      have hrz : rangeZero c s frame i (count + 1) = false := by
        rw [rangeZero_succ]
        simp [hv]
      have hacc1 : (if PMread s (frame * c.pageSize + i) > acc.maxFrame then
          { acc with maxFrame := PMread s (frame * c.pageSize + i) } else acc).emptyFrame = acc.emptyFrame ∧
          (if PMread s (frame * c.pageSize + i) > acc.maxFrame then
          { acc with maxFrame := PMread s (frame * c.pageSize + i) } else acc).emptyParentAdd = acc.emptyParentAdd := by
        split <;> exact ⟨rfl, rfl⟩
      by_cases hdep : depth = c.tablesDepth - 1
      · -- leaf level: the entry is a candidate
        simp only [if_pos hdep]
        set cd : Cand := ⟨PMread s (frame * c.pageSize + i), frame * c.pageSize + i,
          pageAdd * c.pageSize + i⟩ with hcd
        have hacc2 : (let acc1 := if PMread s (frame * c.pageSize + i) > acc.maxFrame then
              { acc with maxFrame := PMread s (frame * c.pageSize + i) } else acc
            if getCyclicDist c (va / c.pageSize) (pageAdd * c.pageSize + i) >
                getCyclicDist c (va / c.pageSize) acc1.maxDistPage ∨ acc1.maxDistFrame = 0 then
              { acc1 with
                maxDistParentAdd := frame * c.pageSize + i,
                maxDistFrame := PMread s (frame * c.pageSize + i),
                maxDistPage := pageAdd * c.pageSize + i }
            else acc1) = evStep c va acc (Ev.cand cd) := rfl
        rw [hacc2]
        have hemp2 : (evStep c va acc (Ev.cand cd)).emptyFrame = 0 :=
          (evStep_empty c va acc (Ev.cand cd)).1.trans hacc
        obtain ⟨IH1, IH2, IH3⟩ := ih (i + 1) (evStep c va acc (Ev.cand cd)) hemp2
        have hfes : firstEmptyTable c s lcf
            ([Ev.cand cd] ++ eventsScan c s frame depth pageAdd edescend count (i + 1)) =
            firstEmptyTable c s lcf (eventsScan c s frame depth pageAdd edescend count (i + 1)) := by
          rw [List.singleton_append, firstEmptyTable]
        refine ⟨?_, ?_, ?_⟩
        · intro f q h
          rw [hfes] at h
          exact IH1 f q h
        · intro h
          rw [hfes] at h
          have := IH2 h
          try dsimp only
          rw [this, List.singleton_append]
          rfl
        · try dsimp only
          rw [hrz]
      · -- interior level: descend
        simp only [if_neg hdep]
        obtain ⟨tl, htl⟩ := hhead _ (frame * c.pageSize + i) (pageAdd * c.pageSize + i) hdep hv
        set acc1 := if PMread s (frame * c.pageSize + i) > acc.maxFrame then
          { acc with maxFrame := PMread s (frame * c.pageSize + i) } else acc with hacc1def
        have hevt : evStep c va acc
            (Ev.table (PMread s (frame * c.pageSize + i)) (frame * c.pageSize + i) (depth + 1)
              (pageAdd * c.pageSize + i)) = acc1 := by
          rw [evStep, if_neg hv, hacc1def]
        have hfe1 : acc1.emptyFrame = 0 := hacc1.1.trans hacc
        obtain ⟨Hsome, Hnone⟩ := hcorr _ (frame * c.pageSize + i) (pageAdd * c.pageSize + i)
          acc1 hdep hv hfe1
        rcases hfe : firstEmptyTable c s lcf
            (edescend (PMread s (frame * c.pageSize + i)) (frame * c.pageSize + i)
              (pageAdd * c.pageSize + i)) with _ | ⟨f0, q0⟩
        · -- child subtree contains no empty frame
          have hacc2 : hdescend (PMread s (frame * c.pageSize + i)) (frame * c.pageSize + i)
              (pageAdd * c.pageSize + i) acc1 =
              applyEvents c va acc
                (edescend (PMread s (frame * c.pageSize + i)) (frame * c.pageSize + i)
                  (pageAdd * c.pageSize + i)) := by
            rw [Hnone hfe, htl]
            have : (Ev.table (PMread s (frame * c.pageSize + i)) (frame * c.pageSize + i)
                (depth + 1) (pageAdd * c.pageSize + i) :: tl).tail = tl := rfl
            rw [this]
            have happ : applyEvents c va acc
                (Ev.table (PMread s (frame * c.pageSize + i)) (frame * c.pageSize + i)
                  (depth + 1) (pageAdd * c.pageSize + i) :: tl) =
                applyEvents c va (evStep c va acc
                  (Ev.table (PMread s (frame * c.pageSize + i)) (frame * c.pageSize + i)
                    (depth + 1) (pageAdd * c.pageSize + i))) tl := rfl
            rw [happ, hevt]
          have hemp2 : (hdescend (PMread s (frame * c.pageSize + i)) (frame * c.pageSize + i)
              (pageAdd * c.pageSize + i) acc1).emptyFrame = 0 := by
            rw [hacc2]
            exact (applyEvents_empty c va _ acc).1.trans hacc
          obtain ⟨IH1, IH2, IH3⟩ := ih (i + 1) _ hemp2
          have hfes : firstEmptyTable c s lcf
              (edescend (PMread s (frame * c.pageSize + i)) (frame * c.pageSize + i)
                  (pageAdd * c.pageSize + i) ++
                eventsScan c s frame depth pageAdd edescend count (i + 1)) =
              firstEmptyTable c s lcf (eventsScan c s frame depth pageAdd edescend count (i + 1)) := by
            rw [firstEmptyTable_append, hfe]
          refine ⟨?_, ?_, ?_⟩
          · intro f q h
            rw [hfes] at h
            exact IH1 f q h
          · intro h
            rw [hfes] at h
            have := IH2 h
            try dsimp only
            rw [this, applyEvents_append, hacc2]
          · try dsimp only
            rw [hrz]
        · -- child subtree contains the first empty frame
          have hf0 := firstEmptyTable_some_props c s lcf _ f0 q0 hfe
          have hacc2 := Hsome f0 q0 hfe
          have hne : (hdescend (PMread s (frame * c.pageSize + i)) (frame * c.pageSize + i)
              (pageAdd * c.pageSize + i) acc1).emptyFrame ≠ 0 := by
            rw [hacc2.1]
            exact hf0.1
          have hpr := frameScan_pres c s va frame depth pageAdd hdescend hpres count (i + 1) _ hne
          have hfes : firstEmptyTable c s lcf
              (edescend (PMread s (frame * c.pageSize + i)) (frame * c.pageSize + i)
                  (pageAdd * c.pageSize + i) ++
                eventsScan c s frame depth pageAdd edescend count (i + 1)) = some (f0, q0) := by
            rw [firstEmptyTable_append, hfe]
          refine ⟨?_, ?_, ?_⟩
          · intro f q h
            rw [hfes] at h
            cases h
            try dsimp only
            exact ⟨hpr.1.trans hacc2.1, hpr.2.trans hacc2.2⟩
          · intro h
            rw [hfes] at h
            exact absurd h (by simp)
          · try dsimp only
            rw [hrz]
    · -- zero entry: skip
      rw [frameScan, eventsScan]
      simp only [if_neg hv]
      obtain ⟨IH1, IH2, IH3⟩ := ih (i + 1) acc hacc
      simp only [ne_eq, not_not] at hv
      refine ⟨IH1, IH2, ?_⟩
      rw [IH3, rangeZero_succ]
      simp [hv]



theorem findNewFrameHelper_corr (c : Config) (s : PMState) (va lcf : Nat) :
    ∀ (fuel : Nat), ∀ (frame parentAdd depth pageAdd : Nat) (acc : FindAcc),
      acc.emptyFrame = 0 →
      (frame = 0 → parentAdd = acc.emptyParentAdd) →
      depth + 1 ≤ c.tablesDepth →
      c.tablesDepth ≤ depth + fuel →
      (∀ f q, firstEmptyTable c s lcf (visitEvents c s fuel frame parentAdd depth pageAdd) = some (f, q) →
          (findNewFrameHelper c s va lcf fuel frame parentAdd depth pageAdd acc).emptyFrame = f ∧
          (findNewFrameHelper c s va lcf fuel frame parentAdd depth pageAdd acc).emptyParentAdd = q) ∧
      (firstEmptyTable c s lcf (visitEvents c s fuel frame parentAdd depth pageAdd) = none →
          findNewFrameHelper c s va lcf fuel frame parentAdd depth pageAdd acc =
            applyEvents c va acc (visitEvents c s fuel frame parentAdd depth pageAdd).tail) := by
  intro fuel
  induction fuel with
  | zero =>
    intro frame pa depth p acc hacc hroot hd1 hd2
    omega
  | succ fuel ih =>
    intro frame pa depth p acc hacc hroot hd1 hd2
    have hnn : ¬(acc.emptyFrame ≠ 0) := by simp [hacc]
    have HS := frameScan_corr c s va lcf frame depth p
      (fun value entryAdd ithPageAdd a =>
        findNewFrameHelper c s va lcf fuel value entryAdd (depth + 1) ithPageAdd a)
      (fun v ea pp => visitEvents c s fuel v ea (depth + 1) pp)
      (fun v ea pp a hne => helper_pres c s va lcf fuel v ea (depth + 1) pp a hne)
      (fun v ea pp a hdep hvne ha => by
        have hd1' : (depth + 1) + 1 ≤ c.tablesDepth := by omega
        have hd2' : c.tablesDepth ≤ (depth + 1) + fuel := by omega
        exact ih v ea (depth + 1) pp a ha (fun h0 => absurd h0 hvne) hd1' hd2')
      (fun v ea pp hdep hvne => by
        have hf1 : 1 ≤ fuel := by omega
        obtain ⟨f', rfl⟩ : ∃ f', fuel = f' + 1 := ⟨fuel - 1, by omega⟩
        exact ⟨_, rfl⟩)
      c.pageSize 0 acc hacc
    obtain ⟨HS1, HS2, HS3⟩ := HS
    rw [visitEvents, findNewFrameHelper, if_neg hnn]
    rw [firstEmptyTable]
    by_cases hC0 : frame ≠ 0 ∧ allZeroFrame c s frame = true ∧ frame ≠ lcf
    · -- this frame is the first empty one
      have hz : rangeZero c s frame 0 c.pageSize = true := by
        rw [rangeZero_eq_allZero]; exact hC0.2.1
      have hnil : eventsScan c s frame depth p
          (fun v ea pp => visitEvents c s fuel v ea (depth + 1) pp) c.pageSize 0 = [] :=
        eventsScan_nil_of_rangeZero c s frame depth p _ c.pageSize 0 hz
      have hr1 : (frameScan c s frame depth va p
          (fun value entryAdd ithPageAdd a =>
            findNewFrameHelper c s va lcf fuel value entryAdd (depth + 1) ithPageAdd a)
          c.pageSize 0 acc).1 = acc := by
        have := HS2 (by rw [hnil]; rfl)
        rw [this, hnil]
        rfl
      have hr2 : (frameScan c s frame depth va p
          (fun value entryAdd ithPageAdd a =>
            findNewFrameHelper c s va lcf fuel value entryAdd (depth + 1) ithPageAdd a)
          c.pageSize 0 acc).2 = true := by rw [HS3, hz]
      rw [if_pos hC0]
      constructor
      · intro f q h
        cases h
        rw [if_pos ⟨hr2, hC0.2.2⟩]
        exact ⟨by rw [hr1], by rw [hr1]⟩
      · intro h
        exact absurd h (by simp)
    · -- this frame is not selected; continue with the scan
      rw [if_neg hC0]
      by_cases hz : allZeroFrame c s frame = true
      · -- all-zero but root or protected
        have hz' : rangeZero c s frame 0 c.pageSize = true := by
          rw [rangeZero_eq_allZero]; exact hz
        have hnil : eventsScan c s frame depth p
            (fun v ea pp => visitEvents c s fuel v ea (depth + 1) pp) c.pageSize 0 = [] :=
          eventsScan_nil_of_rangeZero c s frame depth p _ c.pageSize 0 hz'
        have hr1 : (frameScan c s frame depth va p
            (fun value entryAdd ithPageAdd a =>
              findNewFrameHelper c s va lcf fuel value entryAdd (depth + 1) ithPageAdd a)
            c.pageSize 0 acc).1 = acc := by
          have := HS2 (by rw [hnil]; rfl)
          rw [this, hnil]
          rfl
        have hr2 : (frameScan c s frame depth va p
            (fun value entryAdd ithPageAdd a =>
              findNewFrameHelper c s va lcf fuel value entryAdd (depth + 1) ithPageAdd a)
            c.pageSize 0 acc).2 = true := by rw [HS3, hz']
        constructor
        · intro f q h
          rw [hnil] at h
          exact absurd h (by simp [firstEmptyTable])
        · intro h
          have hfl : frame = 0 ∨ frame = lcf := by
            by_contra hcon
            push_neg at hcon
            exact hC0 ⟨hcon.1, hz, hcon.2⟩
          rw [List.tail_cons, hnil]
          rcases hfl with hfl | hfl
          · -- the root: flagging writes back the values already there
            by_cases hlf : frame ≠ lcf
            · rw [if_pos ⟨hr2, hlf⟩, hr1]
              rw [hfl, ← hacc, hroot hfl]
              rfl
            · rw [if_neg (by simp [hlf]), hr1]
              rfl
          · rw [if_neg (by simp [hfl]), hr1]
            rfl
      · -- some entry is nonzero
        have hz' : rangeZero c s frame 0 c.pageSize = false := by
          rw [rangeZero_eq_allZero]
          exact Bool.not_eq_true _ ▸ hz
        have hr2 : (frameScan c s frame depth va p
            (fun value entryAdd ithPageAdd a =>
              findNewFrameHelper c s va lcf fuel value entryAdd (depth + 1) ithPageAdd a)
            c.pageSize 0 acc).2 = false := by rw [HS3, hz']
        rw [if_neg (by rw [hr2]; simp)]
        constructor
        · intro f q h
          exact HS1 f q h
        · intro h
          rw [List.tail_cons]
          exact HS2 h



theorem foldl_write_evicts {α : Type} (f : PMState → α → PMState)
    (hf : ∀ st x, (f st x).evicts = st.evicts) :
    ∀ (l : List α) (s : PMState), (l.foldl f s).evicts = s.evicts := by
  intro l
  induction l with
  | nil => intro s; rfl
  | cons a l ih => intro s; rw [List.foldl_cons, ih, hf]

theorem clearFrame_evicts (c : Config) (s : PMState) (f : Nat) :
    (clearFrame c s f).evicts = s.evicts := by
  unfold clearFrame
  exact foldl_write_evicts (fun st i => PMwrite st (f * c.pageSize + i) 0)
    (fun _ _ => rfl) (List.range c.pageSize) s

theorem foldl_write_zero_ram (c : Config) (f : Nat) :
    ∀ (l : List Nat) (s : PMState) (x : Nat),
      (l.foldl (fun st i => PMwrite st (f * c.pageSize + i) 0) s).ram x =
        if ∃ i ∈ l, x = f * c.pageSize + i then 0 else s.ram x := by
  intro l
  induction l with
  | nil => intro s x; simp
  | cons a l ih =>
    intro s x
    rw [List.foldl_cons, ih]
    by_cases h1 : ∃ i ∈ l, x = f * c.pageSize + i
    · rw [if_pos h1, if_pos ⟨h1.choose, List.mem_cons_of_mem _ h1.choose_spec.1, h1.choose_spec.2⟩]
    · rw [if_neg h1]
      by_cases h2 : x = f * c.pageSize + a
      · rw [if_pos ⟨a, List.mem_cons_self _ _, h2⟩]
        simp [PMwrite, h2]
      · have h3 : ¬ ∃ i ∈ a :: l, x = f * c.pageSize + i := by
          rintro ⟨i, hi, hx⟩
          rcases List.mem_cons.mp hi with rfl | hi
          · exact h2 hx
          · exact h1 ⟨i, hi, hx⟩
        rw [if_neg h3]
        simp [PMwrite, h2]

theorem clearFrame_ram (c : Config) (s : PMState) (f x : Nat) :
    (clearFrame c s f).ram x =
      if ∃ i, i < c.pageSize ∧ x = f * c.pageSize + i then 0 else s.ram x := by
  unfold clearFrame
  rw [foldl_write_zero_ram]
  congr 1
  simp [List.mem_range]

theorem distFold_spec (c : Config) (va : Nat) :
    ∀ (l : List Cand) (w0 : Cand), w0.frame ≠ 0 → (∀ y ∈ l, y.frame ≠ 0) →
      (distFold c va (w0.frame, w0.entryAdd, w0.page) l = (w0.frame, w0.entryAdd, w0.page) ∧
        ∀ x ∈ l, candDist c va x ≤ candDist c va w0) ∨
      (∃ l1 w l2, l = l1 ++ w :: l2 ∧
        distFold c va (w0.frame, w0.entryAdd, w0.page) l = (w.frame, w.entryAdd, w.page) ∧
        candDist c va w0 < candDist c va w ∧
        (∀ x ∈ l1, candDist c va x < candDist c va w) ∧
        (∀ x ∈ l2, candDist c va x ≤ candDist c va w)) := by
  intro l
  induction l with
  | nil => intro w0 h0 _; left; exact ⟨rfl, by simp⟩
  | cons x rest ih =>
    intro w0 h0 hl
    have hlrest : ∀ y ∈ rest, y.frame ≠ 0 := fun y hy => hl y (List.mem_cons_of_mem _ hy)
    rw [distFold]
    dsimp only
    by_cases hgt : candDist c va x > candDist c va w0
    · have hcond : candDist c va x > getCyclicDist c (va / c.pageSize) w0.page ∨ w0.frame = 0 :=
        Or.inl hgt
      rw [if_pos hcond]
      rcases ih x (hl x (List.mem_cons_self _ _)) hlrest with
        ⟨heq, hle⟩ | ⟨l1, w, l2, hsplit, heq, hlt, hbefore, hafter⟩
      · right
        exact ⟨[], x, rest, rfl, heq, hgt, by simp, hle⟩
      · right
        refine ⟨x :: l1, w, l2, by simp [hsplit], heq, lt_trans hgt hlt, ?_, hafter⟩
        intro y hy
        rcases List.mem_cons.mp hy with rfl | hy
        · exact hlt
        · exact hbefore y hy
    · have hncond : ¬(candDist c va x > getCyclicDist c (va / c.pageSize) w0.page ∨ w0.frame = 0) :=
        fun hor => hor.elim hgt h0
      rw [if_neg hncond]
      rcases ih w0 h0 hlrest with ⟨heq, hle⟩ | ⟨l1, w, l2, hsplit, heq, hlt, hbefore, hafter⟩
      · left
        refine ⟨heq, ?_⟩
        intro y hy
        rcases List.mem_cons.mp hy with rfl | hy
        · exact le_of_not_lt hgt
        · exact hle y hy
      · right
        refine ⟨x :: l1, w, l2, by simp [hsplit], heq, hlt, ?_, hafter⟩
        intro y hy
        rcases List.mem_cons.mp hy with rfl | hy
        · exact lt_of_le_of_lt (le_of_not_lt hgt) hlt
        · exact hbefore y hy

theorem distFold_first_argmax (c : Config) (va : Nat) (l : List Cand) (hne : l ≠ [])
    (hl : ∀ y ∈ l, y.frame ≠ 0) :
    ∃ l1 w l2, l = l1 ++ w :: l2 ∧
      distFold c va (0, 0, 0) l = (w.frame, w.entryAdd, w.page) ∧
      (∀ x ∈ l1, candDist c va x < candDist c va w) ∧
      (∀ x ∈ l2, candDist c va x ≤ candDist c va w) := by
  cases l with
  | nil => exact absurd rfl hne
  | cons c0 rest =>
    rw [distFold]
    dsimp only
    have hcond : candDist c va c0 > getCyclicDist c (va / c.pageSize) 0 ∨ (0 : Nat) = 0 :=
      Or.inr rfl
    rw [if_pos hcond]
    have h0 : c0.frame ≠ 0 := hl c0 (List.mem_cons_self _ _)
    rcases distFold_spec c va rest c0 h0 (fun y hy => hl y (List.mem_cons_of_mem _ hy)) with
      ⟨heq, hle⟩ | ⟨l1, w, l2, hsplit, heq, hlt, hbefore, hafter⟩
    · exact ⟨[], c0, rest, rfl, heq, by simp, hle⟩
    · refine ⟨c0 :: l1, w, l2, by simp [hsplit], heq, ?_, hafter⟩
      intro y hy
      rcases List.mem_cons.mp hy with rfl | hy
      · exact hlt
      · exact hbefore y hy



theorem treeEvents_structure (c : Config) (s : PMState) (hd : 1 ≤ c.tablesDepth) :
    treeEvents c s = Ev.table 0 0 0 0 :: (treeEvents c s).tail ∧
    linkVals (treeEvents c s).tail = linkVals (treeEvents c s) ∧
    cands (treeEvents c s).tail = cands (treeEvents c s) := by
  obtain ⟨d', hd'⟩ : ∃ d', c.tablesDepth = d' + 1 := ⟨c.tablesDepth - 1, by omega⟩
  unfold treeEvents
  rw [hd', visitEvents]
  refine ⟨rfl, ?_, ?_⟩
  · rw [List.tail_cons, linkVals]
    simp
  · rw [List.tail_cons, cands]

theorem findNewFrame_spec (c : Config) (s : PMState) (va lcf : Nat) (hd : 1 ≤ c.tablesDepth) :
    (∀ f q, firstEmptyTable c s lcf (treeEvents c s) = some (f, q) →
        findNewFrame c s va lcf = (f, PMwrite s q 0)) ∧
    (firstEmptyTable c s lcf (treeEvents c s) = none → maxLinked c s + 1 < c.numFrames →
        findNewFrame c s va lcf = (maxLinked c s + 1, s)) ∧
    (firstEmptyTable c s lcf (treeEvents c s) = none → ¬(maxLinked c s + 1 < c.numFrames) →
        findNewFrame c s va lcf =
          ((distFold c va (0, 0, 0) (cands (treeEvents c s))).1,
            clearFrame c
              (PMevict c (PMwrite s (distFold c va (0, 0, 0) (cands (treeEvents c s))).2.1 0)
                (distFold c va (0, 0, 0) (cands (treeEvents c s))).1
                (distFold c va (0, 0, 0) (cands (treeEvents c s))).2.2)
              (distFold c va (0, 0, 0) (cands (treeEvents c s))).1)) := by
  have htE : treeEvents c s = visitEvents c s c.tablesDepth 0 0 0 0 := rfl
  obtain ⟨H1, H2⟩ := findNewFrameHelper_corr c s va lcf c.tablesDepth 0 0 0 0 ⟨0, 0, 0, 0, 0, 0⟩
    rfl (fun _ => rfl) (by omega) (by omega)
  rw [← htE] at H1 H2
  obtain ⟨hcons, hlv, hcd⟩ := treeEvents_structure c s hd
  simp only [findNewFrame]
  refine ⟨?_, ?_, ?_⟩
  · intro f q h
    have hf := firstEmptyTable_some_props c s lcf _ f q h
    have hfields := H1 f q h
    rw [if_pos (by rw [hfields.1]; exact hf.1)]
    rw [hfields.1, hfields.2]
  · intro h hmax
    have hA := H2 h
    have hemp : (findNewFrameHelper c s va lcf c.tablesDepth 0 0 0 0
        ⟨0, 0, 0, 0, 0, 0⟩).emptyFrame = 0 := by
      rw [hA]
      exact (applyEvents_empty c va _ _).1
    have hmaxf : (findNewFrameHelper c s va lcf c.tablesDepth 0 0 0 0
        ⟨0, 0, 0, 0, 0, 0⟩).maxFrame = maxLinked c s := by
      rw [hA, applyEvents_maxFrame]
      unfold maxLinked
      rw [hlv]
      simp
    rw [if_neg (by rw [hemp]; simp), if_pos (by rw [hmaxf]; exact hmax), hmaxf]
  · intro h hmax
    have hA := H2 h
    have hemp : (findNewFrameHelper c s va lcf c.tablesDepth 0 0 0 0
        ⟨0, 0, 0, 0, 0, 0⟩).emptyFrame = 0 := by
      rw [hA]
      exact (applyEvents_empty c va _ _).1
    have hmaxf : (findNewFrameHelper c s va lcf c.tablesDepth 0 0 0 0
        ⟨0, 0, 0, 0, 0, 0⟩).maxFrame = maxLinked c s := by
      rw [hA, applyEvents_maxFrame]
      unfold maxLinked
      rw [hlv]
      simp
    have hdist := applyEvents_dist c va (treeEvents c s).tail ⟨0, 0, 0, 0, 0, 0⟩
    rw [← hA, hcd] at hdist
    have hd1 : (findNewFrameHelper c s va lcf c.tablesDepth 0 0 0 0
        ⟨0, 0, 0, 0, 0, 0⟩).maxDistFrame = (distFold c va (0, 0, 0) (cands (treeEvents c s))).1 := by
      rw [← hdist]
    have hd2 : (findNewFrameHelper c s va lcf c.tablesDepth 0 0 0 0
        ⟨0, 0, 0, 0, 0, 0⟩).maxDistParentAdd =
        (distFold c va (0, 0, 0) (cands (treeEvents c s))).2.1 := by
      rw [← hdist]
    have hd3 : (findNewFrameHelper c s va lcf c.tablesDepth 0 0 0 0
        ⟨0, 0, 0, 0, 0, 0⟩).maxDistPage =
        (distFold c va (0, 0, 0) (cands (treeEvents c s))).2.2 := by
      rw [← hdist]
    rw [if_neg (by rw [hemp]; simp), if_neg (by rw [hmaxf]; exact hmax)]
    rw [hd1, hd2, hd3]




/-- C2 (amended): the three-tier priority of `findNewFrame`, with "empty
frame" meaning an empty *table* frame visited by the traversal (data frames
are never inspected for emptiness — see the counterexample): if the
traversal has a first (pre-order) empty linked table frame other than the
protected one, it is returned after zeroing the parent entry pointing to it
and nothing else changes (in particular no eviction); otherwise if
`maxLinked + 1 < NUM_FRAMES`, the fresh index `maxLinked + 1` is returned
with the state untouched; and an eviction can occur only when no such
empty table frame exists and (given that all linked indices are in range
and `NUM_FRAMES > 0`) `maxLinked + 1 = NUM_FRAMES` exactly. -/
theorem claim2_three_tier (c : Config) (s : PMState) (va lcf : Nat) (hd : 1 ≤ c.tablesDepth) :
    (∀ f q, firstEmptyTable c s lcf (treeEvents c s) = some (f, q) →
        findNewFrame c s va lcf = (f, PMwrite s q 0) ∧
        (findNewFrame c s va lcf).2.evicts = s.evicts) ∧
    (firstEmptyTable c s lcf (treeEvents c s) = none → maxLinked c s + 1 < c.numFrames →
        findNewFrame c s va lcf = (maxLinked c s + 1, s)) ∧
    ((findNewFrame c s va lcf).2.evicts ≠ s.evicts →
        firstEmptyTable c s lcf (treeEvents c s) = none ∧ c.numFrames ≤ maxLinked c s + 1) ∧
    ((∀ v ∈ linkVals (treeEvents c s), v < c.numFrames) → 0 < c.numFrames →
        (findNewFrame c s va lcf).2.evicts ≠ s.evicts → maxLinked c s + 1 = c.numFrames) := by
  obtain ⟨T1, T2, T3⟩ := findNewFrame_spec c s va lcf hd
  have hthird : (findNewFrame c s va lcf).2.evicts ≠ s.evicts →
      firstEmptyTable c s lcf (treeEvents c s) = none ∧ c.numFrames ≤ maxLinked c s + 1 := by
    intro hev
    rcases hfe : firstEmptyTable c s lcf (treeEvents c s) with _ | ⟨f, q⟩
    · by_cases hmax : maxLinked c s + 1 < c.numFrames
      · exact absurd (by rw [T2 hfe hmax]) hev
      · exact ⟨rfl, by omega⟩
    · exact absurd (by rw [T1 f q hfe]; rfl) hev
  refine ⟨fun f q h => ⟨T1 f q h, by rw [T1 f q h]; rfl⟩, T2, hthird, ?_⟩
  intro hbound hpos hev
  have h3 := hthird hev
  have hlt : maxLinked c s < c.numFrames := by
    unfold maxLinked
    exact foldr_max_lt c.numFrames hpos _ hbound
  omega

/-- C3: when the eviction tier is reached (no empty table frame, no fresh
index, at least one leaf-level mapping), the allocator picks the pre-order
first leaf-level mapping of maximal cyclic distance to the target page:
every earlier candidate has strictly smaller distance and every later one
has distance at most the winner's; the winner's parent entry is zeroed,
`PMevict` is called with exactly its frame and page, its contents are
cleared to zero, and its frame index is returned. -/
theorem claim3_farthest_eviction (c : Config) (s : PMState) (va lcf : Nat)
    (hd : 1 ≤ c.tablesDepth)
    (hnone : firstEmptyTable c s lcf (treeEvents c s) = none)
    (hfull : c.numFrames ≤ maxLinked c s + 1)
    (hne : cands (treeEvents c s) ≠ []) :
    ∃ l1 w l2, cands (treeEvents c s) = l1 ++ w :: l2 ∧
      (∀ x ∈ l1, candDist c va x < candDist c va w) ∧
      (∀ x ∈ l2, candDist c va x ≤ candDist c va w) ∧
      findNewFrame c s va lcf =
        (w.frame, clearFrame c (PMevict c (PMwrite s w.entryAdd 0) w.frame w.page) w.frame) ∧
      (findNewFrame c s va lcf).2.evicts = s.evicts ++ [(w.frame, w.page)] ∧
      (∀ j, j < c.pageSize → (findNewFrame c s va lcf).2.ram (w.frame * c.pageSize + j) = 0) := by
  obtain ⟨-, -, T3⟩ := findNewFrame_spec c s va lcf hd
  have hT := T3 hnone (by omega)
  have hnz : ∀ y ∈ cands (treeEvents c s), y.frame ≠ 0 := fun y hy =>
    cands_visit_nonzero c s c.tablesDepth 0 0 0 0 y hy
  obtain ⟨l1, w, l2, hsplit, heq, hbef, haft⟩ := distFold_first_argmax c va _ hne hnz
  have h1 : (distFold c va (0, 0, 0) (cands (treeEvents c s))).1 = w.frame := by rw [heq]
  have h21 : (distFold c va (0, 0, 0) (cands (treeEvents c s))).2.1 = w.entryAdd := by rw [heq]
  have h22 : (distFold c va (0, 0, 0) (cands (treeEvents c s))).2.2 = w.page := by rw [heq]
  rw [h1, h21, h22] at hT
  refine ⟨l1, w, l2, hsplit, hbef, haft, hT, ?_, ?_⟩
  · rw [hT]
    show (clearFrame c (PMevict c (PMwrite s w.entryAdd 0) w.frame w.page) w.frame).evicts =
      s.evicts ++ [(w.frame, w.page)]
    rw [clearFrame_evicts]
    rfl
  · intro j hj
    rw [hT]
    show (clearFrame c (PMevict c (PMwrite s w.entryAdd 0) w.frame w.page) w.frame).ram
      (w.frame * c.pageSize + j) = 0
    rw [clearFrame_ram]
    rw [if_pos ⟨j, hj, rfl⟩]

/-- C6: the protected frame (`lastCreatedFrame`) is never the frame
selected by `findNewFrame` and never the frame evicted, in any state
satisfying the spec's data-model invariant as the translator's call sites
do: the protected frame is 0 (the root) or a visited table frame, data
frames are distinct from table frames, and the eviction tier — when
reached — has a candidate (the spec's configuration-consistency
assumption). -/
theorem claim6_protected_frame (c : Config) (s : PMState) (va lcf : Nat)
    (hd : 1 ≤ c.tablesDepth)
    (hlcf : lcf = 0 ∨ lcf ∈ tableFrames (treeEvents c s))
    (hroles : ∀ cd ∈ cands (treeEvents c s), cd.frame ∉ tableFrames (treeEvents c s))
    (hcand3 : firstEmptyTable c s lcf (treeEvents c s) = none →
      c.numFrames ≤ maxLinked c s + 1 → cands (treeEvents c s) ≠ []) :
    (findNewFrame c s va lcf).1 ≠ lcf ∧
    (∀ e ∈ (findNewFrame c s va lcf).2.evicts, e ∈ s.evicts ∨ e.1 ≠ lcf) := by
  obtain ⟨T1, T2, T3⟩ := findNewFrame_spec c s va lcf hd
  have hlcf_le : lcf ≠ 0 → lcf ≤ maxLinked c s := by
    intro h0
    rcases hlcf with h | h
    · exact absurd h h0
    · exact le_foldr_max _ _ (table_mem_linkVals _ _ h h0)
  rcases hfe : firstEmptyTable c s lcf (treeEvents c s) with _ | ⟨f, q⟩
  · by_cases hmax : maxLinked c s + 1 < c.numFrames
    · rw [T2 hfe hmax]
      constructor
      · show maxLinked c s + 1 ≠ lcf
        intro hct
        by_cases h0 : lcf = 0
        · omega
        · have := hlcf_le h0
          omega
      · exact fun e he => Or.inl he
    · have hne := hcand3 hfe (by omega)
      have hT := T3 hfe hmax
      have hnz : ∀ y ∈ cands (treeEvents c s), y.frame ≠ 0 := fun y hy =>
        cands_visit_nonzero c s c.tablesDepth 0 0 0 0 y hy
      obtain ⟨l1, w, l2, hsplit, heq, hbef, haft⟩ := distFold_first_argmax c va _ hne hnz
      have h1 : (distFold c va (0, 0, 0) (cands (treeEvents c s))).1 = w.frame := by rw [heq]
      have h21 : (distFold c va (0, 0, 0) (cands (treeEvents c s))).2.1 = w.entryAdd := by rw [heq]
      have h22 : (distFold c va (0, 0, 0) (cands (treeEvents c s))).2.2 = w.page := by rw [heq]
      rw [h1, h21, h22] at hT
      have hwmem : w ∈ cands (treeEvents c s) := by
        rw [hsplit]
        exact List.mem_append.mpr (Or.inr (List.mem_cons_self _ _))
      have hwlcf : w.frame ≠ lcf := by
        rcases hlcf with h | h
        · rw [h]
          exact hnz w hwmem
        · intro hct
          exact hroles w hwmem (hct ▸ h)
      rw [hT]
      constructor
      · exact hwlcf
      · intro e he
        have hev : ((w.frame, clearFrame c (PMevict c (PMwrite s w.entryAdd 0) w.frame w.page)
            w.frame) : Nat × PMState).2.evicts = s.evicts ++ [(w.frame, w.page)] := by
          show (clearFrame c (PMevict c (PMwrite s w.entryAdd 0) w.frame w.page) w.frame).evicts =
            s.evicts ++ [(w.frame, w.page)]
          rw [clearFrame_evicts]
          rfl
        rw [hev] at he
        rcases List.mem_append.mp he with h | h
        · exact Or.inl h
        · right
          simp only [List.mem_singleton] at h
          rw [h]
          exact hwlcf
  · have hf := firstEmptyTable_some_props c s lcf _ f q hfe
    rw [T1 f q hfe]
    exact ⟨hf.2.2, fun e he => Or.inl he⟩



theorem claim2_three_tier_witness :
    findNewFrame cfg2 midState 4 0 = (3, PMwrite midState 1 0) ∧
    (findNewFrame cfg2 midState 4 0).2.evicts = midState.evicts :=
  (claim2_three_tier cfg2 midState 4 0 (by decide)).1 3 1 (by decide)

theorem claim3_farthest_eviction_witness :
    ∃ l1 w l2, cands (treeEvents cfg1 evictState) = l1 ++ w :: l2 ∧
      (∀ x ∈ l1, candDist cfg1 0 x < candDist cfg1 0 w) ∧
      (∀ x ∈ l2, candDist cfg1 0 x ≤ candDist cfg1 0 w) ∧
      findNewFrame cfg1 evictState 0 0 =
        (w.frame, clearFrame cfg1 (PMevict cfg1 (PMwrite evictState w.entryAdd 0) w.frame w.page) w.frame) ∧
      (findNewFrame cfg1 evictState 0 0).2.evicts = evictState.evicts ++ [(w.frame, w.page)] ∧
      (∀ j, j < cfg1.pageSize → (findNewFrame cfg1 evictState 0 0).2.ram (w.frame * cfg1.pageSize + j) = 0) :=
  claim3_farthest_eviction cfg1 evictState 0 0 (by decide) (by decide) (by decide) (by decide)

theorem claim6_protected_frame_witness :
    (findNewFrame cfg1 evictState 0 0).1 ≠ 0 ∧
    (∀ e ∈ (findNewFrame cfg1 evictState 0 0).2.evicts, e ∈ evictState.evicts ∨ e.1 ≠ 0) :=
  claim6_protected_frame cfg1 evictState 0 0 (by decide) (Or.inl rfl) (by decide) (fun _ _ => by decide)

end VM

namespace VM

theorem eventsScan_congr (c : Config) (s s' : PMState) (frame depth pageAdd : Nat)
    (ed ed' : Nat → Nat → Nat → List Ev)
    (hed : ∀ v ea p, v ≠ 0 →
      (∀ g ∈ tableFrames (ed v ea p), ∀ j, j < c.pageSize →
        s'.ram (g * c.pageSize + j) = s.ram (g * c.pageSize + j)) →
      ed' v ea p = ed v ea p) :
    ∀ count i, i + count ≤ c.pageSize →
      (∀ g ∈ frame :: tableFrames (eventsScan c s frame depth pageAdd ed count i),
        ∀ j, j < c.pageSize → s'.ram (g * c.pageSize + j) = s.ram (g * c.pageSize + j)) →
      eventsScan c s' frame depth pageAdd ed' count i =
        eventsScan c s frame depth pageAdd ed count i := by
  intro count
  induction count with
  | zero => intro i _ _; rfl
  | succ count ih =>
    intro i hle hag
    have hval : PMread s' (frame * c.pageSize + i) = PMread s (frame * c.pageSize + i) :=
      hag frame (List.mem_cons_self _ _) i (by omega)
    rw [eventsScan, eventsScan, hval]
    by_cases hv : PMread s (frame * c.pageSize + i) ≠ 0
    · rw [if_pos hv, if_pos hv]
      have hsplit : eventsScan c s frame depth pageAdd ed (count + 1) i =
          (if depth = c.tablesDepth - 1 then
            [Ev.cand ⟨PMread s (frame * c.pageSize + i), frame * c.pageSize + i,
              pageAdd * c.pageSize + i⟩]
          else ed (PMread s (frame * c.pageSize + i)) (frame * c.pageSize + i)
            (pageAdd * c.pageSize + i)) ++
          eventsScan c s frame depth pageAdd ed count (i + 1) := by
        rw [eventsScan, if_pos hv]
      have hagrest : ∀ g ∈ frame :: tableFrames (eventsScan c s frame depth pageAdd ed count (i + 1)),
          ∀ j, j < c.pageSize → s'.ram (g * c.pageSize + j) = s.ram (g * c.pageSize + j) := by
        intro g hg j hj
        rcases List.mem_cons.mp hg with rfl | hg
        · exact hag g (List.mem_cons_self _ _) j hj
        · refine hag g ?_ j hj
          rw [hsplit, List.mem_cons]
          right
          rw [tableFrames_append]
          exact List.mem_append.mpr (Or.inr hg)
      rw [ih (i + 1) (by omega) hagrest]
      congr 1
      by_cases hdep : depth = c.tablesDepth - 1
      · rw [if_pos hdep, if_pos hdep]
      · rw [if_neg hdep, if_neg hdep]
        refine hed _ _ _ hv ?_
        intro g hg j hj
        refine hag g ?_ j hj
        rw [hsplit, List.mem_cons]
        right
        rw [if_neg hdep, tableFrames_append]
        exact List.mem_append.mpr (Or.inl hg)
    · rw [if_neg hv, if_neg hv]
      refine ih (i + 1) (by omega) ?_
      intro g hg j hj
      rcases List.mem_cons.mp hg with rfl | hg
      · exact hag g (List.mem_cons_self _ _) j hj
      · refine hag g ?_ j hj
        have hsk : eventsScan c s frame depth pageAdd ed (count + 1) i =
            eventsScan c s frame depth pageAdd ed count (i + 1) := by
          rw [eventsScan, if_neg hv]
        rw [hsk, List.mem_cons]
        exact Or.inr hg

theorem visitEvents_congr (c : Config) (s s' : PMState) :
    ∀ (fuel frame pa depth p : Nat),
      (∀ g ∈ tableFrames (visitEvents c s fuel frame pa depth p),
        ∀ j, j < c.pageSize → s'.ram (g * c.pageSize + j) = s.ram (g * c.pageSize + j)) →
      visitEvents c s' fuel frame pa depth p = visitEvents c s fuel frame pa depth p := by
  intro fuel
  induction fuel with
  | zero => intro frame pa depth p _; rfl
  | succ fuel ih =>
    intro frame pa depth p hag
    rw [visitEvents, visitEvents]
    congr 1
    refine eventsScan_congr c s s' frame depth p _ _ ?_ c.pageSize 0 (by omega) ?_
    · intro v ea pp hv hsub
      exact ih v ea (depth + 1) pp hsub
    · intro g hg j hj
      refine hag g ?_ j hj
      rw [visitEvents, tableFrames]
      rcases List.mem_cons.mp hg with rfl | hg
      · exact List.mem_cons_self _ _
      · exact List.mem_cons_of_mem _ hg

end VM

namespace VM

theorem eventsScan_eq_join (c : Config) (s : PMState) (fuel frame depth p : Nat) :
    ∀ count i,
      eventsScan c s frame depth p (fun v ea pp => visitEvents c s fuel v ea (depth + 1) pp) count i =
      ((List.range' i count).map (eventsOfEntry c s fuel frame depth p)).join := by
  intro count
  induction count with
  | zero => intro i; rfl
  | succ count ih =>
    intro i
    rw [List.range'_succ, List.map_cons]
    have hjc : (eventsOfEntry c s fuel frame depth p i ::
        List.map (eventsOfEntry c s fuel frame depth p) (List.range' (i + 1) count)).join =
        eventsOfEntry c s fuel frame depth p i ++
        (List.map (eventsOfEntry c s fuel frame depth p) (List.range' (i + 1) count)).join := rfl
    rw [hjc, ← ih (i + 1), eventsScan]
    unfold eventsOfEntry
    by_cases hv : PMread s (frame * c.pageSize + i) ≠ 0
    · rw [if_pos hv, if_pos hv]
    · rw [if_neg hv, if_neg hv, List.nil_append]

theorem visitEvents_succ_join (c : Config) (s : PMState) (fuel frame pa depth p : Nat) :
    visitEvents c s (fuel + 1) frame pa depth p =
      Ev.table frame pa depth p ::
        ((List.range' 0 c.pageSize).map (eventsOfEntry c s fuel frame depth p)).join := by
  rw [visitEvents, eventsScan_eq_join]

theorem nodesOf_append : ∀ l1 l2 : List Ev, nodesOf (l1 ++ l2) = nodesOf l1 ++ nodesOf l2 := by
  intro l1
  induction l1 with
  | nil => intro l2; rfl
  | cons e rest ih =>
    intro l2
    cases e with
    | table f pa d p => rw [List.cons_append, nodesOf, nodesOf, ih l2]; rfl
    | cand cd => rw [List.cons_append, nodesOf, nodesOf, ih l2]; rfl

theorem mem_nodesOf_of_table : ∀ (l : List Ev) (f : Nat), f ∈ tableFrames l → f ∈ nodesOf l := by
  intro l
  induction l with
  | nil => intro f h; exact absurd h (by simp [tableFrames])
  | cons e rest ih =>
    intro f h
    cases e with
    | table g pa d p =>
      rw [tableFrames] at h
      rw [nodesOf]
      rcases List.mem_cons.mp h with rfl | h
      · exact List.mem_cons_self _ _
      · exact List.mem_cons_of_mem _ (ih f h)
    | cand cd =>
      rw [tableFrames] at h
      rw [nodesOf]
      exact List.mem_cons_of_mem _ (ih f h)

theorem mem_nodesOf_of_cand : ∀ (l : List Ev) (cd : Cand), cd ∈ cands l → cd.frame ∈ nodesOf l := by
  intro l
  induction l with
  | nil => intro cd h; exact absurd h (by simp [cands])
  | cons e rest ih =>
    intro cd h
    cases e with
    | table g pa d p =>
      rw [cands] at h
      rw [nodesOf]
      exact List.mem_cons_of_mem _ (ih cd h)
    | cand cd2 =>
      rw [cands] at h
      rw [nodesOf]
      rcases List.mem_cons.mp h with rfl | h
      · exact List.mem_cons_self _ _
      · exact List.mem_cons_of_mem _ (ih cd h)

theorem count_tableFrames_le_nodesOf : ∀ (l : List Ev) (g : Nat),
    (tableFrames l).count g ≤ (nodesOf l).count g := by
  intro l
  induction l with
  | nil => intro g; exact le_refl _
  | cons e rest ih =>
    intro g
    cases e with
    | table f pa d p =>
      rw [tableFrames, nodesOf, List.count_cons, List.count_cons]
      exact Nat.add_le_add (ih g) (le_refl _)
    | cand cd =>
      rw [tableFrames, nodesOf, List.count_cons]
      exact le_trans (ih g) (Nat.le_add_right _ _)

theorem count_candFrames_le_nodesOf : ∀ (l : List Ev) (g : Nat),
    ((cands l).map Cand.frame).count g ≤ (nodesOf l).count g := by
  intro l
  induction l with
  | nil => intro g; exact le_refl _
  | cons e rest ih =>
    intro g
    cases e with
    | table f pa d p =>
      rw [cands, nodesOf, List.count_cons]
      exact le_trans (ih g) (Nat.le_add_right _ _)
    | cand cd =>
      rw [cands, nodesOf, List.map_cons, List.count_cons, List.count_cons]
      exact Nat.add_le_add (ih g) (le_refl _)

theorem length_nodesOf : ∀ l : List Ev,
    (nodesOf l).length = (tableFrames l).length + (cands l).length := by
  intro l
  induction l with
  | nil => rfl
  | cons e rest ih =>
    cases e with
    | table f pa d p =>
      rw [nodesOf, tableFrames, cands, List.length_cons, List.length_cons, ih]
      omega
    | cand cd =>
      rw [nodesOf, cands, tableFrames, List.length_cons, List.length_cons, ih]
      omega

theorem mem_tableFrames_iff : ∀ (l : List Ev) (g : Nat),
    g ∈ tableFrames l ↔ ∃ pa dep pA, Ev.table g pa dep pA ∈ l := by
  intro l
  induction l with
  | nil => intro g; simp [tableFrames]
  | cons e rest ih =>
    intro g
    cases e with
    | table f pa d p =>
      rw [tableFrames]
      constructor
      · intro h
        rcases List.mem_cons.mp h with rfl | h
        · exact ⟨pa, d, p, List.mem_cons_self _ _⟩
        · obtain ⟨pa2, dep2, pA2, hm⟩ := (ih g).mp h
          exact ⟨pa2, dep2, pA2, List.mem_cons_of_mem _ hm⟩
      · rintro ⟨pa2, dep2, pA2, hm⟩
        rcases List.mem_cons.mp hm with heq | hm
        · cases heq
          exact List.mem_cons_self _ _
        · exact List.mem_cons_of_mem _ ((ih g).mpr ⟨pa2, dep2, pA2, hm⟩)
    | cand cd =>
      rw [tableFrames]
      constructor
      · intro h
        obtain ⟨pa2, dep2, pA2, hm⟩ := (ih g).mp h
        exact ⟨pa2, dep2, pA2, List.mem_cons_of_mem _ hm⟩
      · rintro ⟨pa2, dep2, pA2, hm⟩
        rcases List.mem_cons.mp hm with heq | hm
        · cases heq
        · exact (ih g).mpr ⟨pa2, dep2, pA2, hm⟩

end VM

namespace VM

theorem frame_addr_inj {PS g t j j' : Nat} (hj : j < PS) (hj' : j' < PS)
    (h : g * PS + j = t * PS + j') : g = t ∧ j = j' := by
  have hPS : 0 < PS := lt_of_le_of_lt (Nat.zero_le j) hj
  have e1 : (g * PS + j) / PS = g := by
    rw [Nat.mul_comm g PS, Nat.mul_add_div hPS, Nat.div_eq_of_lt hj]
    rfl
  have e2 : (t * PS + j') / PS = t := by
    rw [Nat.mul_comm t PS, Nat.mul_add_div hPS, Nat.div_eq_of_lt hj']
    rfl
  have hgt : g = t := by rw [← e1, ← e2, h]
  subst hgt
  exact ⟨rfl, by omega⟩

theorem tableFrames_join : ∀ L : List (List Ev),
    tableFrames L.join = (L.map tableFrames).join := by
  intro L
  induction L with
  | nil => rfl
  | cons l L ih =>
    have h1 : (l :: L).join = l ++ L.join := rfl
    rw [h1, tableFrames_append, ih]
    rfl

theorem cands_join : ∀ L : List (List Ev), cands L.join = (L.map cands).join := by
  intro L
  induction L with
  | nil => rfl
  | cons l L ih =>
    have h1 : (l :: L).join = l ++ L.join := rfl
    rw [h1, cands_append, ih]
    rfl

theorem nodesOf_join : ∀ L : List (List Ev), nodesOf L.join = (L.map nodesOf).join := by
  intro L
  induction L with
  | nil => rfl
  | cons l L ih =>
    have h1 : (l :: L).join = l ++ L.join := rfl
    rw [h1, nodesOf_append, ih]
    rfl

theorem linkVals_join : ∀ L : List (List Ev), linkVals L.join = (L.map linkVals).join := by
  intro L
  induction L with
  | nil => rfl
  | cons l L ih =>
    have h1 : (l :: L).join = l ++ L.join := rfl
    rw [h1, linkVals_append, ih]
    rfl

theorem eventsOfEntry_congr (c : Config) (s s' : PMState) (fuel frame depth p j : Nat)
    (hagj : s'.ram (frame * c.pageSize + j) = s.ram (frame * c.pageSize + j))
    (hsub : ∀ g ∈ tableFrames (eventsOfEntry c s fuel frame depth p j),
      ∀ j', j' < c.pageSize → s'.ram (g * c.pageSize + j') = s.ram (g * c.pageSize + j')) :
    eventsOfEntry c s' fuel frame depth p j = eventsOfEntry c s fuel frame depth p j := by
  unfold eventsOfEntry
  have hread : PMread s' (frame * c.pageSize + j) = PMread s (frame * c.pageSize + j) := hagj
  rw [hread]
  by_cases hv : PMread s (frame * c.pageSize + j) ≠ 0
  · rw [if_pos hv, if_pos hv]
    by_cases hdep : depth = c.tablesDepth - 1
    · rw [if_pos hdep, if_pos hdep]
    · rw [if_neg hdep, if_neg hdep]
      refine visitEvents_congr c s s' fuel _ _ _ _ ?_
      intro g hg j' hj'
      refine hsub g ?_ j' hj'
      unfold eventsOfEntry
      rw [if_pos hv, if_neg hdep]
      exact hg
  · rw [if_neg hv, if_neg hv]

theorem tableFrames_visit_nonzero (c : Config) (s : PMState) :
    ∀ (fuel frame pa depth p : Nat),
      ∀ g ∈ tableFrames (visitEvents c s fuel frame pa depth p), g = frame ∨ g ≠ 0 := by
  intro fuel
  induction fuel with
  | zero => intro frame pa depth p g hg; exact absurd hg (by simp [visitEvents, tableFrames])
  | succ fuel ih =>
    intro frame pa depth p g hg
    rw [visitEvents_succ_join, tableFrames] at hg
    rcases List.mem_cons.mp hg with rfl | hg
    · exact Or.inl rfl
    · right
      rw [tableFrames_join] at hg
      obtain ⟨tf, htf, hgtf⟩ := List.mem_join.mp hg
      obtain ⟨bl, hbl, rfl⟩ := List.mem_map.mp htf
      obtain ⟨j, hj, rfl⟩ := List.mem_map.mp hbl
      revert hgtf
      unfold eventsOfEntry
      by_cases hv : PMread s (frame * c.pageSize + j) ≠ 0
      · rw [if_pos hv]
        by_cases hdep : depth = c.tablesDepth - 1
        · rw [if_pos hdep]
          intro hgtf
          exact absurd hgtf (by simp [tableFrames])
        · rw [if_neg hdep]
          intro hgtf
          rcases ih _ _ (depth + 1) _ g hgtf with rfl | hne
          · exact hv
          · exact hne
      · rw [if_neg hv]
        intro hgtf
        exact absurd hgtf (by simp [tableFrames])

end VM

namespace VM

theorem mem_visit_of_mem_block (c : Config) (s : PMState) (fuel frame pa depth p j : Nat)
    (hj : j < c.pageSize) :
    ∀ e ∈ eventsOfEntry c s fuel frame depth p j,
      e ∈ visitEvents c s (fuel + 1) frame pa depth p := by
  intro e he
  rw [visitEvents_succ_join]
  refine List.mem_cons_of_mem _ (List.mem_join.mpr ⟨eventsOfEntry c s fuel frame depth p j, ?_, he⟩)
  refine List.mem_map.mpr ⟨j, ?_, rfl⟩
  rw [List.mem_range'_1]
  omega

theorem cand_entry_sound (c : Config) (s : PMState) :
    ∀ (fuel frame pa depth p : Nat),
      ∀ cd ∈ cands (visitEvents c s fuel frame pa depth p),
        ∃ t i0 pa2 pA2, i0 < c.pageSize ∧ cd.entryAdd = t * c.pageSize + i0 ∧
          s.ram cd.entryAdd = cd.frame ∧
          Ev.table t pa2 (c.tablesDepth - 1) pA2 ∈ visitEvents c s fuel frame pa depth p ∧
          cd.page = pA2 * c.pageSize + i0 := by
  intro fuel
  induction fuel with
  | zero => intro frame pa depth p cd h; exact absurd h (by simp [visitEvents, cands])
  | succ fuel ih =>
    intro frame pa depth p cd h
    rw [visitEvents_succ_join, cands] at h
    rw [cands_join] at h
    obtain ⟨cl, hcl, hcdcl⟩ := List.mem_join.mp h
    obtain ⟨bl, hbl, rfl⟩ := List.mem_map.mp hcl
    obtain ⟨j, hjmem, rfl⟩ := List.mem_map.mp hbl
    have hj : j < c.pageSize := by
      rw [List.mem_range'_1] at hjmem
      omega
    revert hcdcl
    unfold eventsOfEntry
    by_cases hv : PMread s (frame * c.pageSize + j) ≠ 0
    · rw [if_pos hv]
      by_cases hdep : depth = c.tablesDepth - 1
      · rw [if_pos hdep]
        intro hcdcl
        simp only [cands, List.mem_cons, List.not_mem_nil, or_false] at hcdcl
        subst hcdcl
        refine ⟨frame, j, pa, p, hj, rfl, rfl, ?_, rfl⟩
        rw [visitEvents_succ_join, ← hdep]
        exact List.mem_cons_self _ _
      · rw [if_neg hdep]
        intro hcdcl
        obtain ⟨t, i0, pa2, pA2, hi0, hea, hram, hmem, hpage⟩ :=
          ih _ (frame * c.pageSize + j) (depth + 1) _ cd hcdcl
        refine ⟨t, i0, pa2, pA2, hi0, hea, hram, ?_, hpage⟩
        refine mem_visit_of_mem_block c s fuel frame pa depth p j hj _ ?_
        unfold eventsOfEntry
        rw [if_pos hv, if_neg hdep]
        exact hmem
    · rw [if_neg hv]
      intro hcdcl
      exact absurd hcdcl (by simp [cands])

theorem table_entry_sound (c : Config) (s : PMState) :
    ∀ (fuel frame pa depth p : Nat),
      ∀ f q dep pA, Ev.table f q dep pA ∈ visitEvents c s fuel frame pa depth p →
        (f = frame ∧ q = pa ∧ dep = depth ∧ pA = p) ∨
        (∃ t i0 pa2 pA2, i0 < c.pageSize ∧ q = t * c.pageSize + i0 ∧ s.ram q = f ∧ f ≠ 0 ∧
          Ev.table t pa2 (dep - 1) pA2 ∈ visitEvents c s fuel frame pa depth p ∧ 1 ≤ dep ∧
          pA = pA2 * c.pageSize + i0 ∧ ¬(dep - 1 = c.tablesDepth - 1)) := by
  intro fuel
  induction fuel with
  | zero => intro frame pa depth p f q dep pA h; exact absurd h (by simp [visitEvents])
  | succ fuel ih =>
    intro frame pa depth p f q dep pA h
    rw [visitEvents_succ_join] at h
    rcases List.mem_cons.mp h with heq | h
    · left
      cases heq
      exact ⟨rfl, rfl, rfl, rfl⟩
    · right
      obtain ⟨bl0, hbl0, hein⟩ := List.mem_join.mp h
      obtain ⟨j, hjmem, rfl⟩ := List.mem_map.mp hbl0
      have hj : j < c.pageSize := by
        rw [List.mem_range'_1] at hjmem
        omega
      revert hein
      unfold eventsOfEntry
      by_cases hv : PMread s (frame * c.pageSize + j) ≠ 0
      · rw [if_pos hv]
        by_cases hdep : depth = c.tablesDepth - 1
        · rw [if_pos hdep]
          intro hein
          exact absurd hein (by simp)
        · rw [if_neg hdep]
          intro hein
          rcases ih _ (frame * c.pageSize + j) (depth + 1) _ f q dep pA hein with
            ⟨h1, h2, h3, h4⟩ | ⟨t, i0, pa2, pA2, hi0, hq, hram, hf, hmem, hdep1, hpA, hnd⟩
          · have hdm : dep - 1 = depth := by omega
            refine ⟨frame, j, pa, p, hj, h2, ?_, by rw [h1]; exact hv, ?_, by omega, h4, ?_⟩
            · rw [h2, h1]
              rfl
            · rw [visitEvents_succ_join, hdm]
              exact List.mem_cons_self _ _
            · rw [hdm]
              exact hdep
          · refine ⟨t, i0, pa2, pA2, hi0, hq, hram, hf, ?_, hdep1, hpA, hnd⟩
            refine mem_visit_of_mem_block c s fuel frame pa depth p j hj _ ?_
            unfold eventsOfEntry
            rw [if_pos hv, if_neg hdep]
            exact hmem
      · rw [if_neg hv]
        intro hein
        exact absurd hein (by simp)

end VM

namespace VM

theorem count_block_le_join {α : Type} (f : α → List Ev) (t : Nat) :
    ∀ (l : List α) (b : α), b ∈ l →
      (tableFrames (f b)).count t ≤ (tableFrames ((l.map f).join)).count t := by
  intro l
  induction l with
  | nil => intro b hb; exact absurd hb (by simp)
  | cons a l ih =>
    intro b hb
    have hstep : ((a :: l).map f).join = f a ++ (l.map f).join := rfl
    rw [hstep, tableFrames_append, List.count_append]
    rcases List.mem_cons.mp hb with rfl | hb
    · exact Nat.le_add_right _ _
    · exact le_trans (ih b hb) (Nat.le_add_left _ _)

theorem count_join_eq_zero {α : Type} (f : α → List Ev) (t : Nat) (l : List α)
    (h : (tableFrames ((l.map f).join)).count t = 0) :
    ∀ b ∈ l, (tableFrames (f b)).count t = 0 := by
  intro b hb
  have := count_block_le_join f t l b hb
  omega

theorem count_join_localize {α : Type} (f : α → List Ev) (t : Nat) :
    ∀ l : List α, (tableFrames ((l.map f).join)).count t = 1 →
      ∃ l1 a l2, l = l1 ++ a :: l2 ∧ (tableFrames (f a)).count t = 1 ∧
        (∀ b ∈ l1, (tableFrames (f b)).count t = 0) ∧
        (∀ b ∈ l2, (tableFrames (f b)).count t = 0) := by
  intro l
  induction l with
  | nil => intro h; exact absurd h (by simp [tableFrames])
  | cons a l ih =>
    intro h
    have hstep : ((a :: l).map f).join = f a ++ (l.map f).join := rfl
    rw [hstep, tableFrames_append, List.count_append] at h
    by_cases hca : (tableFrames (f a)).count t = 1
    · refine ⟨[], a, l, rfl, hca, by simp, ?_⟩
      exact count_join_eq_zero f t l (by omega)
    · have hca0 : (tableFrames (f a)).count t = 0 := by omega
      obtain ⟨l1, b, l2, hsp, hcb, hz1, hz2⟩ := ih (by omega)
      refine ⟨a :: l1, b, l2, by simp [hsp], hcb, ?_, hz2⟩
      intro x hx
      rcases List.mem_cons.mp hx with rfl | hx
      · exact hca0
      · exact hz1 x hx

theorem range_split_at (PS i0 : Nat) (h : i0 < PS) :
    List.range' 0 PS = List.range' 0 i0 ++ i0 :: List.range' (i0 + 1) (PS - i0 - 1) := by
  have h1 : PS = i0 + (PS - i0) := by omega
  have h2 : List.range' 0 i0 ++ List.range' (0 + i0) (PS - i0) = List.range' 0 (i0 + (PS - i0)) := by
    rw [List.range'_append_1]
    congr 1
    omega
  rw [Nat.zero_add] at h2
  have h3 : PS - i0 = (PS - i0 - 1) + 1 := by omega
  have h4 : List.range' i0 (PS - i0) = i0 :: List.range' (i0 + 1) (PS - i0 - 1) := by
    conv_lhs => rw [h3]
    rw [List.range'_succ]
  rw [← h1] at h2
  rw [← h2, h4]

end VM

namespace VM

theorem join_append_ow {α : Type} : ∀ L1 L2 : List (List α),
    (L1 ++ L2).join = L1.join ++ L2.join := by
  intro L1
  induction L1 with
  | nil => intro L2; rfl
  | cons l L ih =>
    intro L2
    have h1 : ((l :: L) ++ L2).join = l ++ (L ++ L2).join := rfl
    have h2 : (l :: L).join = l ++ L.join := rfl
    rw [h1, h2, ih, List.append_assoc]

theorem update_at_entry (c : Config) (s : PMState) (t i0 w : Nat) (hi0 : i0 < c.pageSize) :
    ∀ (fuel frame pa depth p pa2 dep2 pA2 : Nat),
      Ev.table t pa2 dep2 pA2 ∈ visitEvents c s fuel frame pa depth p →
      (tableFrames (visitEvents c s fuel frame pa depth p)).count t = 1 →
      ∃ P Q fl,
        visitEvents c s fuel frame pa depth p =
          P ++ eventsOfEntry c s fl t dep2 pA2 i0 ++ Q ∧
        visitEvents c (PMwrite s (t * c.pageSize + i0) w) fuel frame pa depth p =
          P ++ eventsOfEntry c (PMwrite s (t * c.pageSize + i0) w) fl t dep2 pA2 i0 ++ Q ∧
        dep2 + 1 + fl = depth + fuel := by
  have haddr : ∀ g j, j < c.pageSize → g ≠ t →
      (PMwrite s (t * c.pageSize + i0) w).ram (g * c.pageSize + j) =
        s.ram (g * c.pageSize + j) := by
    intro g j hj hgt
    show (if g * c.pageSize + j = t * c.pageSize + i0 then w else s.ram (g * c.pageSize + j)) = _
    rw [if_neg (fun heq => hgt (frame_addr_inj hj hi0 heq).1)]
  have haddr2 : ∀ j, j < c.pageSize → j ≠ i0 →
      (PMwrite s (t * c.pageSize + i0) w).ram (t * c.pageSize + j) =
        s.ram (t * c.pageSize + j) := by
    intro j hj hji
    show (if t * c.pageSize + j = t * c.pageSize + i0 then w else s.ram (t * c.pageSize + j)) = _
    rw [if_neg (fun heq => hji (frame_addr_inj hj hi0 heq).2)]
  intro fuel
  induction fuel with
  | zero =>
    intro frame pa depth p pa2 dep2 pA2 hmem _
    exact absurd hmem (by simp [visitEvents])
  | succ fuel ih =>
    intro frame pa depth p pa2 dep2 pA2 hmem hcount
    rw [visitEvents_succ_join] at hmem
    rcases List.mem_cons.mp hmem with heq | hin
    · -- the marked table is this subtree's root
      injection heq with ht hpa hdep hp
      subst ht
      subst hpa
      subst hdep
      subst hp
      have hjc : (tableFrames (((List.range' 0 c.pageSize).map
          (eventsOfEntry c s fuel t dep2 pA2)).join)).count t = 0 := by
        rw [visitEvents_succ_join, tableFrames, List.count_cons] at hcount
        simp at hcount
        omega
      have hblocks : ∀ j ∈ List.range' 0 c.pageSize,
          ∀ g ∈ tableFrames (eventsOfEntry c s fuel t dep2 pA2 j), g ≠ t := by
        intro j hj g hg
        intro hgt
        subst hgt
        have hz := count_join_eq_zero _ _ _ hjc j hj
        exact List.count_eq_zero.mp hz hg
      have hbeq : ∀ j ∈ List.range' 0 c.pageSize, j ≠ i0 →
          eventsOfEntry c (PMwrite s (t * c.pageSize + i0) w) fuel t dep2 pA2 j =
            eventsOfEntry c s fuel t dep2 pA2 j := by
        intro j hj hji
        have hjPS : j < c.pageSize := by
          rw [List.mem_range'_1] at hj
          omega
        refine eventsOfEntry_congr c s _ fuel t dep2 pA2 j (haddr2 j hjPS hji) ?_
        intro g hg j' hj'
        exact haddr g j' hj' (hblocks j hj g hg)
      have hmem1 : ∀ j ∈ List.range' 0 i0, j ∈ List.range' 0 c.pageSize := by
        intro j hj
        rw [List.mem_range'_1] at hj ⊢
        omega
      have hmem2 : ∀ j ∈ List.range' (i0 + 1) (c.pageSize - i0 - 1), j ∈ List.range' 0 c.pageSize := by
        intro j hj
        rw [List.mem_range'_1] at hj ⊢
        omega
      refine ⟨Ev.table t pa2 dep2 pA2 ::
          ((List.range' 0 i0).map (eventsOfEntry c s fuel t dep2 pA2)).join,
        ((List.range' (i0 + 1) (c.pageSize - i0 - 1)).map (eventsOfEntry c s fuel t dep2 pA2)).join,
        fuel, ?_, ?_, by omega⟩
      · rw [visitEvents_succ_join, range_split_at c.pageSize i0 hi0, List.map_append,
          List.map_cons, join_append_ow]
        have hjn : ((eventsOfEntry c s fuel t dep2 pA2 i0) ::
            (List.range' (i0 + 1) (c.pageSize - i0 - 1)).map (eventsOfEntry c s fuel t dep2 pA2)).join =
            eventsOfEntry c s fuel t dep2 pA2 i0 ++
            ((List.range' (i0 + 1) (c.pageSize - i0 - 1)).map (eventsOfEntry c s fuel t dep2 pA2)).join := rfl
        rw [hjn]
        simp [List.cons_append, List.append_assoc]
      · rw [visitEvents_succ_join, range_split_at c.pageSize i0 hi0, List.map_append,
          List.map_cons, join_append_ow]
        have hm1 : (List.range' 0 i0).map
            (eventsOfEntry c (PMwrite s (t * c.pageSize + i0) w) fuel t dep2 pA2) =
            (List.range' 0 i0).map (eventsOfEntry c s fuel t dep2 pA2) := by
          refine List.map_congr_left ?_
          intro j hj
          refine hbeq j (hmem1 j hj) ?_
          rw [List.mem_range'_1] at hj
          omega
        have hm2 : (List.range' (i0 + 1) (c.pageSize - i0 - 1)).map
            (eventsOfEntry c (PMwrite s (t * c.pageSize + i0) w) fuel t dep2 pA2) =
            (List.range' (i0 + 1) (c.pageSize - i0 - 1)).map (eventsOfEntry c s fuel t dep2 pA2) := by
          refine List.map_congr_left ?_
          intro j hj
          refine hbeq j (hmem2 j hj) ?_
          rw [List.mem_range'_1] at hj
          omega
        rw [hm1, hm2]
        have hjn : ((eventsOfEntry c (PMwrite s (t * c.pageSize + i0) w) fuel t dep2 pA2 i0) ::
            (List.range' (i0 + 1) (c.pageSize - i0 - 1)).map (eventsOfEntry c s fuel t dep2 pA2)).join =
            eventsOfEntry c (PMwrite s (t * c.pageSize + i0) w) fuel t dep2 pA2 i0 ++
            ((List.range' (i0 + 1) (c.pageSize - i0 - 1)).map (eventsOfEntry c s fuel t dep2 pA2)).join := rfl
        rw [hjn]
        simp [List.cons_append, List.append_assoc]
    · -- the marked table lies inside one of the entry blocks
      obtain ⟨bl0, hbl0, hein⟩ := List.mem_join.mp hin
      obtain ⟨j0, hj0, rfl⟩ := List.mem_map.mp hbl0
      have hj0PS : j0 < c.pageSize := by
        rw [List.mem_range'_1] at hj0
        omega
      have htin : t ∈ tableFrames (eventsOfEntry c s fuel frame depth p j0) :=
        (mem_tableFrames_iff _ t).mpr ⟨pa2, dep2, pA2, hein⟩
      have htjoin : t ∈ tableFrames (((List.range' 0 c.pageSize).map
          (eventsOfEntry c s fuel frame depth p)).join) := by
        rw [tableFrames_join]
        exact List.mem_join.mpr ⟨_, List.mem_map.mpr ⟨_, List.mem_map.mpr ⟨j0, hj0, rfl⟩, rfl⟩, htin⟩
      have hft : frame ≠ t := by
        intro hfr
        rw [visitEvents_succ_join, tableFrames, List.count_cons] at hcount
        simp [hfr] at hcount
        have hpos : 0 < (tableFrames (((List.range' 0 c.pageSize).map
            (eventsOfEntry c s fuel frame depth p)).join)).count t :=
          List.count_pos_iff_mem.mpr htjoin
        rw [hfr] at hpos
        omega
      have hjc : (tableFrames (((List.range' 0 c.pageSize).map
          (eventsOfEntry c s fuel frame depth p)).join)).count t = 1 := by
        rw [visitEvents_succ_join, tableFrames, List.count_cons] at hcount
        simp [hft] at hcount
        exact hcount
      obtain ⟨l1, a, l2, hsp, hca, hz1, hz2⟩ := count_join_localize _ t _ hjc
      have hj0a : j0 ∈ l1 ++ a :: l2 := hsp ▸ hj0
      have hj0eq : eventsOfEntry c s fuel frame depth p j0 =
          eventsOfEntry c s fuel frame depth p a ∧ j0 = a := by
        rcases List.mem_append.mp hj0a with h1 | h1
        · exact absurd htin (List.count_eq_zero.mp (hz1 j0 h1))
        · rcases List.mem_cons.mp h1 with rfl | h1
          · exact ⟨rfl, rfl⟩
          · exact absurd htin (List.count_eq_zero.mp (hz2 j0 h1))
      obtain ⟨-, rfl⟩ := hj0eq
      have hmem12 : ∀ b, b ∈ l1 ∨ b ∈ l2 → b ∈ List.range' 0 c.pageSize := by
        intro b hb
        rw [hsp]
        rcases hb with hb | hb
        · exact List.mem_append.mpr (Or.inl hb)
        · exact List.mem_append.mpr (Or.inr (List.mem_cons_of_mem _ hb))
      have hbne : ∀ b, b ∈ l1 ∨ b ∈ l2 →
          eventsOfEntry c (PMwrite s (t * c.pageSize + i0) w) fuel frame depth p b =
            eventsOfEntry c s fuel frame depth p b := by
        intro b hb
        have hbPS : b < c.pageSize := by
          have := hmem12 b hb
          rw [List.mem_range'_1] at this
          omega
        refine eventsOfEntry_congr c s _ fuel frame depth p b (haddr frame b hbPS hft) ?_
        intro g hg j' hj'
        have hzb : (tableFrames (eventsOfEntry c s fuel frame depth p b)).count t = 0 := by
          rcases hb with hb | hb
          · exact hz1 b hb
          · exact hz2 b hb
        have hgt : g ≠ t := by
          intro hgt
          subst hgt
          exact List.count_eq_zero.mp hzb hg
        exact haddr g j' hj' hgt
      by_cases hv : PMread s (frame * c.pageSize + j0) ≠ 0
      · by_cases hdep : depth = c.tablesDepth - 1
        · exfalso
          revert htin
          unfold eventsOfEntry
          rw [if_pos hv, if_pos hdep]
          simp [tableFrames]
        · have hblockeq : eventsOfEntry c s fuel frame depth p j0 =
              visitEvents c s fuel (PMread s (frame * c.pageSize + j0))
                (frame * c.pageSize + j0) (depth + 1) (p * c.pageSize + j0) := by
            unfold eventsOfEntry
            rw [if_pos hv, if_neg hdep]
          have hein2 : Ev.table t pa2 dep2 pA2 ∈
              visitEvents c s fuel (PMread s (frame * c.pageSize + j0))
                (frame * c.pageSize + j0) (depth + 1) (p * c.pageSize + j0) := by
            rw [← hblockeq]
            exact hein
          have hca2 : (tableFrames (visitEvents c s fuel (PMread s (frame * c.pageSize + j0))
              (frame * c.pageSize + j0) (depth + 1) (p * c.pageSize + j0))).count t = 1 := by
            rw [← hblockeq]
            exact hca
          obtain ⟨P', Q', fl, hE, hE', hrel⟩ := ih _ (frame * c.pageSize + j0) (depth + 1)
            (p * c.pageSize + j0) pa2 dep2 pA2 hein2 hca2
          have hval' : PMread (PMwrite s (t * c.pageSize + i0) w) (frame * c.pageSize + j0) =
              PMread s (frame * c.pageSize + j0) := haddr frame j0 hj0PS hft
          have hblockeq' : eventsOfEntry c (PMwrite s (t * c.pageSize + i0) w) fuel frame depth p j0 =
              visitEvents c (PMwrite s (t * c.pageSize + i0) w) fuel
                (PMread s (frame * c.pageSize + j0))
                (frame * c.pageSize + j0) (depth + 1) (p * c.pageSize + j0) := by
            unfold eventsOfEntry
            rw [hval', if_pos hv, if_neg hdep]
          refine ⟨Ev.table frame pa depth p ::
              (l1.map (eventsOfEntry c s fuel frame depth p)).join ++ P',
            Q' ++ (l2.map (eventsOfEntry c s fuel frame depth p)).join, fl, ?_, ?_, by omega⟩
          · rw [visitEvents_succ_join, hsp, List.map_append, List.map_cons, join_append_ow]
            have hjn : ((eventsOfEntry c s fuel frame depth p j0) ::
                l2.map (eventsOfEntry c s fuel frame depth p)).join =
                eventsOfEntry c s fuel frame depth p j0 ++
                (l2.map (eventsOfEntry c s fuel frame depth p)).join := rfl
            rw [hjn, hblockeq, hE]
            simp [List.cons_append, List.append_assoc]
          · rw [visitEvents_succ_join, hsp, List.map_append, List.map_cons, join_append_ow]
            have hm1 : l1.map (eventsOfEntry c (PMwrite s (t * c.pageSize + i0) w) fuel frame depth p) =
                l1.map (eventsOfEntry c s fuel frame depth p) :=
              List.map_congr_left (fun b hb => hbne b (Or.inl hb))
            have hm2 : l2.map (eventsOfEntry c (PMwrite s (t * c.pageSize + i0) w) fuel frame depth p) =
                l2.map (eventsOfEntry c s fuel frame depth p) :=
              List.map_congr_left (fun b hb => hbne b (Or.inr hb))
            rw [hm1, hm2]
            have hjn : ((eventsOfEntry c (PMwrite s (t * c.pageSize + i0) w) fuel frame depth p j0) ::
                l2.map (eventsOfEntry c s fuel frame depth p)).join =
                eventsOfEntry c (PMwrite s (t * c.pageSize + i0) w) fuel frame depth p j0 ++
                (l2.map (eventsOfEntry c s fuel frame depth p)).join := rfl
            rw [hjn, hblockeq', hE']
            simp [List.cons_append, List.append_assoc]
      · exfalso
        revert htin
        unfold eventsOfEntry
        rw [if_neg hv]
        simp [tableFrames]

end VM

namespace VM

theorem foldl_pres {α β : Type} (f : PMState → α → PMState) (proj : PMState → β)
    (hf : ∀ st x, proj (f st x) = proj st) :
    ∀ (l : List α) (s : PMState), proj (l.foldl f s) = proj s := by
  intro l
  induction l with
  | nil => intro s; rfl
  | cons a l ih => intro s; rw [List.foldl_cons, ih, hf]

theorem foldr_max_mem : ∀ l : List Nat, l.foldr max 0 = 0 ∨ l.foldr max 0 ∈ l := by
  intro l
  induction l with
  | nil => exact Or.inl rfl
  | cons a l ih =>
    simp only [List.foldr_cons]
    rcases Nat.le_total a (l.foldr max 0) with h | h
    · rw [max_eq_right h]
      rcases ih with h0 | hm
      · exact Or.inl h0
      · exact Or.inr (List.mem_cons_of_mem _ hm)
    · rw [max_eq_left h]
      exact Or.inr (List.mem_cons_self _ _)

theorem foldr_max_congr (l1 l2 : List Nat) (h : ∀ x, x ∈ l1 ↔ x ∈ l2) :
    l1.foldr max 0 = l2.foldr max 0 := by
  have h1 : l1.foldr max 0 ≤ l2.foldr max 0 := by
    rcases foldr_max_mem l1 with h0 | hm
    · omega
    · exact le_foldr_max _ _ ((h _).mp hm)
  have h2 : l2.foldr max 0 ≤ l1.foldr max 0 := by
    rcases foldr_max_mem l2 with h0 | hm
    · omega
    · exact le_foldr_max _ _ ((h _).mpr hm)
  omega

theorem count_linkVals_le_nodesOf : ∀ (l : List Ev) (g : Nat),
    (linkVals l).count g ≤ (nodesOf l).count g := by
  intro l
  induction l with
  | nil => intro g; exact Nat.le_refl _
  | cons e rest ih =>
    intro g
    cases e with
    | table f pa d p =>
      rw [linkVals, nodesOf, List.count_cons]
      by_cases hf : f = 0
      · rw [if_pos hf, List.nil_append]
        have := ih g
        omega
      · rw [if_neg hf]
        have h1 : (([f] ++ linkVals rest).count g) = (linkVals rest).count g + if f == g then 1 else 0 := by
          rw [List.count_append]
          simp [List.count_cons, List.count_nil]
          omega
        rw [h1]
        have := ih g
        have h2 : (if (f == g) = true then 1 else 0) ≤ if (f == g) = true then 1 else 0 := le_refl _
        omega
    | cand cd =>
      rw [linkVals, nodesOf, List.count_cons, List.count_cons]
      have := ih g
      omega

theorem nodup_tableFrames_of_nodes (l : List Ev) (h : (nodesOf l).Nodup) :
    (tableFrames l).Nodup := by
  rw [List.nodup_iff_count_le_one] at h ⊢
  intro a
  exact le_trans (count_tableFrames_le_nodesOf l a) (h a)

theorem nodup_linkVals_of_nodes (l : List Ev) (h : (nodesOf l).Nodup) :
    (linkVals l).Nodup := by
  rw [List.nodup_iff_count_le_one] at h ⊢
  intro a
  exact le_trans (count_linkVals_le_nodesOf l a) (h a)

theorem nodes_length_of_range (L : List Nat) (M : Nat) (hnd : L.Nodup)
    (hmem : ∀ g, g ∈ L ↔ g ≤ M) : L.length = M + 1 := by
  have hfin : L.toFinset = Finset.range (M + 1) := by
    ext g
    rw [List.mem_toFinset, Finset.mem_range, hmem]
    omega
  have hcard := List.toFinset_card_of_nodup hnd
  rw [hfin, Finset.card_range] at hcard
  omega

end VM

namespace VM

theorem visit_allZero (c : Config) (s : PMState) (fuel f pa dep p : Nat)
    (hz : allZeroFrame c s f = true) :
    visitEvents c s (fuel + 1) f pa dep p = [Ev.table f pa dep p] := by
  have h := eventsScan_nil_of_rangeZero c s f dep p
      (fun v ea pp => visitEvents c s fuel v ea (dep + 1) pp) c.pageSize 0
      (by rw [rangeZero_eq_allZero]; exact hz)
  rw [visitEvents, h]

theorem table_depth_bound (c : Config) (s : PMState) :
    ∀ (fuel frame pa depth p f q dep pA : Nat),
      Ev.table f q dep pA ∈ visitEvents c s fuel frame pa depth p →
      depth ≤ dep ∧ dep < depth + fuel := by
  intro fuel
  induction fuel with
  | zero =>
    intro frame pa depth p f q dep pA h
    exact absurd h (by simp [visitEvents])
  | succ fuel ih =>
    intro frame pa depth p f q dep pA h
    rw [visitEvents_succ_join] at h
    rcases List.mem_cons.mp h with heq | hin
    · injection heq with h1 h2 h3 h4
      omega
    · obtain ⟨bl, hbl, hein⟩ := List.mem_join.mp hin
      obtain ⟨j, hjmem, rfl⟩ := List.mem_map.mp hbl
      revert hein
      unfold eventsOfEntry
      by_cases hval : PMread s (frame * c.pageSize + j) ≠ 0
      · rw [if_pos hval]
        by_cases hdep : depth = c.tablesDepth - 1
        · rw [if_pos hdep]
          intro hein
          exact absurd hein (by simp)
        · rw [if_neg hdep]
          intro hein
          have := ih _ _ (depth + 1) _ f q dep pA hein
          omega
      · rw [if_neg hval]
        intro hein
        exact absurd hein (by simp)

theorem table_children_mem (c : Config) (s : PMState) (i0 : Nat) (hi0 : i0 < c.pageSize) :
    ∀ (fuel frame pa depth p t q dept pAt : Nat),
      Ev.table t q dept pAt ∈ visitEvents c s fuel frame pa depth p →
      PMread s (t * c.pageSize + i0) ≠ 0 →
      (dept = c.tablesDepth - 1 →
        Ev.cand ⟨PMread s (t * c.pageSize + i0), t * c.pageSize + i0, pAt * c.pageSize + i0⟩ ∈
          visitEvents c s fuel frame pa depth p) ∧
      (dept ≠ c.tablesDepth - 1 → dept + 1 < depth + fuel →
        Ev.table (PMread s (t * c.pageSize + i0)) (t * c.pageSize + i0) (dept + 1)
          (pAt * c.pageSize + i0) ∈ visitEvents c s fuel frame pa depth p) := by
  intro fuel
  induction fuel with
  | zero =>
    intro frame pa depth p t q dept pAt h _
    exact absurd h (by simp [visitEvents])
  | succ fuel ih =>
    intro frame pa depth p t q dept pAt h hv
    have h' := h
    rw [visitEvents_succ_join] at h'
    rcases List.mem_cons.mp h' with heq | hin
    · cases heq
      constructor
      · intro hdep
        refine mem_visit_of_mem_block c s fuel frame pa depth p i0 hi0 _ ?_
        unfold eventsOfEntry
        rw [if_pos hv, if_pos hdep]
        exact List.mem_cons_self _ _
      · intro hdep hfl
        refine mem_visit_of_mem_block c s fuel frame pa depth p i0 hi0 _ ?_
        unfold eventsOfEntry
        rw [if_pos hv, if_neg hdep]
        obtain ⟨fl, hfl'⟩ : ∃ fl, fuel = fl + 1 := ⟨fuel - 1, by omega⟩
        rw [hfl', visitEvents_succ_join]
        exact List.mem_cons_self _ _
    · obtain ⟨bl, hbl, hein⟩ := List.mem_join.mp hin
      obtain ⟨j, hjmem, rfl⟩ := List.mem_map.mp hbl
      have hj : j < c.pageSize := by
        rw [List.mem_range'_1] at hjmem
        omega
      revert hein
      unfold eventsOfEntry
      by_cases hval : PMread s (frame * c.pageSize + j) ≠ 0
      · rw [if_pos hval]
        by_cases hdep : depth = c.tablesDepth - 1
        · rw [if_pos hdep]
          intro hein
          exact absurd hein (by simp)
        · rw [if_neg hdep]
          intro hein
          have hsub := ih _ (frame * c.pageSize + j) (depth + 1) _ t q dept pAt hein hv
          constructor
          · intro hd
            refine mem_visit_of_mem_block c s fuel frame pa depth p j hj _ ?_
            unfold eventsOfEntry
            rw [if_pos hval, if_neg hdep]
            exact hsub.1 hd
          · intro hd hfl
            refine mem_visit_of_mem_block c s fuel frame pa depth p j hj _ ?_
            unfold eventsOfEntry
            rw [if_pos hval, if_neg hdep]
            exact hsub.2 hd (by omega)
      · rw [if_neg hval]
        intro hein
        exact absurd hein (by simp)

theorem firstEmptyTable_none_prop (c : Config) (s : PMState) (lcf : Nat) :
    ∀ l : List Ev, firstEmptyTable c s lcf l = none →
      ∀ f pa dep pA, Ev.table f pa dep pA ∈ l → f ≠ 0 → allZeroFrame c s f = true → f = lcf := by
  intro l
  induction l with
  | nil =>
    intro _ f pa dep pA h
    exact absurd h (by simp)
  | cons e rest ih =>
    intro hn f pa dep pA hmem hf hz
    cases e with
    | table g pa2 d2 p2 =>
      rw [firstEmptyTable] at hn
      split at hn
      · exact absurd hn (by simp)
      · rename_i hcond
        rcases List.mem_cons.mp hmem with heq | hmem
        · cases heq
          by_contra hne
          exact hcond ⟨hf, hz, hne⟩
        · exact ih hn f pa dep pA hmem hf hz
    | cand cd =>
      rw [firstEmptyTable] at hn
      refine ih hn f pa dep pA ?_ hf hz
      rcases List.mem_cons.mp hmem with heq | h
      · exact absurd heq (by simp)
      · exact h

theorem firstEmptyTable_some_mem (c : Config) (s : PMState) (lcf : Nat) :
    ∀ (l : List Ev) (f q : Nat), firstEmptyTable c s lcf l = some (f, q) →
      ∃ dep pA, Ev.table f q dep pA ∈ l := by
  intro l
  induction l with
  | nil =>
    intro f q h
    exact absurd h (by simp [firstEmptyTable])
  | cons e rest ih =>
    intro f q h
    cases e with
    | table g pa2 d2 p2 =>
      rw [firstEmptyTable] at h
      split at h
      · injection h with h'
        injection h' with h1 h2
        subst h1
        subst h2
        exact ⟨d2, p2, List.mem_cons_self _ _⟩
      · obtain ⟨dep, pA, hm⟩ := ih f q h
        exact ⟨dep, pA, List.mem_cons_of_mem _ hm⟩
    | cand cd =>
      rw [firstEmptyTable] at h
      obtain ⟨dep, pA, hm⟩ := ih f q h
      exact ⟨dep, pA, List.mem_cons_of_mem _ hm⟩

end VM

namespace VM

theorem foldl_writeF_ram_notmem (c : Config) (fr : Nat) (ct : Nat → Nat) :
    ∀ (l : List Nat) (s : PMState) (x : Nat), (∀ i ∈ l, x ≠ fr * c.pageSize + i) →
      ((l.foldl (fun st i => PMwrite st (fr * c.pageSize + i) (ct i)) s).ram x) = s.ram x := by
  intro l
  induction l with
  | nil => intro s x _; rfl
  | cons a l ih =>
    intro s x h
    rw [List.foldl_cons, ih _ _ (fun i hi => h i (List.mem_cons_of_mem _ hi))]
    show (if x = fr * c.pageSize + a then ct a else s.ram x) = s.ram x
    rw [if_neg (h a (List.mem_cons_self _ _))]

theorem foldl_writeF_ram_mem (c : Config) (fr : Nat) (ct : Nat → Nat) :
    ∀ (l : List Nat) (s : PMState) (j : Nat), l.Nodup → j ∈ l →
      ((l.foldl (fun st i => PMwrite st (fr * c.pageSize + i) (ct i)) s).ram
        (fr * c.pageSize + j)) = ct j := by
  intro l
  induction l with
  | nil => intro s j _ hj; exact absurd hj (by simp)
  | cons a l ih =>
    intro s j hnd hj
    rw [List.foldl_cons]
    rcases List.mem_cons.mp hj with rfl | hj
    · rw [foldl_writeF_ram_notmem]
      · show (if fr * c.pageSize + j = fr * c.pageSize + j then ct j else s.ram _) = ct j
        rw [if_pos rfl]
      · intro i hi heq
        have hji : j = i := by omega
        subst hji
        exact (List.nodup_cons.mp hnd).1 hi
    · exact ih _ j (List.nodup_cons.mp hnd).2 hj

theorem writeFrame_ram_in (c : Config) (s : PMState) (fr : Nat) (ct : Nat → Nat) (j : Nat)
    (hj : j < c.pageSize) : (writeFrame c s fr ct).ram (fr * c.pageSize + j) = ct j := by
  unfold writeFrame
  exact foldl_writeF_ram_mem c fr ct _ s j (List.nodup_range _) (List.mem_range.mpr hj)

theorem writeFrame_ram_out (c : Config) (s : PMState) (fr : Nat) (ct : Nat → Nat) (g j : Nat)
    (hj : j < c.pageSize) (hg : g ≠ fr) :
    (writeFrame c s fr ct).ram (g * c.pageSize + j) = s.ram (g * c.pageSize + j) := by
  unfold writeFrame
  refine foldl_writeF_ram_notmem c fr ct _ s _ ?_
  intro i hi heq
  rw [List.mem_range] at hi
  exact hg (frame_addr_inj hj hi heq).1

theorem writeFrame_swap (c : Config) (s : PMState) (fr : Nat) (ct : Nat → Nat) :
    (writeFrame c s fr ct).swap = s.swap := by
  unfold writeFrame
  exact foldl_pres (fun st i => PMwrite st (fr * c.pageSize + i) (ct i))
    (fun st => st.swap) (fun _ _ => rfl) _ _

theorem writeFrame_evicts (c : Config) (s : PMState) (fr : Nat) (ct : Nat → Nat) :
    (writeFrame c s fr ct).evicts = s.evicts := by
  unfold writeFrame
  exact foldl_pres (fun st i => PMwrite st (fr * c.pageSize + i) (ct i))
    (fun st => st.evicts) (fun _ _ => rfl) _ _

theorem PMrestore_effects (c : Config) (s : PMState) (fr pg : Nat) :
    (PMrestore c s fr pg).swap = s.swap ∧ (PMrestore c s fr pg).evicts = s.evicts ∧
    (∀ g j, j < c.pageSize → g ≠ fr →
      (PMrestore c s fr pg).ram (g * c.pageSize + j) = s.ram (g * c.pageSize + j)) := by
  unfold PMrestore
  cases hsw : s.swap pg with
  | none => exact ⟨rfl, rfl, fun g j hj hg => rfl⟩
  | some ct =>
    refine ⟨?_, ?_, ?_⟩
    · show (writeFrame c s fr ct).swap = s.swap
      exact writeFrame_swap c s fr ct
    · show (writeFrame c s fr ct).evicts = s.evicts
      exact writeFrame_evicts c s fr ct
    · intro g j hj hg
      show (writeFrame c s fr ct).ram (g * c.pageSize + j) = s.ram (g * c.pageSize + j)
      exact writeFrame_ram_out c s fr ct g j hj hg

theorem clearFrame_swap (c : Config) (s : PMState) (f : Nat) :
    (clearFrame c s f).swap = s.swap := by
  unfold clearFrame
  exact foldl_pres (fun st i => PMwrite st (f * c.pageSize + i) 0)
    (fun st => st.swap) (fun _ _ => rfl) _ _

theorem treeEvents_ram_eq (c : Config) (s s' : PMState) (h : ∀ a, s'.ram a = s.ram a) :
    treeEvents c s' = treeEvents c s :=
  visitEvents_congr c s s' c.tablesDepth 0 0 0 0 (fun g _ j _ => h _)

theorem treeEvents_congr_tables (c : Config) (s s' : PMState)
    (hch : ∀ g, g ∈ tableFrames (treeEvents c s) → ∀ j, j < c.pageSize →
      s'.ram (g * c.pageSize + j) = s.ram (g * c.pageSize + j)) :
    treeEvents c s' = treeEvents c s :=
  visitEvents_congr c s s' c.tablesDepth 0 0 0 0 hch

end VM

namespace VM

theorem cand_page_range (c : Config) (s : PMState) :
    ∀ (fuel frame pa depth p : Nat), depth + fuel = c.tablesDepth →
      ∀ cd ∈ cands (visitEvents c s fuel frame pa depth p),
        p * c.pageSize ^ fuel ≤ cd.page ∧ cd.page < (p + 1) * c.pageSize ^ fuel := by
  intro fuel
  induction fuel with
  | zero =>
    intro frame pa depth p _ cd h
    exact absurd h (by simp [visitEvents, cands])
  | succ fuel ih =>
    intro frame pa depth p hdf cd h
    rw [visitEvents_succ_join, cands, cands_join] at h
    obtain ⟨cl, hcl, hcd⟩ := List.mem_join.mp h
    obtain ⟨bl, hbl, rfl⟩ := List.mem_map.mp hcl
    obtain ⟨j, hjm, rfl⟩ := List.mem_map.mp hbl
    have hj : j < c.pageSize := by
      rw [List.mem_range'_1] at hjm
      omega
    revert hcd
    unfold eventsOfEntry
    by_cases hv : PMread s (frame * c.pageSize + j) ≠ 0
    · rw [if_pos hv]
      by_cases hdep : depth = c.tablesDepth - 1
      · rw [if_pos hdep]
        intro hcd
        simp only [cands, List.mem_cons, List.not_mem_nil, or_false] at hcd
        subst hcd
        have hf0 : fuel = 0 := by omega
        subst hf0
        have e1 : p * c.pageSize ^ (0 + 1) = p * c.pageSize := by ring
        have e2 : (p + 1) * c.pageSize ^ (0 + 1) = p * c.pageSize + c.pageSize := by ring
        refine ⟨?_, ?_⟩
        · show p * c.pageSize ^ (0 + 1) ≤ p * c.pageSize + j
          rw [e1]
          omega
        · show p * c.pageSize + j < (p + 1) * c.pageSize ^ (0 + 1)
          rw [e2]
          omega
      · rw [if_neg hdep]
        intro hcd
        have hsub := ih _ (frame * c.pageSize + j) (depth + 1) (p * c.pageSize + j)
          (by omega) cd hcd
        have e1 : p * c.pageSize ^ (fuel + 1) = (p * c.pageSize) * c.pageSize ^ fuel := by ring
        have e2 : (p + 1) * c.pageSize ^ (fuel + 1) =
            (p * c.pageSize + c.pageSize) * c.pageSize ^ fuel := by ring
        constructor
        · calc p * c.pageSize ^ (fuel + 1) = (p * c.pageSize) * c.pageSize ^ fuel := e1
            _ ≤ (p * c.pageSize + j) * c.pageSize ^ fuel := Nat.mul_le_mul_right _ (by omega)
            _ ≤ cd.page := hsub.1
        · calc cd.page < (p * c.pageSize + j + 1) * c.pageSize ^ fuel := hsub.2
            _ ≤ (p * c.pageSize + c.pageSize) * c.pageSize ^ fuel :=
              Nat.mul_le_mul_right _ (by omega)
            _ = (p + 1) * c.pageSize ^ (fuel + 1) := e2.symm
    · rw [if_neg hv]
      intro hcd
      exact absurd hcd (by simp [cands])

theorem eventsOfEntry_page_range (c : Config) (s : PMState) (fuel frame depth p j : Nat)
    (hdf : depth + (fuel + 1) = c.tablesDepth) :
    ∀ cd ∈ cands (eventsOfEntry c s fuel frame depth p j),
      (p * c.pageSize + j) * c.pageSize ^ fuel ≤ cd.page ∧
      cd.page < (p * c.pageSize + j + 1) * c.pageSize ^ fuel := by
  intro cd h
  revert h
  unfold eventsOfEntry
  by_cases hv : PMread s (frame * c.pageSize + j) ≠ 0
  · rw [if_pos hv]
    by_cases hdep : depth = c.tablesDepth - 1
    · rw [if_pos hdep]
      intro h
      simp only [cands, List.mem_cons, List.not_mem_nil, or_false] at h
      subst h
      have hf0 : fuel = 0 := by omega
      subst hf0
      simp only [pow_zero, Nat.mul_one]
      omega
    · rw [if_neg hdep]
      intro h
      exact cand_page_range c s fuel _ _ (depth + 1) _ (by omega) cd h
  · rw [if_neg hv]
    intro h
    exact absurd h (by simp [cands])

theorem cand_pages_nodup (c : Config) (s : PMState) :
    ∀ (fuel frame pa depth p : Nat), depth + fuel = c.tablesDepth →
      ((cands (visitEvents c s fuel frame pa depth p)).map Cand.page).Nodup := by
  intro fuel
  induction fuel with
  | zero =>
    intro frame pa depth p _
    simp [visitEvents, cands]
  | succ fuel ih =>
    intro frame pa depth p hdf
    have hblocknodup : ∀ j, j < c.pageSize →
        ((cands (eventsOfEntry c s fuel frame depth p j)).map Cand.page).Nodup := by
      intro j hj
      unfold eventsOfEntry
      by_cases hv : PMread s (frame * c.pageSize + j) ≠ 0
      · rw [if_pos hv]
        by_cases hdep : depth = c.tablesDepth - 1
        · rw [if_pos hdep]
          simp [cands]
        · rw [if_neg hdep]
          exact ih _ _ (depth + 1) _ (by omega)
      · rw [if_neg hv]
        simp [cands]
    have hinner : ∀ count i, i + count ≤ c.pageSize →
        ((cands (((List.range' i count).map (eventsOfEntry c s fuel frame depth p)).join)).map
          Cand.page).Nodup := by
      intro count
      induction count with
      | zero =>
        intro i _
        simp [cands]
      | succ count ihc =>
        intro i hle
        rw [List.range'_succ, List.map_cons]
        have hjoin : ((eventsOfEntry c s fuel frame depth p i) ::
            (List.range' (i + 1) count).map (eventsOfEntry c s fuel frame depth p)).join =
            eventsOfEntry c s fuel frame depth p i ++
            ((List.range' (i + 1) count).map (eventsOfEntry c s fuel frame depth p)).join := rfl
        rw [hjoin, cands_append, List.map_append]
        refine List.Nodup.append (hblocknodup i (by omega)) (ihc (i + 1) (by omega)) ?_
        intro x hx1 hx2
        obtain ⟨cd1, hcd1, rfl⟩ := List.mem_map.mp hx1
        obtain ⟨cd2, hcd2, hpg⟩ := List.mem_map.mp hx2
        have hb1 := eventsOfEntry_page_range c s fuel frame depth p i hdf cd1 hcd1
        rw [cands_join] at hcd2
        obtain ⟨cl2, hcl2, hcd2'⟩ := List.mem_join.mp hcd2
        obtain ⟨bl2, hbl2, rfl⟩ := List.mem_map.mp hcl2
        obtain ⟨j2, hj2m, rfl⟩ := List.mem_map.mp hbl2
        have hj2 : i + 1 ≤ j2 ∧ j2 < c.pageSize := by
          rw [List.mem_range'_1] at hj2m
          omega
        have hb2 := eventsOfEntry_page_range c s fuel frame depth p j2 hdf cd2 hcd2'
        have hmono : (p * c.pageSize + i + 1) * c.pageSize ^ fuel ≤
            (p * c.pageSize + j2) * c.pageSize ^ fuel :=
          Nat.mul_le_mul_right _ (by omega)
        omega
    rw [visitEvents_succ_join, cands]
    exact hinner c.pageSize 0 (by omega)

theorem cand_page_inj (c : Config) (s : PMState) :
    ∀ cd1 ∈ cands (treeEvents c s), ∀ cd2 ∈ cands (treeEvents c s),
      cd1.page = cd2.page → cd1 = cd2 := by
  have h := cand_pages_nodup c s c.tablesDepth 0 0 0 0 (by omega)
  intro cd1 h1 cd2 h2 hpg
  exact List.inj_on_of_nodup_map h h1 h2 hpg

end VM

namespace VM

theorem block_cands_nil (c : Config) (s : PMState) (fuel frame pa depth p : Nat)
    (hcn : cands (visitEvents c s (fuel + 1) frame pa depth p) = []) :
    ∀ j, j < c.pageSize → cands (eventsOfEntry c s fuel frame depth p j) = [] := by
  intro j hj
  rw [visitEvents_succ_join, cands, cands_join] at hcn
  by_contra hne
  obtain ⟨cd, hcd⟩ := List.exists_mem_of_ne_nil _ hne
  have hm : cd ∈ (((List.range' 0 c.pageSize).map
      (eventsOfEntry c s fuel frame depth p)).map cands).join :=
    List.mem_join.mpr ⟨_, List.mem_map.mpr ⟨_, List.mem_map.mpr
      ⟨j, by rw [List.mem_range'_1]; omega, rfl⟩, rfl⟩, hcd⟩
  rw [hcn] at hm
  exact absurd hm (by simp)

theorem empty_table_exists (c : Config) (s : PMState) :
    ∀ (fuel frame pa depth p : Nat), depth + fuel = c.tablesDepth → 1 ≤ fuel →
      cands (visitEvents c s fuel frame pa depth p) = [] →
      ∃ t ∈ tableFrames (visitEvents c s fuel frame pa depth p), allZeroFrame c s t = true := by
  intro fuel
  induction fuel with
  | zero =>
    intro frame pa depth p _ h1
    exact absurd h1 (by omega)
  | succ fuel ih =>
    intro frame pa depth p hdf _ hcn
    by_cases hz : allZeroFrame c s frame = true
    · refine ⟨frame, ?_, hz⟩
      rw [visitEvents_succ_join, tableFrames]
      exact List.mem_cons_self _ _
    · have hex : ∃ j, j < c.pageSize ∧ PMread s (frame * c.pageSize + j) ≠ 0 := by
        by_contra hno
        push_neg at hno
        apply hz
        unfold allZeroFrame
        rw [List.all_eq_true]
        intro i hi
        rw [List.mem_range] at hi
        have hv0 := hno i hi
        simp [hv0]
      obtain ⟨j, hj, hv⟩ := hex
      have hbl := block_cands_nil c s fuel frame pa depth p hcn j hj
      by_cases hdep : depth = c.tablesDepth - 1
      · exfalso
        revert hbl
        unfold eventsOfEntry
        rw [if_pos hv, if_pos hdep]
        simp [cands]
      · have hblEq : eventsOfEntry c s fuel frame depth p j =
            visitEvents c s fuel (PMread s (frame * c.pageSize + j)) (frame * c.pageSize + j)
              (depth + 1) (p * c.pageSize + j) := by
          unfold eventsOfEntry
          rw [if_pos hv, if_neg hdep]
        have hsub := ih _ (frame * c.pageSize + j) (depth + 1) (p * c.pageSize + j)
          (by omega) (by omega) (by rw [← hblEq]; exact hbl)
        obtain ⟨t, htm, htz⟩ := hsub
        refine ⟨t, ?_, htz⟩
        obtain ⟨pa2, dep2, pA2, hev⟩ := (mem_tableFrames_iff _ t).mp htm
        exact (mem_tableFrames_iff _ t).mpr ⟨pa2, dep2, pA2,
          mem_visit_of_mem_block c s fuel frame pa depth p j hj _ (by rw [hblEq]; exact hev)⟩

theorem mul_bound_add (A B a b k : Nat) (h1 : A ≤ k * a) (h2 : B ≤ k * b) :
    A + B ≤ k * (a + b) := by
  have h : k * (a + b) = k * a + k * b := by ring
  omega

theorem nodes_length_bound (c : Config) (s : PMState) :
    ∀ (fuel frame pa depth p : Nat), depth + fuel = c.tablesDepth →
      cands (visitEvents c s fuel frame pa depth p) = [] →
      (nodesOf (visitEvents c s fuel frame pa depth p)).length ≤
        1 + (fuel - 1) * (tableFrames (visitEvents c s fuel frame pa depth p)).countP
          (fun t => allZeroFrame c s t) := by
  intro fuel
  induction fuel with
  | zero =>
    intro frame pa depth p _ _
    simp [visitEvents, nodesOf]
  | succ fuel ih =>
    intro frame pa depth p hdf hcn
    have hblock : ∀ j, j < c.pageSize →
        (nodesOf (eventsOfEntry c s fuel frame depth p j)).length ≤
          fuel * (tableFrames (eventsOfEntry c s fuel frame depth p j)).countP
            (fun t => allZeroFrame c s t) := by
      intro j hj
      have hbl := block_cands_nil c s fuel frame pa depth p hcn j hj
      by_cases hv : PMread s (frame * c.pageSize + j) ≠ 0
      · by_cases hdep : depth = c.tablesDepth - 1
        · exfalso
          revert hbl
          unfold eventsOfEntry
          rw [if_pos hv, if_pos hdep]
          simp [cands]
        · have hblEq : eventsOfEntry c s fuel frame depth p j =
              visitEvents c s fuel (PMread s (frame * c.pageSize + j)) (frame * c.pageSize + j)
                (depth + 1) (p * c.pageSize + j) := by
            unfold eventsOfEntry
            rw [if_pos hv, if_neg hdep]
          obtain ⟨f', hf'⟩ : ∃ f', fuel = f' + 1 := ⟨fuel - 1, by omega⟩
          have hcnb : cands (visitEvents c s fuel (PMread s (frame * c.pageSize + j))
              (frame * c.pageSize + j) (depth + 1) (p * c.pageSize + j)) = [] := by
            rw [← hblEq]
            exact hbl
          have hlen := ih _ (frame * c.pageSize + j) (depth + 1) (p * c.pageSize + j)
            (by omega) hcnb
          have hemp := empty_table_exists c s fuel (PMread s (frame * c.pageSize + j))
            (frame * c.pageSize + j) (depth + 1) (p * c.pageSize + j) (by omega) (by omega) hcnb
          obtain ⟨t, htm, htz⟩ := hemp
          have hpos : 0 < (tableFrames (visitEvents c s fuel (PMread s (frame * c.pageSize + j))
              (frame * c.pageSize + j) (depth + 1) (p * c.pageSize + j))).countP
                (fun t => allZeroFrame c s t) := by
            rw [List.countP_pos]
            exact ⟨t, htm, htz⟩
          rw [hblEq]
          have e2 : fuel - 1 = f' := by omega
          rw [e2] at hlen
          have e1 : fuel * (tableFrames (visitEvents c s fuel (PMread s (frame * c.pageSize + j))
              (frame * c.pageSize + j) (depth + 1) (p * c.pageSize + j))).countP
                (fun t => allZeroFrame c s t) =
              f' * (tableFrames (visitEvents c s fuel (PMread s (frame * c.pageSize + j))
              (frame * c.pageSize + j) (depth + 1) (p * c.pageSize + j))).countP
                (fun t => allZeroFrame c s t) +
              (tableFrames (visitEvents c s fuel (PMread s (frame * c.pageSize + j))
              (frame * c.pageSize + j) (depth + 1) (p * c.pageSize + j))).countP
                (fun t => allZeroFrame c s t) := by
            rw [hf']
            ring
          omega
      · unfold eventsOfEntry
        rw [if_neg hv]
        simp [nodesOf]
    have hjoin : ∀ count i, i + count ≤ c.pageSize →
        (nodesOf (((List.range' i count).map (eventsOfEntry c s fuel frame depth p)).join)).length ≤
          fuel * (tableFrames (((List.range' i count).map
            (eventsOfEntry c s fuel frame depth p)).join)).countP (fun t => allZeroFrame c s t) := by
      intro count
      induction count with
      | zero =>
        intro i _
        simp [nodesOf]
      | succ count ihc =>
        intro i hle
        rw [List.range'_succ, List.map_cons]
        have hjc : ((eventsOfEntry c s fuel frame depth p i) ::
            (List.range' (i + 1) count).map (eventsOfEntry c s fuel frame depth p)).join =
            eventsOfEntry c s fuel frame depth p i ++
            ((List.range' (i + 1) count).map (eventsOfEntry c s fuel frame depth p)).join := rfl
        rw [hjc, nodesOf_append, tableFrames_append, List.length_append, List.countP_append]
        exact mul_bound_add _ _ _ _ fuel (hblock i (by omega)) (ihc (i + 1) (by omega))
    have hj := hjoin c.pageSize 0 (by omega)
    rw [visitEvents_succ_join, nodesOf, tableFrames, List.length_cons, List.countP_cons]
    have hmono : fuel * (tableFrames (((List.range' 0 c.pageSize).map
        (eventsOfEntry c s fuel frame depth p)).join)).countP (fun t => allZeroFrame c s t) ≤
        fuel * ((tableFrames (((List.range' 0 c.pageSize).map
          (eventsOfEntry c s fuel frame depth p)).join)).countP (fun t => allZeroFrame c s t) +
          if allZeroFrame c s frame then 1 else 0) :=
      Nat.mul_le_mul_left _ (by omega)
    have e3 : fuel + 1 - 1 = fuel := by omega
    rw [e3]
    omega

theorem countP_le_count_of {p : Nat → Bool} (a : Nat) :
    ∀ l : List Nat, (∀ x ∈ l, p x = true → x = a) → l.countP p ≤ l.count a := by
  intro l
  induction l with
  | nil => intro _; exact Nat.le_refl _
  | cons b l ih =>
    intro h
    rw [List.countP_cons, List.count_cons]
    have hrec := ih (fun x hx hp => h x (List.mem_cons_of_mem _ hx) hp)
    by_cases hb : p b = true
    · have hba : b = a := h b (List.mem_cons_self _ _) hb
      rw [if_pos hb]
      have hbeq : (b == a) = true := by
        rw [beq_iff_eq]
        exact hba
      simp [hbeq]
      omega
    · rw [if_neg hb]
      omega

end VM

namespace VM

theorem cands_exist (c : Config) (s : PMState) (lcf : Nat)
    (hd : 1 ≤ c.tablesDepth) (hNF : c.tablesDepth + 1 ≤ c.numFrames)
    (hInv : Inv c s)
    (hfe : firstEmptyTable c s lcf (treeEvents c s) = none)
    (hmax : ¬(maxLinked c s + 1 < c.numFrames)) :
    cands (treeEvents c s) ≠ [] := by
  intro hcn
  obtain ⟨hnd, hmem, hlt, hz⟩ := hInv
  by_cases hz0 : allZeroFrame c s 0 = true
  · obtain ⟨d', hd'⟩ : ∃ d', c.tablesDepth = d' + 1 := ⟨c.tablesDepth - 1, by omega⟩
    have htE : treeEvents c s = [Ev.table 0 0 0 0] := by
      unfold treeEvents
      rw [hd']
      exact visit_allZero c s d' 0 0 0 0 hz0
    have hml : maxLinked c s = 0 := by
      unfold maxLinked
      rw [htE]
      rfl
    omega
  · have hstep : ∀ x ∈ tableFrames (treeEvents c s), allZeroFrame c s x = true → x = lcf := by
      intro x hx hxz
      obtain ⟨pa2, dep2, pA2, hev⟩ := (mem_tableFrames_iff _ x).mp hx
      have hx0 : x ≠ 0 := by
        intro h0
        rw [h0] at hxz
        exact hz0 hxz
      exact firstEmptyTable_none_prop c s lcf _ hfe x pa2 dep2 pA2 hev hx0 hxz
    have hcountP : (tableFrames (treeEvents c s)).countP (fun t => allZeroFrame c s t) ≤ 1 := by
      have h1 := countP_le_count_of lcf (tableFrames (treeEvents c s)) hstep
      have h2 : (tableFrames (treeEvents c s)).count lcf ≤ 1 := by
        have hndt := nodup_tableFrames_of_nodes _ hnd
        rw [List.nodup_iff_count_le_one] at hndt
        exact hndt lcf
      have hbridge : (tableFrames (treeEvents c s)).countP (fun t => allZeroFrame c s t) =
          (tableFrames (treeEvents c s)).countP (allZeroFrame c s) := rfl
      omega
    have hlen : (nodesOf (treeEvents c s)).length = maxLinked c s + 1 :=
      nodes_length_of_range _ _ hnd hmem
    have hbound := nodes_length_bound c s c.tablesDepth 0 0 0 0 (by omega) hcn
    have hm2 : (c.tablesDepth - 1) * (tableFrames (treeEvents c s)).countP
        (fun t => allZeroFrame c s t) ≤ (c.tablesDepth - 1) * 1 :=
      Nat.mul_le_mul_left _ hcountP
    have e1 : (c.tablesDepth - 1) * 1 = c.tablesDepth - 1 := by ring
    have htE : visitEvents c s c.tablesDepth 0 0 0 0 = treeEvents c s := rfl
    rw [htE] at hbound
    omega

end VM

namespace VM

theorem PMwrite_ram_ne (s : PMState) (a v x : Nat) (hx : x ≠ a) :
    (PMwrite s a v).ram x = s.ram x := by
  show (if x = a then v else s.ram x) = s.ram x
  rw [if_neg hx]

theorem PMwrite_ram_at (s : PMState) (a v : Nat) : (PMwrite s a v).ram a = v := by
  show (if a = a then v else s.ram a) = v
  rw [if_pos rfl]

theorem all_congr_mem {α : Type} (p q : α → Bool) :
    ∀ l : List α, (∀ x ∈ l, p x = q x) → l.all p = l.all q := by
  intro l
  induction l with
  | nil => intro _; rfl
  | cons a l ih =>
    intro h
    rw [List.all_cons, List.all_cons, h a (List.mem_cons_self _ _),
      ih (fun x hx => h x (List.mem_cons_of_mem _ hx))]

theorem allZeroFrame_congr (c : Config) (s s' : PMState) (v : Nat)
    (h : ∀ j, j < c.pageSize → s'.ram (v * c.pageSize + j) = s.ram (v * c.pageSize + j)) :
    allZeroFrame c s' v = allZeroFrame c s v := by
  unfold allZeroFrame
  refine all_congr_mem _ _ _ ?_
  intro x hx
  rw [List.mem_range] at hx
  show (PMread s' (v * c.pageSize + x) == 0) = (PMread s (v * c.pageSize + x) == 0)
  rw [show PMread s' (v * c.pageSize + x) = PMread s (v * c.pageSize + x) from h x hx]

theorem write_entry_split (c : Config) (s : PMState) (t i0 w pa2 dep2 pA2 : Nat)
    (hi0 : i0 < c.pageSize)
    (hmem : Ev.table t pa2 dep2 pA2 ∈ treeEvents c s)
    (hnd : (nodesOf (treeEvents c s)).Nodup) :
    ∃ P Q fl,
      treeEvents c s = P ++ eventsOfEntry c s fl t dep2 pA2 i0 ++ Q ∧
      treeEvents c (PMwrite s (t * c.pageSize + i0) w) =
        P ++ eventsOfEntry c (PMwrite s (t * c.pageSize + i0) w) fl t dep2 pA2 i0 ++ Q ∧
      dep2 + 1 + fl = c.tablesDepth := by
  have hcount : (tableFrames (treeEvents c s)).count t = 1 := by
    have h1 : t ∈ tableFrames (treeEvents c s) :=
      (mem_tableFrames_iff _ t).mpr ⟨pa2, dep2, pA2, hmem⟩
    have h2 : 0 < (tableFrames (treeEvents c s)).count t := List.count_pos_iff_mem.mpr h1
    have h3 : (tableFrames (treeEvents c s)).count t ≤ 1 := by
      have hndt := nodup_tableFrames_of_nodes _ hnd
      rw [List.nodup_iff_count_le_one] at hndt
      exact hndt t
    omega
  obtain ⟨P, Q, fl, hA, hB, hC⟩ :=
    update_at_entry c s t i0 w hi0 c.tablesDepth 0 0 0 0 pa2 dep2 pA2 hmem hcount
  exact ⟨P, Q, fl, hA, hB, by omega⟩

theorem eventsOfEntry_zero (c : Config) (s : PMState) (fl t dep2 pA2 i0 : Nat)
    (h : PMread s (t * c.pageSize + i0) = 0) :
    eventsOfEntry c s fl t dep2 pA2 i0 = [] := by
  unfold eventsOfEntry
  rw [if_neg (by simp [h])]

theorem eventsOfEntry_cand (c : Config) (s : PMState) (fl t pA2 i0 : Nat)
    (hv : PMread s (t * c.pageSize + i0) ≠ 0) :
    eventsOfEntry c s fl t (c.tablesDepth - 1) pA2 i0 =
      [Ev.cand ⟨PMread s (t * c.pageSize + i0), t * c.pageSize + i0,
        pA2 * c.pageSize + i0⟩] := by
  unfold eventsOfEntry
  rw [if_pos hv, if_pos rfl]

theorem eventsOfEntry_table (c : Config) (s : PMState) (fl t dep2 pA2 i0 : Nat)
    (hv : PMread s (t * c.pageSize + i0) ≠ 0)
    (hdep : dep2 ≠ c.tablesDepth - 1)
    (hz : allZeroFrame c s (PMread s (t * c.pageSize + i0)) = true)
    (hfl : 1 ≤ fl) :
    eventsOfEntry c s fl t dep2 pA2 i0 =
      [Ev.table (PMread s (t * c.pageSize + i0)) (t * c.pageSize + i0) (dep2 + 1)
        (pA2 * c.pageSize + i0)] := by
  unfold eventsOfEntry
  rw [if_pos hv, if_neg hdep]
  obtain ⟨fl', rfl⟩ : ∃ fl', fl = fl' + 1 := ⟨fl - 1, by omega⟩
  exact visit_allZero c s fl' _ _ _ _ hz

theorem eventsOfEntry_subtree (c : Config) (s : PMState) (fl t dep2 pA2 i0 : Nat)
    (hv : PMread s (t * c.pageSize + i0) ≠ 0)
    (hdep : dep2 ≠ c.tablesDepth - 1) :
    eventsOfEntry c s fl t dep2 pA2 i0 =
      visitEvents c s fl (PMread s (t * c.pageSize + i0)) (t * c.pageSize + i0) (dep2 + 1)
        (pA2 * c.pageSize + i0) := by
  unfold eventsOfEntry
  rw [if_pos hv, if_neg hdep]

theorem attach_effect (c : Config) (s : PMState) (t i0 v pa2 dep2 pA2 : Nat)
    (hi0 : i0 < c.pageSize)
    (hmem : Ev.table t pa2 dep2 pA2 ∈ treeEvents c s)
    (hnd : (nodesOf (treeEvents c s)).Nodup)
    (he0 : PMread s (t * c.pageSize + i0) = 0)
    (hv : v ≠ 0)
    (hvt : v ≠ t)
    (hvz : allZeroFrame c s v = true) :
    ∃ P Q nb,
      treeEvents c s = P ++ Q ∧
      treeEvents c (PMwrite s (t * c.pageSize + i0) v) = P ++ nb ++ Q ∧
      (if dep2 = c.tablesDepth - 1
        then nb = [Ev.cand ⟨v, t * c.pageSize + i0, pA2 * c.pageSize + i0⟩]
        else nb = [Ev.table v (t * c.pageSize + i0) (dep2 + 1) (pA2 * c.pageSize + i0)]) := by
  obtain ⟨P, Q, fl, hA, hB, hC⟩ := write_entry_split c s t i0 v pa2 dep2 pA2 hi0 hmem hnd
  rw [eventsOfEntry_zero c s fl t dep2 pA2 i0 he0] at hA
  have hva : PMread (PMwrite s (t * c.pageSize + i0) v) (t * c.pageSize + i0) = v :=
    PMwrite_ram_at s _ v
  have hva' : PMread (PMwrite s (t * c.pageSize + i0) v) (t * c.pageSize + i0) ≠ 0 := by
    rw [hva]
    exact hv
  refine ⟨P, Q, eventsOfEntry c (PMwrite s (t * c.pageSize + i0) v) fl t dep2 pA2 i0,
    by rw [hA]; simp, hB, ?_⟩
  by_cases hdep : dep2 = c.tablesDepth - 1
  · rw [if_pos hdep]
    subst hdep
    rw [eventsOfEntry_cand c _ fl t pA2 i0 hva', hva]
  · rw [if_neg hdep]
    have hzv' : allZeroFrame c (PMwrite s (t * c.pageSize + i0) v) v = true := by
      rw [allZeroFrame_congr c s _ v ?_]
      · exact hvz
      · intro j hj
        refine PMwrite_ram_ne s _ v _ ?_
        intro heq
        exact hvt (frame_addr_inj hj hi0 heq).1
    rw [eventsOfEntry_table c _ fl t dep2 pA2 i0 hva' hdep (by rw [hva]; exact hzv')
      (by omega), hva]

theorem detach_table_effect (c : Config) (s : PMState) (e q dep_e pA_e : Nat)
    (hmem : Ev.table e q dep_e pA_e ∈ treeEvents c s)
    (hnd : (nodesOf (treeEvents c s)).Nodup)
    (he : e ≠ 0)
    (hez : allZeroFrame c s e = true) :
    ∃ P Q,
      treeEvents c s = P ++ [Ev.table e q dep_e pA_e] ++ Q ∧
      treeEvents c (PMwrite s q 0) = P ++ Q := by
  rcases table_entry_sound c s c.tablesDepth 0 0 0 0 e q dep_e pA_e hmem with
    ⟨h1, -, -, -⟩ | ⟨tp, ip, pap, pAp, hip, hq, hram, -, hpev, hdep1, hpA, hnd2⟩
  · exact absurd h1 he
  · subst hq
    obtain ⟨P, Q, fl, hA, hB, hC⟩ :=
      write_entry_split c s tp ip 0 pap (dep_e - 1) pAp hip hpev hnd
    have hvP : PMread s (tp * c.pageSize + ip) = e := hram
    have hvne : PMread s (tp * c.pageSize + ip) ≠ 0 := by
      rw [hvP]
      exact he
    have hfl : 1 ≤ fl := by omega
    rw [eventsOfEntry_table c s fl tp (dep_e - 1) pAp ip hvne hnd2
      (by rw [hvP]; exact hez) hfl, hvP] at hA
    have hde : dep_e - 1 + 1 = dep_e := by omega
    rw [hde, ← hpA] at hA
    have hnew : PMread (PMwrite s (tp * c.pageSize + ip) 0) (tp * c.pageSize + ip) = 0 :=
      PMwrite_ram_at s _ 0
    rw [eventsOfEntry_zero c _ fl tp (dep_e - 1) pAp ip hnew] at hB
    refine ⟨P, Q, hA, ?_⟩
    rw [hB]
    simp

theorem detach_cand_effect (c : Config) (s : PMState) (cd : Cand)
    (hmem : cd ∈ cands (treeEvents c s))
    (hnd : (nodesOf (treeEvents c s)).Nodup) :
    ∃ P Q,
      treeEvents c s = P ++ [Ev.cand cd] ++ Q ∧
      treeEvents c (PMwrite s cd.entryAdd 0) = P ++ Q := by
  obtain ⟨t, i0, pa2, pA2, hi0, hea, hram, hto, hpage⟩ :=
    cand_entry_sound c s c.tablesDepth 0 0 0 0 cd hmem
  obtain ⟨P, Q, fl, hA, hB, hC⟩ :=
    write_entry_split c s t i0 0 pa2 (c.tablesDepth - 1) pA2 hi0 hto hnd
  have hf0 : cd.frame ≠ 0 := cands_visit_nonzero c s c.tablesDepth 0 0 0 0 cd hmem
  have hvP : PMread s (t * c.pageSize + i0) = cd.frame := by
    rw [← hea]
    exact hram
  have hvne : PMread s (t * c.pageSize + i0) ≠ 0 := by
    rw [hvP]
    exact hf0
  rw [eventsOfEntry_cand c s fl t pA2 i0 hvne, hvP] at hA
  have hcd : (⟨cd.frame, t * c.pageSize + i0, pA2 * c.pageSize + i0⟩ : Cand) = cd := by
    rw [← hea, ← hpage]
  rw [hcd] at hA
  have hnew : PMread (PMwrite s (t * c.pageSize + i0) 0) (t * c.pageSize + i0) = 0 :=
    PMwrite_ram_at s _ 0
  rw [eventsOfEntry_zero c _ fl t (c.tablesDepth - 1) pA2 i0 hnew] at hB
  refine ⟨P, Q, hA, ?_⟩
  rw [hea, hB]
  simp

end VM

namespace VM

theorem allZeroFrame_read (c : Config) (s : PMState) (f : Nat) (h : allZeroFrame c s f = true)
    (j : Nat) (hj : j < c.pageSize) : PMread s (f * c.pageSize + j) = 0 := by
  unfold allZeroFrame at h
  rw [List.all_eq_true] at h
  have hh := h j (List.mem_range.mpr hj)
  simpa using hh

theorem count_nodesOf_split : ∀ (l : List Ev) (x : Nat),
    (nodesOf l).count x = (tableFrames l).count x + ((cands l).map Cand.frame).count x := by
  intro l
  induction l with
  | nil => intro x; rfl
  | cons e rest ih =>
    intro x
    cases e with
    | table f pa d p =>
      rw [nodesOf, tableFrames, cands, List.count_cons, List.count_cons, ih x]
      omega
    | cand cd =>
      rw [nodesOf, tableFrames, cands, List.map_cons, List.count_cons, List.count_cons, ih x]
      omega

theorem table_cand_distinct (l : List Ev) (hnd : (nodesOf l).Nodup) (t : Nat)
    (ht : t ∈ tableFrames l) (cd : Cand) (hcd : cd ∈ cands l) : t ≠ cd.frame := by
  intro heq
  rw [heq] at ht
  have h1 : 0 < (tableFrames l).count cd.frame := List.count_pos_iff_mem.mpr ht
  have h2 : 0 < ((cands l).map Cand.frame).count cd.frame :=
    List.count_pos_iff_mem.mpr (List.mem_map.mpr ⟨cd, hcd, rfl⟩)
  have h3 := count_nodesOf_split l cd.frame
  rw [List.nodup_iff_count_le_one] at hnd
  have h4 := hnd cd.frame
  omega

theorem nodup_candFrames_of_nodes (l : List Ev) (hnd : (nodesOf l).Nodup) :
    ((cands l).map Cand.frame).Nodup := by
  rw [List.nodup_iff_count_le_one] at hnd ⊢
  intro a
  exact le_trans (count_candFrames_le_nodesOf l a) (hnd a)

theorem cand_frame_inj (l : List Ev) (hnd : (nodesOf l).Nodup) (cd1 cd2 : Cand)
    (h1 : cd1 ∈ cands l) (h2 : cd2 ∈ cands l) (hf : cd1.frame = cd2.frame) : cd1 = cd2 :=
  List.inj_on_of_nodup_map (nodup_candFrames_of_nodes l hnd) h1 h2 hf

theorem mem_iff_of_count_eq {L1 L2 : List Nat} (h : ∀ x, L1.count x = L2.count x) :
    ∀ x, x ∈ L1 ↔ x ∈ L2 := by
  intro x
  rw [← List.count_pos_iff_mem, ← List.count_pos_iff_mem, h x]

theorem nodup_of_count_eq {L1 L2 : List Nat} (h : ∀ x, L1.count x = L2.count x)
    (hnd : L2.Nodup) : L1.Nodup := by
  rw [List.nodup_iff_count_le_one] at hnd ⊢
  intro a
  rw [h a]
  exact hnd a

theorem storedWord_congr (c : Config) (s s' : PMState) (p j : Nat)
    (hpc : pageCands c s' p = pageCands c s p)
    (hram : ∀ cd ∈ pageCands c s p,
      s'.ram (cd.frame * c.pageSize + j) = s.ram (cd.frame * c.pageSize + j))
    (hsw : s'.swap p = s.swap p) :
    storedWord c s' p j = storedWord c s p j := by
  unfold storedWord
  rw [hpc]
  cases hc : pageCands c s p with
  | nil => rw [hsw]
  | cons cd rest =>
    exact hram cd (by rw [hc]; exact List.mem_cons_self _ _)

end VM

namespace VM

theorem count_single (v x : Nat) : ([v] : List Nat).count x = if x = v then 1 else 0 := by
  by_cases h : x = v
  · subst h
    simp
  · simp [List.count_cons, h, Ne.symm h]

theorem foldr_max_le : ∀ (l : List Nat) (v : Nat), (∀ x ∈ l, x ≤ v) → l.foldr max 0 ≤ v := by
  intro l
  induction l with
  | nil => intro v _; exact Nat.zero_le _
  | cons a l ih =>
    intro v h
    simp only [List.foldr_cons]
    exact max_le (h a (List.mem_cons_self _ _)) (ih v (fun x hx => h x (List.mem_cons_of_mem _ hx)))

theorem relink_inv (c : Config) (s s1 s2 : PMState) (v : Nat)
    (P1 Q1 P2 Q2 mid nb : List Ev)
    (hInv : Inv c s)
    (hA : treeEvents c s = P1 ++ mid ++ Q1)
    (hB : treeEvents c s1 = P1 ++ Q1)
    (hPQ2 : treeEvents c s1 = P2 ++ Q2)
    (hPnbQ2 : treeEvents c s2 = P2 ++ nb ++ Q2)
    (hmidn : nodesOf mid = [v]) (hmidl : linkVals mid = [v])
    (hnbn : nodesOf nb = [v]) (hnbl : linkVals nb = [v])
    (hram : ∀ x j, x ∉ nodesOf (treeEvents c s) → j < c.pageSize →
      s2.ram (x * c.pageSize + j) = s.ram (x * c.pageSize + j)) :
    Inv c s2 := by
  obtain ⟨hnd, hmem, hlt, hz⟩ := hInv
  have hcnt : ∀ x, (nodesOf (treeEvents c s2)).count x = (nodesOf (treeEvents c s)).count x := by
    intro x
    have h1 : (nodesOf (treeEvents c s)).count x =
        (nodesOf P1).count x + ((if x = v then 1 else 0) + (nodesOf Q1).count x) := by
      rw [hA, nodesOf_append, nodesOf_append, List.count_append, List.count_append, hmidn,
        count_single]
      omega
    have h2 : (nodesOf (treeEvents c s1)).count x =
        (nodesOf P1).count x + (nodesOf Q1).count x := by
      rw [hB, nodesOf_append, List.count_append]
    have h3 : (nodesOf (treeEvents c s1)).count x =
        (nodesOf P2).count x + (nodesOf Q2).count x := by
      rw [hPQ2, nodesOf_append, List.count_append]
    have h4 : (nodesOf (treeEvents c s2)).count x =
        (nodesOf P2).count x + ((if x = v then 1 else 0) + (nodesOf Q2).count x) := by
      rw [hPnbQ2, nodesOf_append, nodesOf_append, List.count_append, List.count_append, hnbn,
        count_single]
      omega
    omega
  have hlcnt : ∀ x, (linkVals (treeEvents c s2)).count x = (linkVals (treeEvents c s)).count x := by
    intro x
    have h1 : (linkVals (treeEvents c s)).count x =
        (linkVals P1).count x + ((if x = v then 1 else 0) + (linkVals Q1).count x) := by
      rw [hA, linkVals_append, linkVals_append, List.count_append, List.count_append, hmidl,
        count_single]
      omega
    have h2 : (linkVals (treeEvents c s1)).count x =
        (linkVals P1).count x + (linkVals Q1).count x := by
      rw [hB, linkVals_append, List.count_append]
    have h3 : (linkVals (treeEvents c s1)).count x =
        (linkVals P2).count x + (linkVals Q2).count x := by
      rw [hPQ2, linkVals_append, List.count_append]
    have h4 : (linkVals (treeEvents c s2)).count x =
        (linkVals P2).count x + ((if x = v then 1 else 0) + (linkVals Q2).count x) := by
      rw [hPnbQ2, linkVals_append, linkVals_append, List.count_append, List.count_append, hnbl,
        count_single]
      omega
    omega
  have hml : maxLinked c s2 = maxLinked c s := by
    unfold maxLinked
    exact foldr_max_congr _ _ (mem_iff_of_count_eq hlcnt)
  have hmemiff := mem_iff_of_count_eq hcnt
  refine ⟨nodup_of_count_eq hcnt hnd, ?_, ?_, ?_⟩
  · intro x
    rw [hmemiff x, hml]
    exact hmem x
  · rw [hml]
    exact hlt
  · intro x j hx hj
    rw [hram x j (fun hc => hx ((hmemiff x).mpr hc)) hj]
    exact hz x j (fun hc => hx ((hmemiff x).mpr hc)) hj

theorem insert_inv (c : Config) (s s2 : PMState)
    (P2 Q2 nb : List Ev)
    (hInv : Inv c s)
    (hPQ2 : treeEvents c s = P2 ++ Q2)
    (hPnbQ2 : treeEvents c s2 = P2 ++ nb ++ Q2)
    (hnbn : nodesOf nb = [maxLinked c s + 1]) (hnbl : linkVals nb = [maxLinked c s + 1])
    (hvNF : maxLinked c s + 1 < c.numFrames)
    (hram : ∀ x j, x ∉ nodesOf (treeEvents c s) → x ≠ maxLinked c s + 1 → j < c.pageSize →
      s2.ram (x * c.pageSize + j) = s.ram (x * c.pageSize + j)) :
    Inv c s2 := by
  obtain ⟨hnd, hmem, hlt, hz⟩ := hInv
  have hvnot : maxLinked c s + 1 ∉ nodesOf (treeEvents c s) := by
    intro hm
    have := (hmem _).mp hm
    omega
  have hcnt : ∀ x, (nodesOf (treeEvents c s2)).count x =
      (nodesOf (treeEvents c s)).count x + (if x = maxLinked c s + 1 then 1 else 0) := by
    intro x
    have h3 : (nodesOf (treeEvents c s)).count x =
        (nodesOf P2).count x + (nodesOf Q2).count x := by
      rw [hPQ2, nodesOf_append, List.count_append]
    have h4 : (nodesOf (treeEvents c s2)).count x =
        (nodesOf P2).count x + ((if x = maxLinked c s + 1 then 1 else 0) +
          (nodesOf Q2).count x) := by
      rw [hPnbQ2, nodesOf_append, nodesOf_append, List.count_append, List.count_append, hnbn,
        count_single]
      omega
    omega
  have hlcnt : ∀ x, (linkVals (treeEvents c s2)).count x =
      (linkVals (treeEvents c s)).count x + (if x = maxLinked c s + 1 then 1 else 0) := by
    intro x
    have h3 : (linkVals (treeEvents c s)).count x =
        (linkVals P2).count x + (linkVals Q2).count x := by
      rw [hPQ2, linkVals_append, List.count_append]
    have h4 : (linkVals (treeEvents c s2)).count x =
        (linkVals P2).count x + ((if x = maxLinked c s + 1 then 1 else 0) +
          (linkVals Q2).count x) := by
      rw [hPnbQ2, linkVals_append, linkVals_append, List.count_append, List.count_append, hnbl,
        count_single]
      omega
    omega
  have hmem2 : ∀ x, x ∈ nodesOf (treeEvents c s2) ↔
      (x ∈ nodesOf (treeEvents c s) ∨ x = maxLinked c s + 1) := by
    intro x
    rw [← List.count_pos_iff_mem, ← List.count_pos_iff_mem, hcnt x]
    by_cases hx : x = maxLinked c s + 1
    · simp [hx]
    · simp [hx]
  have hlmem2 : ∀ x, x ∈ linkVals (treeEvents c s2) ↔
      (x ∈ linkVals (treeEvents c s) ∨ x = maxLinked c s + 1) := by
    intro x
    rw [← List.count_pos_iff_mem, ← List.count_pos_iff_mem, hlcnt x]
    by_cases hx : x = maxLinked c s + 1
    · simp [hx]
    · simp [hx]
  have hml : maxLinked c s2 = maxLinked c s + 1 := by
    have hub : ∀ x ∈ linkVals (treeEvents c s2), x ≤ maxLinked c s + 1 := by
      intro x hx
      rcases (hlmem2 x).mp hx with h | h
      · have : x ≤ maxLinked c s := le_foldr_max _ _ h
        omega
      · omega
    have hvm : maxLinked c s + 1 ∈ linkVals (treeEvents c s2) :=
      (hlmem2 _).mpr (Or.inr rfl)
    exact le_antisymm (foldr_max_le _ _ hub) (le_foldr_max _ _ hvm)
  refine ⟨?_, ?_, ?_, ?_⟩
  · rw [List.nodup_iff_count_le_one]
    intro a
    rw [hcnt a]
    by_cases ha : a = maxLinked c s + 1
    · have h0 : (nodesOf (treeEvents c s)).count a = 0 :=
        List.count_eq_zero.mpr (by rw [ha]; exact hvnot)
      rw [h0, if_pos ha]
    · rw [List.nodup_iff_count_le_one] at hnd
      have := hnd a
      simp [ha]
      omega
  · intro x
    rw [hmem2 x, hml]
    constructor
    · intro h
      rcases h with h | h
      · have := (hmem x).mp h
        omega
      · omega
    · intro h
      by_cases hx : x = maxLinked c s + 1
      · exact Or.inr hx
      · exact Or.inl ((hmem x).mpr (by omega))
  · rw [hml]
    exact hvNF
  · intro x j hx hj
    have hx1 : x ∉ nodesOf (treeEvents c s) := fun hc => hx ((hmem2 x).mpr (Or.inl hc))
    have hx2 : x ≠ maxLinked c s + 1 := fun hc => hx ((hmem2 x).mpr (Or.inr hc))
    rw [hram x j hx1 hx2 hj]
    exact hz x j hx1 hj

end VM

namespace VM

theorem pageCands_insert (c : Config) (s s2 : PMState) (p' : Nat)
    (P2 Q2 nb : List Ev)
    (hPQ2 : treeEvents c s = P2 ++ Q2)
    (hPnbQ2 : treeEvents c s2 = P2 ++ nb ++ Q2)
    (hnb : (cands nb).filter (fun cd => cd.page == p') = []) :
    pageCands c s2 p' = pageCands c s p' := by
  unfold pageCands
  rw [hPQ2, hPnbQ2, cands_append, cands_append, cands_append, List.filter_append,
    List.filter_append, List.filter_append, hnb]
  simp

theorem pageCands_relink (c : Config) (s s1 sC s2 : PMState) (p' : Nat)
    (P1 Q1 P2 Q2 mid nb : List Ev)
    (hA : treeEvents c s = P1 ++ mid ++ Q1)
    (hB : treeEvents c s1 = P1 ++ Q1)
    (hBC : treeEvents c sC = treeEvents c s1)
    (hPQ2 : treeEvents c sC = P2 ++ Q2)
    (hPnbQ2 : treeEvents c s2 = P2 ++ nb ++ Q2)
    (hmid : (cands mid).filter (fun cd => cd.page == p') = [])
    (hnb : (cands nb).filter (fun cd => cd.page == p') = []) :
    pageCands c s2 p' = pageCands c s p' := by
  unfold pageCands
  have h1 : (cands (treeEvents c s)).filter (fun cd => cd.page == p') =
      (cands P1).filter (fun cd => cd.page == p') ++
        (cands Q1).filter (fun cd => cd.page == p') := by
    rw [hA, cands_append, cands_append, List.filter_append, List.filter_append, hmid]
    simp
  have h2 : (cands (treeEvents c s2)).filter (fun cd => cd.page == p') =
      (cands P2).filter (fun cd => cd.page == p') ++
        (cands Q2).filter (fun cd => cd.page == p') := by
    rw [hPnbQ2, cands_append, cands_append, List.filter_append, List.filter_append, hnb]
    simp
  have hPQeq : P2 ++ Q2 = P1 ++ Q1 := by
    rw [← hPQ2, hBC, hB]
  have h3 : (cands P2).filter (fun cd => cd.page == p') ++
      (cands Q2).filter (fun cd => cd.page == p') =
      (cands P1).filter (fun cd => cd.page == p') ++
        (cands Q1).filter (fun cd => cd.page == p') := by
    have hcg := congrArg (fun L => (cands L).filter (fun cd => cd.page == p')) hPQeq
    simpa [cands_append, List.filter_append] using hcg
  rw [h2, h3, h1]

end VM

namespace VM

theorem tier2_pres (c : Config) (va : Nat) (s : PMState) (g paG depG pAG i0 : Nat)
    (hInv : Inv c s)
    (hg : Ev.table g paG depG pAG ∈ treeEvents c s)
    (hi0 : i0 < c.pageSize)
    (he : PMread s (g * c.pageSize + i0) = 0)
    (hpg : depG = c.tablesDepth - 1 → pAG * c.pageSize + i0 = va / c.pageSize)
    (hmax : maxLinked c s + 1 < c.numFrames) :
    AllocPost c va s (PMwrite s (g * c.pageSize + i0) (maxLinked c s + 1)) g depG pAG i0
      (maxLinked c s + 1) := by
  obtain ⟨hnd, hmemiff, hlt, hzout⟩ := hInv
  have hv0 : maxLinked c s + 1 ≠ 0 := by omega
  have hgtf : g ∈ tableFrames (treeEvents c s) :=
    (mem_tableFrames_iff _ g).mpr ⟨paG, depG, pAG, hg⟩
  have hgnodes : g ∈ nodesOf (treeEvents c s) := mem_nodesOf_of_table _ g hgtf
  have hgle : g ≤ maxLinked c s := (hmemiff g).mp hgnodes
  have hvg : maxLinked c s + 1 ≠ g := by omega
  have hvnot : maxLinked c s + 1 ∉ nodesOf (treeEvents c s) := by
    intro hm
    have := (hmemiff _).mp hm
    omega
  have hvz : allZeroFrame c s (maxLinked c s + 1) = true := by
    unfold allZeroFrame
    rw [List.all_eq_true]
    intro i hi
    rw [List.mem_range] at hi
    have h0 := hzout _ i hvnot hi
    show (PMread s ((maxLinked c s + 1) * c.pageSize + i) == 0) = true
    rw [show PMread s ((maxLinked c s + 1) * c.pageSize + i) = 0 from h0]
    rfl
  obtain ⟨P, Q, nb, hPQ, hPnbQ, hnb⟩ := attach_effect c s g i0 (maxLinked c s + 1) paG depG pAG
    hi0 hg hnd he hv0 hvg hvz
  have hram2 : ∀ x j, x ∉ nodesOf (treeEvents c s) → x ≠ maxLinked c s + 1 → j < c.pageSize →
      (PMwrite s (g * c.pageSize + i0) (maxLinked c s + 1)).ram (x * c.pageSize + j) =
        s.ram (x * c.pageSize + j) := by
    intro x j hx _ hj
    refine PMwrite_ram_ne s _ _ _ ?_
    intro heq
    exact hx ((frame_addr_inj hj hi0 heq).1 ▸ hgnodes)
  unfold AllocPost
  by_cases hdep : depG = c.tablesDepth - 1
  · rw [if_pos hdep] at hnb
    have hpgeq := hpg hdep
    have hnbn : nodesOf nb = [maxLinked c s + 1] := by rw [hnb]; rfl
    have hnbl : linkVals nb = [maxLinked c s + 1] := by rw [hnb]; rfl
    have hfil : ∀ p', p' ≠ va / c.pageSize →
        (cands nb).filter (fun cd => cd.page == p') = [] := by
      intro p' hp'
      rw [hnb]
      have hcnb : cands [Ev.cand ⟨maxLinked c s + 1, g * c.pageSize + i0,
          pAG * c.pageSize + i0⟩] = [⟨maxLinked c s + 1, g * c.pageSize + i0,
          pAG * c.pageSize + i0⟩] := rfl
      rw [hcnb]
      have hne : ((⟨maxLinked c s + 1, g * c.pageSize + i0,
          pAG * c.pageSize + i0⟩ : Cand).page == p') = false := by
        rw [beq_eq_false_iff_ne]
        show pAG * c.pageSize + i0 ≠ p'
        rw [hpgeq]
        exact fun hc => hp' hc.symm
      rw [List.filter_cons, hne]
      rfl
    refine ⟨?_, hv0, ?_, ?_, ?_⟩
    · exact insert_inv c s _ P Q nb ⟨hnd, hmemiff, hlt, hzout⟩ hPQ hPnbQ hnbn hnbl hmax hram2
    · rw [if_pos hdep, hPnbQ, cands_append, cands_append, hnb]
      refine List.mem_append.mpr (Or.inl (List.mem_append.mpr (Or.inr ?_)))
      rw [cands]
      exact List.mem_cons_self _ _
    · intro e hee
      exact Or.inl hee
    · intro p' j hp' hj
      refine storedWord_congr c s _ p' j (pageCands_insert c s _ p' P Q nb hPQ hPnbQ
        (hfil p' hp')) ?_ rfl
      intro cd hcd
      have hcd' : cd ∈ cands (treeEvents c s) := (List.mem_filter.mp hcd).1
      refine PMwrite_ram_ne s _ _ _ ?_
      intro heq
      exact table_cand_distinct _ hnd g hgtf cd hcd' (frame_addr_inj hj hi0 heq).1.symm
  · rw [if_neg hdep] at hnb
    have hnbn : nodesOf nb = [maxLinked c s + 1] := by rw [hnb]; rfl
    have hnbl : linkVals nb = [maxLinked c s + 1] := by
      rw [hnb]
      show (if maxLinked c s + 1 = 0 then [] else [maxLinked c s + 1]) ++ [] =
        [maxLinked c s + 1]
      rw [if_neg hv0]
      rfl
    have hfil : ∀ p', p' ≠ va / c.pageSize →
        (cands nb).filter (fun cd => cd.page == p') = [] := by
      intro p' _
      rw [hnb]
      rfl
    refine ⟨?_, hv0, ?_, ?_, ?_⟩
    · exact insert_inv c s _ P Q nb ⟨hnd, hmemiff, hlt, hzout⟩ hPQ hPnbQ hnbn hnbl hmax hram2
    · rw [if_neg hdep, hPnbQ, hnb]
      refine List.mem_append.mpr (Or.inl (List.mem_append.mpr (Or.inr ?_)))
      exact List.mem_cons_self _ _
    · intro e hee
      exact Or.inl hee
    · intro p' j hp' hj
      refine storedWord_congr c s _ p' j (pageCands_insert c s _ p' P Q nb hPQ hPnbQ
        (hfil p' hp')) ?_ rfl
      intro cd hcd
      have hcd' : cd ∈ cands (treeEvents c s) := (List.mem_filter.mp hcd).1
      refine PMwrite_ram_ne s _ _ _ ?_
      intro heq
      exact table_cand_distinct _ hnd g hgtf cd hcd' (frame_addr_inj hj hi0 heq).1.symm

end VM

namespace VM

theorem tier1_pres (c : Config) (va : Nat) (s : PMState) (g paG depG pAG i0 f q : Nat)
    (hInv : Inv c s)
    (hg : Ev.table g paG depG pAG ∈ treeEvents c s)
    (hi0 : i0 < c.pageSize)
    (he : PMread s (g * c.pageSize + i0) = 0)
    (hpg : depG = c.tablesDepth - 1 → pAG * c.pageSize + i0 = va / c.pageSize)
    (hfe : firstEmptyTable c s g (treeEvents c s) = some (f, q)) :
    AllocPost c va s (PMwrite (PMwrite s q 0) (g * c.pageSize + i0) f) g depG pAG i0 f := by
  obtain ⟨hnd, hmemiff, hlt, hzout⟩ := hInv
  obtain ⟨hf0, hfz, hfg⟩ := firstEmptyTable_some_props c s g _ f q hfe
  obtain ⟨dep_e, pA_e, hev⟩ := firstEmptyTable_some_mem c s g _ f q hfe
  rcases table_entry_sound c s c.tablesDepth 0 0 0 0 f q dep_e pA_e hev with
    ⟨h1, -, -, -⟩ | ⟨tp, ip, pap, pAp, hip, hq, hramq, -, hpev, hdep1, hpA, hnd2⟩
  · exact absurd h1 hf0
  have htpf : tp ≠ f := by
    intro heq
    have h0 := allZeroFrame_read c s f hfz ip hip
    rw [heq] at hq
    rw [hq] at hramq
    exact hf0 (by rw [← hramq]; exact h0)
  have htptf : tp ∈ tableFrames (treeEvents c s) :=
    (mem_tableFrames_iff _ tp).mpr ⟨pap, dep_e - 1, pAp, hpev⟩
  have htpnodes : tp ∈ nodesOf (treeEvents c s) := mem_nodesOf_of_table _ tp htptf
  have hgtf : g ∈ tableFrames (treeEvents c s) :=
    (mem_tableFrames_iff _ g).mpr ⟨paG, depG, pAG, hg⟩
  have hgnodes : g ∈ nodesOf (treeEvents c s) := mem_nodesOf_of_table _ g hgtf
  obtain ⟨P1, Q1, hA, hB⟩ := detach_table_effect c s f q dep_e pA_e hev hnd hf0 hfz
  have hmidn : nodesOf [Ev.table f q dep_e pA_e] = [f] := rfl
  have hmidl : linkVals [Ev.table f q dep_e pA_e] = [f] := by
    show (if f = 0 then [] else [f]) ++ [] = [f]
    rw [if_neg hf0]
    rfl
  have hc1 : ∀ x, (nodesOf (treeEvents c (PMwrite s q 0))).count x +
      (if x = f then 1 else 0) = (nodesOf (treeEvents c s)).count x := by
    intro x
    have h1 : (nodesOf (treeEvents c s)).count x =
        (nodesOf P1).count x + ((if x = f then 1 else 0) + (nodesOf Q1).count x) := by
      rw [hA, nodesOf_append, nodesOf_append, List.count_append, List.count_append, hmidn,
        count_single]
      omega
    have h2 : (nodesOf (treeEvents c (PMwrite s q 0))).count x =
        (nodesOf P1).count x + (nodesOf Q1).count x := by
      rw [hB, nodesOf_append, List.count_append]
    omega
  have hnd1 : (nodesOf (treeEvents c (PMwrite s q 0))).Nodup := by
    rw [List.nodup_iff_count_le_one] at hnd ⊢
    intro a
    have ha1 := hnd a
    have ha2 := hc1 a
    omega
  have hgf : g ≠ f := fun hc => hfg hc.symm
  have hg1 : Ev.table g paG depG pAG ∈ treeEvents c (PMwrite s q 0) := by
    rw [hB]
    rw [hA] at hg
    rcases List.mem_append.mp hg with h | h
    · rcases List.mem_append.mp h with h' | h'
      · exact List.mem_append.mpr (Or.inl h')
      · exfalso
        have heq := List.mem_singleton.mp h'
        injection heq with e1 e2 e3 e4
        exact hgf e1
    · exact List.mem_append.mpr (Or.inr h)
  have he1 : PMread (PMwrite s q 0) (g * c.pageSize + i0) = 0 := by
    rw [hq]
    refine (PMwrite_ram_ne s _ 0 _ ?_).trans he
    intro heq
    have hfe0 : f = 0 := by
      rw [← hramq, hq, ← heq]
      exact he
    exact hf0 hfe0
  have hfz1 : allZeroFrame c (PMwrite s q 0) f = true := by
    rw [allZeroFrame_congr c s (PMwrite s q 0) f ?_]
    · exact hfz
    · intro j hj
      refine PMwrite_ram_ne s _ 0 _ ?_
      rw [hq]
      intro heq
      exact htpf ((frame_addr_inj hj hip heq).1).symm
  obtain ⟨P2, Q2, nb, hPQ2, hPnbQ2, hnb⟩ := attach_effect c (PMwrite s q 0) g i0 f paG depG pAG
    hi0 hg1 hnd1 he1 hf0 hfg hfz1
  have hramS2 : ∀ x j, x ∉ nodesOf (treeEvents c s) → j < c.pageSize →
      (PMwrite (PMwrite s q 0) (g * c.pageSize + i0) f).ram (x * c.pageSize + j) =
        s.ram (x * c.pageSize + j) := by
    intro x j hx hj
    have hxg : x ≠ g := fun hc => hx (hc ▸ hgnodes)
    have hxtp : x ≠ tp := fun hc => hx (hc ▸ htpnodes)
    rw [PMwrite_ram_ne _ _ _ _ (fun heq => hxg (frame_addr_inj hj hi0 heq).1), hq,
      PMwrite_ram_ne _ _ _ _ (fun heq => hxtp (frame_addr_inj hj hip heq).1)]
  have hInvPacked : Inv c s := ⟨hnd, hmemiff, hlt, hzout⟩
  have hmidfil : ∀ p', (cands [Ev.table f q dep_e pA_e]).filter
      (fun cd => cd.page == p') = [] := fun _ => rfl
  have hramcd : ∀ (p' : Nat) (j : Nat), j < c.pageSize → ∀ cd ∈ pageCands c s p',
      (PMwrite (PMwrite s q 0) (g * c.pageSize + i0) f).ram (cd.frame * c.pageSize + j) =
        s.ram (cd.frame * c.pageSize + j) := by
    intro p' j hj cd hcd
    have hcd' : cd ∈ cands (treeEvents c s) := (List.mem_filter.mp hcd).1
    have h1 : cd.frame ≠ g :=
      fun hc => table_cand_distinct _ hnd g hgtf cd hcd' hc.symm
    have h2 : cd.frame ≠ tp :=
      fun hc => table_cand_distinct _ hnd tp htptf cd hcd' hc.symm
    rw [PMwrite_ram_ne _ _ _ _ (fun heq => h1 (frame_addr_inj hj hi0 heq).1), hq,
      PMwrite_ram_ne _ _ _ _ (fun heq => h2 (frame_addr_inj hj hip heq).1)]
  unfold AllocPost
  by_cases hdep : depG = c.tablesDepth - 1
  · rw [if_pos hdep] at hnb
    have hpgeq := hpg hdep
    have hnbn : nodesOf nb = [f] := by rw [hnb]; rfl
    have hnbl : linkVals nb = [f] := by rw [hnb]; rfl
    have hfil : ∀ p', p' ≠ va / c.pageSize →
        (cands nb).filter (fun cd => cd.page == p') = [] := by
      intro p' hp'
      rw [hnb]
      have hcnb : cands [Ev.cand ⟨f, g * c.pageSize + i0, pAG * c.pageSize + i0⟩] =
          [⟨f, g * c.pageSize + i0, pAG * c.pageSize + i0⟩] := rfl
      rw [hcnb]
      have hne : ((⟨f, g * c.pageSize + i0, pAG * c.pageSize + i0⟩ : Cand).page == p') =
          false := by
        rw [beq_eq_false_iff_ne]
        show pAG * c.pageSize + i0 ≠ p'
        rw [hpgeq]
        exact fun hc => hp' hc.symm
      rw [List.filter_cons, hne]
      rfl
    refine ⟨?_, hf0, ?_, ?_, ?_⟩
    · exact relink_inv c s (PMwrite s q 0) _ f P1 Q1 P2 Q2 _ nb hInvPacked hA hB hPQ2 hPnbQ2
        hmidn hmidl hnbn hnbl hramS2
    · rw [if_pos hdep, hPnbQ2, cands_append, cands_append, hnb]
      refine List.mem_append.mpr (Or.inl (List.mem_append.mpr (Or.inr ?_)))
      rw [cands]
      exact List.mem_cons_self _ _
    · intro e hee
      exact Or.inl hee
    · intro p' j hp' hj
      refine storedWord_congr c s _ p' j (pageCands_relink c s (PMwrite s q 0) (PMwrite s q 0) _
        p' P1 Q1 P2 Q2 _ nb hA hB rfl hPQ2 hPnbQ2 (hmidfil p') (hfil p' hp')) ?_ rfl
      intro cd hcd
      exact hramcd p' j hj cd hcd
  · rw [if_neg hdep] at hnb
    have hnbn : nodesOf nb = [f] := by rw [hnb]; rfl
    have hnbl : linkVals nb = [f] := by
      rw [hnb]
      show (if f = 0 then [] else [f]) ++ [] = [f]
      rw [if_neg hf0]
      rfl
    have hfil : ∀ p', p' ≠ va / c.pageSize →
        (cands nb).filter (fun cd => cd.page == p') = [] := by
      intro p' _
      rw [hnb]
      rfl
    refine ⟨?_, hf0, ?_, ?_, ?_⟩
    · exact relink_inv c s (PMwrite s q 0) _ f P1 Q1 P2 Q2 _ nb hInvPacked hA hB hPQ2 hPnbQ2
        hmidn hmidl hnbn hnbl hramS2
    · rw [if_neg hdep, hPnbQ2, hnb]
      refine List.mem_append.mpr (Or.inl (List.mem_append.mpr (Or.inr ?_)))
      exact List.mem_cons_self _ _
    · intro e hee
      exact Or.inl hee
    · intro p' j hp' hj
      refine storedWord_congr c s _ p' j (pageCands_relink c s (PMwrite s q 0) (PMwrite s q 0) _
        p' P1 Q1 P2 Q2 _ nb hA hB rfl hPQ2 hPnbQ2 (hmidfil p') (hfil p' hp')) ?_ rfl
      intro cd hcd
      exact hramcd p' j hj cd hcd

end VM

namespace VM

theorem filter_page_unique :
    ∀ (L : List Cand), (L.map Cand.page).Nodup → ∀ w ∈ L,
      L.filter (fun cd => cd.page == w.page) = [w] := by
  intro L
  induction L with
  | nil =>
    intro _ w hw
    exact absurd hw (by simp)
  | cons a L ih =>
    intro hnd w hw
    rw [List.map_cons, List.nodup_cons] at hnd
    rw [List.filter_cons]
    by_cases hpa : (a.page == w.page) = true
    · rw [if_pos hpa]
      rcases List.mem_cons.mp hw with rfl | hw'
      · have hfl : L.filter (fun cd => cd.page == w.page) = [] := by
          rw [List.filter_eq_nil]
          intro x hx hxp
          rw [beq_iff_eq] at hxp
          exact hnd.1 (by rw [← hxp]; exact List.mem_map.mpr ⟨x, hx, rfl⟩)
        rw [hfl]
      · exfalso
        rw [beq_iff_eq] at hpa
        exact hnd.1 (by rw [hpa]; exact List.mem_map.mpr ⟨w, hw', rfl⟩)
    · rw [if_neg hpa]
      rcases List.mem_cons.mp hw with rfl | hw'
      · exact absurd (by rw [beq_iff_eq]) hpa
      · exact ih hnd.2 w hw'

end VM

namespace VM

theorem tier3_pres (c : Config) (va : Nat) (s : PMState) (g paG depG pAG i0 : Nat) (w : Cand)
    (hInv : Inv c s)
    (hg : Ev.table g paG depG pAG ∈ treeEvents c s)
    (hi0 : i0 < c.pageSize)
    (he : PMread s (g * c.pageSize + i0) = 0)
    (hpg : depG = c.tablesDepth - 1 → pAG * c.pageSize + i0 = va / c.pageSize)
    (hw : w ∈ cands (treeEvents c s)) :
    AllocPost c va s
      (PMwrite (clearFrame c (PMevict c (PMwrite s w.entryAdd 0) w.frame w.page) w.frame)
        (g * c.pageSize + i0) w.frame) g depG pAG i0 w.frame := by
  obtain ⟨hnd, hmemiff, hlt, hzout⟩ := hInv
  have hInvPacked : Inv c s := ⟨hnd, hmemiff, hlt, hzout⟩
  have hwf0 : w.frame ≠ 0 := cands_visit_nonzero c s c.tablesDepth 0 0 0 0 w hw
  obtain ⟨tc, ic, pac, pAc, hic, hea, hramw, hcev, hpagew⟩ :=
    cand_entry_sound c s c.tablesDepth 0 0 0 0 w hw
  have htctf : tc ∈ tableFrames (treeEvents c s) :=
    (mem_tableFrames_iff _ tc).mpr ⟨pac, c.tablesDepth - 1, pAc, hcev⟩
  have htcnodes : tc ∈ nodesOf (treeEvents c s) := mem_nodesOf_of_table _ tc htctf
  have hgtf : g ∈ tableFrames (treeEvents c s) :=
    (mem_tableFrames_iff _ g).mpr ⟨paG, depG, pAG, hg⟩
  have hgnodes : g ∈ nodesOf (treeEvents c s) := mem_nodesOf_of_table _ g hgtf
  have hwnodes : w.frame ∈ nodesOf (treeEvents c s) := mem_nodesOf_of_cand _ w hw
  have htcw : tc ≠ w.frame := table_cand_distinct _ hnd tc htctf w hw
  have hgw : g ≠ w.frame := table_cand_distinct _ hnd g hgtf w hw
  obtain ⟨P1, Q1, hA, hB⟩ := detach_cand_effect c s w hw hnd
  have hmidn : nodesOf [Ev.cand w] = [w.frame] := rfl
  have hmidl : linkVals [Ev.cand w] = [w.frame] := rfl
  have hBE : treeEvents c (PMevict c (PMwrite s w.entryAdd 0) w.frame w.page) =
      treeEvents c (PMwrite s w.entryAdd 0) :=
    treeEvents_ram_eq c _ _ (fun a => rfl)
  have hc1 : ∀ x, (nodesOf (treeEvents c (PMwrite s w.entryAdd 0))).count x +
      (if x = w.frame then 1 else 0) = (nodesOf (treeEvents c s)).count x := by
    intro x
    have h1 : (nodesOf (treeEvents c s)).count x =
        (nodesOf P1).count x + ((if x = w.frame then 1 else 0) + (nodesOf Q1).count x) := by
      rw [hA, nodesOf_append, nodesOf_append, List.count_append, List.count_append, hmidn,
        count_single]
      omega
    have h2 : (nodesOf (treeEvents c (PMwrite s w.entryAdd 0))).count x =
        (nodesOf P1).count x + (nodesOf Q1).count x := by
      rw [hB, nodesOf_append, List.count_append]
    omega
  have hnd1 : (nodesOf (treeEvents c (PMwrite s w.entryAdd 0))).Nodup := by
    rw [List.nodup_iff_count_le_one] at hnd ⊢
    intro a
    have ha1 := hnd a
    have ha2 := hc1 a
    omega
  have hwfnot1 : w.frame ∉ nodesOf (treeEvents c (PMwrite s w.entryAdd 0)) := by
    have hcnt_s : (nodesOf (treeEvents c s)).count w.frame = 1 := by
      rw [List.nodup_iff_count_le_one] at hnd
      have h1 := hnd w.frame
      have h2 : 0 < (nodesOf (treeEvents c s)).count w.frame :=
        List.count_pos_iff_mem.mpr hwnodes
      omega
    have h3 := hc1 w.frame
    rw [if_pos rfl] at h3
    rw [← List.count_pos_iff_mem]
    omega
  have hBC : treeEvents c (clearFrame c (PMevict c (PMwrite s w.entryAdd 0) w.frame w.page)
      w.frame) = treeEvents c (PMwrite s w.entryAdd 0) := by
    rw [← hBE]
    refine treeEvents_congr_tables c _ _ ?_
    intro t' ht' j hj
    rw [clearFrame_ram]
    rw [if_neg ?_]
    rintro ⟨i, hilt, heqa⟩
    have ht'w : t' = w.frame := (frame_addr_inj hj hilt heqa).1
    rw [hBE] at ht'
    exact hwfnot1 (ht'w ▸ mem_nodesOf_of_table _ t' ht')
  have hg1 : Ev.table g paG depG pAG ∈ treeEvents c (PMwrite s w.entryAdd 0) := by
    rw [hB]
    rw [hA] at hg
    rcases List.mem_append.mp hg with h | h
    · rcases List.mem_append.mp h with h' | h'
      · exact List.mem_append.mpr (Or.inl h')
      · exact absurd (List.mem_singleton.mp h') (by simp)
    · exact List.mem_append.mpr (Or.inr h)
  have hgC : Ev.table g paG depG pAG ∈ treeEvents c (clearFrame c (PMevict c
      (PMwrite s w.entryAdd 0) w.frame w.page) w.frame) := by
    rw [hBC]
    exact hg1
  have hndC : (nodesOf (treeEvents c (clearFrame c (PMevict c (PMwrite s w.entryAdd 0)
      w.frame w.page) w.frame))).Nodup := by
    rw [hBC]
    exact hnd1
  have hs1g : (PMwrite s w.entryAdd 0).ram (g * c.pageSize + i0) = 0 := by
    rw [hea]
    refine (PMwrite_ram_ne s _ 0 _ ?_).trans he
    intro heq
    have hf0 : w.frame = 0 := by
      rw [← hramw, hea, ← heq]
      exact he
    exact hwf0 hf0
  have heC : PMread (clearFrame c (PMevict c (PMwrite s w.entryAdd 0) w.frame w.page) w.frame)
      (g * c.pageSize + i0) = 0 := by
    show (clearFrame c (PMevict c (PMwrite s w.entryAdd 0) w.frame w.page) w.frame).ram
      (g * c.pageSize + i0) = 0
    rw [clearFrame_ram, if_neg ?_]
    · exact hs1g
    · rintro ⟨i, hilt, heqa⟩
      exact hgw (frame_addr_inj hi0 hilt heqa).1
  have hzC : allZeroFrame c (clearFrame c (PMevict c (PMwrite s w.entryAdd 0) w.frame w.page)
      w.frame) w.frame = true := by
    unfold allZeroFrame
    rw [List.all_eq_true]
    intro i hi
    rw [List.mem_range] at hi
    have h0 : (clearFrame c (PMevict c (PMwrite s w.entryAdd 0) w.frame w.page) w.frame).ram
        (w.frame * c.pageSize + i) = 0 := by
      rw [clearFrame_ram, if_pos ⟨i, hi, rfl⟩]
    show (PMread _ (w.frame * c.pageSize + i) == 0) = true
    rw [show PMread (clearFrame c (PMevict c (PMwrite s w.entryAdd 0) w.frame w.page) w.frame)
      (w.frame * c.pageSize + i) = 0 from h0]
    rfl
  obtain ⟨P2, Q2, nb, hPQ2, hPnbQ2, hnb⟩ := attach_effect c
    (clearFrame c (PMevict c (PMwrite s w.entryAdd 0) w.frame w.page) w.frame) g i0 w.frame
    paG depG pAG hi0 hgC hndC heC hwf0 (Ne.symm hgw) hzC
  have hramS2 : ∀ x j, x ∉ nodesOf (treeEvents c s) → j < c.pageSize →
      (PMwrite (clearFrame c (PMevict c (PMwrite s w.entryAdd 0) w.frame w.page) w.frame)
        (g * c.pageSize + i0) w.frame).ram (x * c.pageSize + j) = s.ram (x * c.pageSize + j) := by
    intro x j hx hj
    have hxg : x ≠ g := fun hc => hx (hc ▸ hgnodes)
    have hxtc : x ≠ tc := fun hc => hx (hc ▸ htcnodes)
    have hxw : x ≠ w.frame := fun hc => hx (hc ▸ hwnodes)
    rw [PMwrite_ram_ne _ _ _ _ (fun heq => hxg (frame_addr_inj hj hi0 heq).1),
      clearFrame_ram, if_neg ?_]
    · show (PMwrite s w.entryAdd 0).ram (x * c.pageSize + j) = s.ram (x * c.pageSize + j)
      rw [hea]
      exact PMwrite_ram_ne s _ 0 _ (fun heq => hxtc (frame_addr_inj hj hic heq).1)
    · rintro ⟨i, hilt, heqa⟩
      exact hxw (frame_addr_inj hj hilt heqa).1
  have hInvS2 : Inv c (PMwrite (clearFrame c (PMevict c (PMwrite s w.entryAdd 0) w.frame
      w.page) w.frame) (g * c.pageSize + i0) w.frame) := by
    refine relink_inv c s _ _ w.frame P1 Q1 P2 Q2 _ nb hInvPacked hA (hBC.trans hB) hPQ2 hPnbQ2
      hmidn hmidl ?_ ?_ hramS2
    · by_cases hdep : depG = c.tablesDepth - 1
      · rw [if_pos hdep] at hnb
        rw [hnb]
        rfl
      · rw [if_neg hdep] at hnb
        rw [hnb]
        rfl
    · by_cases hdep : depG = c.tablesDepth - 1
      · rw [if_pos hdep] at hnb
        rw [hnb]
        rfl
      · rw [if_neg hdep] at hnb
        rw [hnb]
        show (if w.frame = 0 then [] else [w.frame]) ++ [] = [w.frame]
        rw [if_neg hwf0]
        rfl
  have hev2 : (PMwrite (clearFrame c (PMevict c (PMwrite s w.entryAdd 0) w.frame w.page)
      w.frame) (g * c.pageSize + i0) w.frame).evicts = s.evicts ++ [(w.frame, w.page)] := by
    show (clearFrame c (PMevict c (PMwrite s w.entryAdd 0) w.frame w.page) w.frame).evicts = _
    rw [clearFrame_evicts]
    rfl
  have hswS2 : ∀ p', p' ≠ w.page →
      (PMwrite (clearFrame c (PMevict c (PMwrite s w.entryAdd 0) w.frame w.page) w.frame)
        (g * c.pageSize + i0) w.frame).swap p' = s.swap p' := by
    intro p' hp'
    show (clearFrame c (PMevict c (PMwrite s w.entryAdd 0) w.frame w.page) w.frame).swap p' = _
    rw [clearFrame_swap]
    show (if p' = w.page then some _ else (PMwrite s w.entryAdd 0).swap p') = s.swap p'
    rw [if_neg hp']
    rfl
  have hfilnb : ∀ p', p' ≠ va / c.pageSize →
      (cands nb).filter (fun cd => cd.page == p') = [] := by
    intro p' hp'
    by_cases hdep : depG = c.tablesDepth - 1
    · rw [if_pos hdep] at hnb
      rw [hnb]
      have hcnb : cands [Ev.cand ⟨w.frame, g * c.pageSize + i0, pAG * c.pageSize + i0⟩] =
          [⟨w.frame, g * c.pageSize + i0, pAG * c.pageSize + i0⟩] := rfl
      rw [hcnb]
      have hne : ((⟨w.frame, g * c.pageSize + i0, pAG * c.pageSize + i0⟩ : Cand).page == p') =
          false := by
        rw [beq_eq_false_iff_ne]
        show pAG * c.pageSize + i0 ≠ p'
        rw [hpg hdep]
        exact fun hc => hp' hc.symm
      rw [List.filter_cons, hne]
      rfl
    · rw [if_neg hdep] at hnb
      rw [hnb]
      rfl
  unfold AllocPost
  refine ⟨hInvS2, hwf0, ?_, ?_, ?_⟩
  · by_cases hdep : depG = c.tablesDepth - 1
    · rw [if_pos hdep] at hnb ⊢
      rw [hPnbQ2, cands_append, cands_append, hnb]
      refine List.mem_append.mpr (Or.inl (List.mem_append.mpr (Or.inr ?_)))
      rw [cands]
      exact List.mem_cons_self _ _
    · rw [if_neg hdep] at hnb ⊢
      rw [hPnbQ2, hnb]
      exact List.mem_append.mpr (Or.inl (List.mem_append.mpr (Or.inr (List.mem_cons_self _ _))))
  · intro e hee
    rw [hev2] at hee
    rcases List.mem_append.mp hee with h | h
    · exact Or.inl h
    · right
      rw [List.mem_singleton.mp h]
      exact hwf0
  · intro p' j hp' hj
    by_cases hpw : p' = w.page
    · have hpnodup : ((cands (treeEvents c s)).map Cand.page).Nodup :=
        cand_pages_nodup c s c.tablesDepth 0 0 0 0 (by omega)
      have hpcS : pageCands c s p' = [w] := by
        rw [hpw]
        exact filter_page_unique _ hpnodup w hw
      have hfw : ([w] : List Cand).filter (fun cd => cd.page == p') = [w] := by
        rw [List.filter_cons, if_pos (by rw [beq_iff_eq]; exact hpw.symm)]
        rfl
      have hsplitS : (cands P1).filter (fun cd => cd.page == p') ++
          ([w] ++ (cands Q1).filter (fun cd => cd.page == p')) = [w] := by
        have h0 : pageCands c s p' = (cands P1).filter (fun cd => cd.page == p') ++
            (([w] : List Cand).filter (fun cd => cd.page == p') ++
              (cands Q1).filter (fun cd => cd.page == p')) := by
          unfold pageCands
          rw [hA, cands_append, cands_append, List.filter_append, List.filter_append]
          have hcw : cands [Ev.cand w] = [w] := rfl
          rw [hcw]
          simp [List.append_assoc]
        rw [h0, hfw] at hpcS
        exact hpcS
      have hP1nil : (cands P1).filter (fun cd => cd.page == p') = [] ∧
          (cands Q1).filter (fun cd => cd.page == p') = [] := by
        have hlen := congrArg List.length hsplitS
        rw [List.length_append, List.length_append] at hlen
        simp only [List.length_singleton] at hlen
        constructor
        · exact List.eq_nil_of_length_eq_zero (by omega)
        · exact List.eq_nil_of_length_eq_zero (by omega)
      have hpcS2 : pageCands c (PMwrite (clearFrame c (PMevict c (PMwrite s w.entryAdd 0)
          w.frame w.page) w.frame) (g * c.pageSize + i0) w.frame) p' = [] := by
        unfold pageCands
        rw [hPnbQ2, cands_append, cands_append, List.filter_append, List.filter_append,
          hfilnb p' hp']
        have hPQe : (cands P2).filter (fun cd => cd.page == p') ++
            (cands Q2).filter (fun cd => cd.page == p') = [] := by
          have hcg := congrArg (fun L => (cands L).filter (fun cd => cd.page == p'))
            ((hPQ2.symm).trans (hBC.trans hB))
          simp only [cands_append, List.filter_append] at hcg
          rw [hcg, hP1nil.1, hP1nil.2]
          rfl
        obtain ⟨hP2nil, hQ2nil⟩ := List.append_eq_nil.mp hPQe
        rw [hP2nil, hQ2nil]
        rfl
      have hstS : storedWord c s p' j = s.ram (w.frame * c.pageSize + j) := by
        unfold storedWord
        rw [hpcS]
      have hswval : (PMwrite (clearFrame c (PMevict c (PMwrite s w.entryAdd 0) w.frame w.page)
          w.frame) (g * c.pageSize + i0) w.frame).swap p' =
          some (fun i => (PMwrite s w.entryAdd 0).ram (w.frame * c.pageSize + i)) := by
        show (clearFrame c (PMevict c (PMwrite s w.entryAdd 0) w.frame w.page) w.frame).swap
          p' = _
        rw [clearFrame_swap]
        show (if p' = w.page then some _ else (PMwrite s w.entryAdd 0).swap p') = _
        rw [if_pos hpw]
      have hstS2 : storedWord c (PMwrite (clearFrame c (PMevict c (PMwrite s w.entryAdd 0)
          w.frame w.page) w.frame) (g * c.pageSize + i0) w.frame) p' j =
          (PMwrite s w.entryAdd 0).ram (w.frame * c.pageSize + j) := by
        unfold storedWord
        rw [hpcS2, hswval]
      rw [hstS2, hstS, hea]
      exact PMwrite_ram_ne s _ 0 _ (fun heq => htcw ((frame_addr_inj hj hic heq).1).symm)
    · have hmidfil : (cands [Ev.cand w]).filter (fun cd => cd.page == p') = [] := by
        have hcw : cands [Ev.cand w] = [w] := rfl
        rw [hcw, List.filter_cons, if_neg ?_]
        · rfl
        · intro hc
          rw [beq_iff_eq] at hc
          exact hpw hc.symm
      refine storedWord_congr c s _ p' j (pageCands_relink c s (PMwrite s w.entryAdd 0)
        (clearFrame c (PMevict c (PMwrite s w.entryAdd 0) w.frame w.page) w.frame) _
        p' P1 Q1 P2 Q2 _ nb hA hB (hBC.trans (hBE.symm.trans hBE)) hPQ2 hPnbQ2 hmidfil
        (hfilnb p' hp')) ?_ (hswS2 p' hpw)
      intro cd hcd
      have hcd' : cd ∈ cands (treeEvents c s) := (List.mem_filter.mp hcd).1
      have hcdp : cd.page = p' := by
        have := (List.mem_filter.mp hcd).2
        rw [beq_iff_eq] at this
        exact this
      have h1 : cd.frame ≠ g :=
        fun hc => table_cand_distinct _ hnd g hgtf cd hcd' hc.symm
      have h2 : cd.frame ≠ tc :=
        fun hc => table_cand_distinct _ hnd tc htctf cd hcd' hc.symm
      have h3 : cd.frame ≠ w.frame := by
        intro hc
        have hcdw : cd = w := cand_frame_inj _ hnd cd w hcd' hw hc
        exact hpw (by rw [← hcdw]; exact hcdp.symm)
      rw [PMwrite_ram_ne _ _ _ _ (fun heq => h1 (frame_addr_inj hj hi0 heq).1),
        clearFrame_ram, if_neg ?_]
      · show (PMwrite s w.entryAdd 0).ram (cd.frame * c.pageSize + j) =
          s.ram (cd.frame * c.pageSize + j)
        rw [hea]
        exact PMwrite_ram_ne s _ 0 _ (fun heq => h2 (frame_addr_inj hj hic heq).1)
      · rintro ⟨i, hilt, heqa⟩
        exact h3 (frame_addr_inj hj hilt heqa).1

end VM

namespace VM

theorem cand_mem_cands : ∀ (l : List Ev) (cd : Cand), Ev.cand cd ∈ l → cd ∈ cands l := by
  intro l
  induction l with
  | nil =>
    intro cd h
    exact absurd h (by simp)
  | cons e rest ih =>
    intro cd h
    cases e with
    | table f pa d p =>
      rw [cands]
      rcases List.mem_cons.mp h with heq | h'
      · exact absurd heq (by simp)
      · exact ih cd h'
    | cand cd2 =>
      rw [cands]
      rcases List.mem_cons.mp h with heq | h'
      · injection heq with he
        rw [he]
        exact List.mem_cons_self _ _
      · exact List.mem_cons_of_mem _ (ih cd h')

theorem prefix_step (c : Config) (va ℓ : Nat) :
    (va / 2 ^ ((ℓ + 2) * c.offsetWidth)) * c.pageSize +
      (va / 2 ^ ((ℓ + 1) * c.offsetWidth)) % c.pageSize = va / 2 ^ ((ℓ + 1) * c.offsetWidth) := by
  have h1 : va / 2 ^ ((ℓ + 2) * c.offsetWidth) =
      (va / 2 ^ ((ℓ + 1) * c.offsetWidth)) / c.pageSize := by
    rw [Nat.div_div_eq_div_mul]
    congr 1
    show 2 ^ ((ℓ + 2) * c.offsetWidth) = 2 ^ ((ℓ + 1) * c.offsetWidth) * 2 ^ c.offsetWidth
    rw [← pow_add]
    congr 1
    ring
  rw [h1]
  exact Nat.div_add_mod' _ _

theorem alloc_link_pres (c : Config) (va : Nat) (s : PMState) (g paG depG pAG i0 : Nat)
    (hd : 1 ≤ c.tablesDepth) (hNF : c.tablesDepth + 1 ≤ c.numFrames)
    (hInv : Inv c s)
    (hg : Ev.table g paG depG pAG ∈ treeEvents c s)
    (hi0 : i0 < c.pageSize)
    (he : PMread s (g * c.pageSize + i0) = 0)
    (hpg : depG = c.tablesDepth - 1 → pAG * c.pageSize + i0 = va / c.pageSize) :
    AllocPost c va s
      (PMwrite (findNewFrame c s va g).2 (g * c.pageSize + i0) (findNewFrame c s va g).1)
      g depG pAG i0 (findNewFrame c s va g).1 := by
  obtain ⟨T1, T2, T3⟩ := findNewFrame_spec c s va g hd
  rcases hfe : firstEmptyTable c s g (treeEvents c s) with _ | ⟨f, q⟩
  · by_cases hmax : maxLinked c s + 1 < c.numFrames
    · rw [T2 hfe hmax]
      exact tier2_pres c va s g paG depG pAG i0 hInv hg hi0 he hpg hmax
    · have hne := cands_exist c s g hd hNF hInv hfe hmax
      have hnz : ∀ y ∈ cands (treeEvents c s), y.frame ≠ 0 := fun y hy =>
        cands_visit_nonzero c s c.tablesDepth 0 0 0 0 y hy
      obtain ⟨l1, w, l2, hsplit, heq, hbef, haft⟩ := distFold_first_argmax c va _ hne hnz
      have hwmem : w ∈ cands (treeEvents c s) := by
        rw [hsplit]
        exact List.mem_append.mpr (Or.inr (List.mem_cons_self _ _))
      have hT := T3 hfe hmax
      have h1 : (distFold c va (0, 0, 0) (cands (treeEvents c s))).1 = w.frame := by rw [heq]
      have h21 : (distFold c va (0, 0, 0) (cands (treeEvents c s))).2.1 = w.entryAdd := by
        rw [heq]
      have h22 : (distFold c va (0, 0, 0) (cands (treeEvents c s))).2.2 = w.page := by rw [heq]
      rw [h1, h21, h22] at hT
      rw [hT]
      exact tier3_pres c va s g paG depG pAG i0 w hInv hg hi0 he hpg hwmem
  · rw [T1 f q hfe]
    exact tier1_pres c va s g paG depG pAG i0 f q hInv hg hi0 he hpg hfe

end VM

namespace VM

theorem translateLoop_pres (c : Config) (va : Nat)
    (hd : 1 ≤ c.tablesDepth) (hNF : c.tablesDepth + 1 ≤ c.numFrames)
    (hw : c.offsetWidth ≤ 64) :
    ∀ (ℓ : Nat), ℓ ≤ c.tablesDepth →
      ∀ (g t : Nat) (s : PMState), Inv c s →
      ((1 ≤ ℓ ∧ ∃ pa, Ev.table g pa (c.tablesDepth - ℓ)
          (va / 2 ^ ((ℓ + 1) * c.offsetWidth)) ∈ treeEvents c s) ∨
        (ℓ = 0 ∧ (⟨g, t * c.pageSize + va / c.pageSize % c.pageSize, va / c.pageSize⟩ : Cand) ∈
          cands (treeEvents c s))) →
      Inv c (translateLoop c va ℓ g t s).2.2 ∧
      ((⟨(translateLoop c va ℓ g t s).1,
        (translateLoop c va ℓ g t s).2.1 * c.pageSize + va / c.pageSize % c.pageSize,
        va / c.pageSize⟩ : Cand) ∈ cands (treeEvents c (translateLoop c va ℓ g t s).2.2)) ∧
      (∀ e ∈ (translateLoop c va ℓ g t s).2.2.evicts, e ∈ s.evicts ∨ e.1 ≠ 0) ∧
      (∀ p' j, p' ≠ va / c.pageSize → j < c.pageSize →
        storedWord c (translateLoop c va ℓ g t s).2.2 p' j = storedWord c s p' j) := by
  intro ℓ
  induction ℓ with
  | zero =>
    intro _ g t s hInv hpos
    rcases hpos with ⟨h1, -⟩ | ⟨-, hcd⟩
    · exact absurd h1 (by omega)
    · exact ⟨hInv, hcd, fun e hee => Or.inl hee, fun p' j _ _ => rfl⟩
  | succ ℓ ih =>
    intro hle g t s hInv hpos
    rcases hpos with ⟨-, pa, hg⟩ | ⟨h0, -⟩
    swap
    · exact absurd h0 (by omega)
    have hPSpos : 0 < c.pageSize := Nat.pos_pow_of_pos _ (by norm_num)
    have hdig : getOffset c (va / 2 ^ ((ℓ + 1) * c.offsetWidth)) =
        (va / 2 ^ ((ℓ + 1) * c.offsetWidth)) % c.pageSize :=
      getOffset_eq_mod c _ hw
    have hdiglt : getOffset c (va / 2 ^ ((ℓ + 1) * c.offsetWidth)) < c.pageSize := by
      rw [hdig]
      exact Nat.mod_lt _ hPSpos
    have hpre : (va / 2 ^ ((ℓ + 2) * c.offsetWidth)) * c.pageSize +
        (va / 2 ^ ((ℓ + 1) * c.offsetWidth)) % c.pageSize =
        va / 2 ^ ((ℓ + 1) * c.offsetWidth) := prefix_step c va ℓ
    have hstep : translateLoop c va (ℓ + 1) g t s =
        (if PMread s (g * c.pageSize + getOffset c (va / 2 ^ ((ℓ + 1) * c.offsetWidth))) = 0
          then translateLoop c va ℓ (findNewFrame c s va g).1 g
            (PMwrite (findNewFrame c s va g).2
              (g * c.pageSize + getOffset c (va / 2 ^ ((ℓ + 1) * c.offsetWidth)))
              (findNewFrame c s va g).1)
          else translateLoop c va ℓ
            (PMread s (g * c.pageSize + getOffset c (va / 2 ^ ((ℓ + 1) * c.offsetWidth)))) g
            s) := rfl
    have hPS1 : (2 : Nat) ^ ((0 + 1) * c.offsetWidth) = c.pageSize := by
      show (2 : Nat) ^ ((0 + 1) * c.offsetWidth) = 2 ^ c.offsetWidth
      congr 1
      ring
    by_cases hval : PMread s
        (g * c.pageSize + getOffset c (va / 2 ^ ((ℓ + 1) * c.offsetWidth))) = 0
    · rw [hstep, if_pos hval]
      have hpg' : c.tablesDepth - (ℓ + 1) = c.tablesDepth - 1 →
          (va / 2 ^ ((ℓ + 2) * c.offsetWidth)) * c.pageSize +
            getOffset c (va / 2 ^ ((ℓ + 1) * c.offsetWidth)) = va / c.pageSize := by
        intro hdep
        have hl0 : ℓ = 0 := by omega
        subst hl0
        rw [hdig, hpre, hPS1]
      obtain ⟨hInv2, hnf0, hposn, hev2, hst2⟩ := alloc_link_pres c va s g pa
        (c.tablesDepth - (ℓ + 1)) (va / 2 ^ ((ℓ + 2) * c.offsetWidth))
        (getOffset c (va / 2 ^ ((ℓ + 1) * c.offsetWidth))) hd hNF hInv hg hdiglt hval hpg'
      by_cases hl0 : ℓ = 0
      · subst hl0
        rw [if_pos (by omega)] at hposn
        have hdigeq : getOffset c (va / 2 ^ ((0 + 1) * c.offsetWidth)) =
            va / c.pageSize % c.pageSize := by
          rw [hdig, hPS1]
        have hpageq : (va / 2 ^ ((0 + 2) * c.offsetWidth)) * c.pageSize +
            va / c.pageSize % c.pageSize = va / c.pageSize := by
          have h := hpre
          rw [hPS1] at h
          exact h
        rw [hdigeq] at hposn hInv2 hev2 hst2 ⊢
        rw [hpageq] at hposn
        have hrec := ih (by omega) (findNewFrame c s va g).1 g _ hInv2 (Or.inr ⟨rfl, hposn⟩)
        refine ⟨hrec.1, hrec.2.1, ?_, ?_⟩
        · intro e hee
          rcases hrec.2.2.1 e hee with h | h
          · exact hev2 e h
          · exact Or.inr h
        · intro p' j hp' hj
          rw [hrec.2.2.2 p' j hp' hj, hst2 p' j hp' hj]
      · rw [if_neg (by omega)] at hposn
        have hdep2 : c.tablesDepth - (ℓ + 1) + 1 = c.tablesDepth - ℓ := by omega
        rw [hdep2, hdig, hpre] at hposn
        have hrec := ih (by omega) (findNewFrame c s va g).1 g _ hInv2
          (Or.inl ⟨by omega, ⟨g * c.pageSize +
            getOffset c (va / 2 ^ ((ℓ + 1) * c.offsetWidth)), by rw [hdig]; exact hposn⟩⟩)
        refine ⟨hrec.1, hrec.2.1, ?_, ?_⟩
        · intro e hee
          rcases hrec.2.2.1 e hee with h | h
          · exact hev2 e h
          · exact Or.inr h
        · intro p' j hp' hj
          rw [hrec.2.2.2 p' j hp' hj, hst2 p' j hp' hj]
    · rw [hstep, if_neg hval]
      have hchild := table_children_mem c s
        (getOffset c (va / 2 ^ ((ℓ + 1) * c.offsetWidth))) hdiglt c.tablesDepth 0 0 0 0
        g pa (c.tablesDepth - (ℓ + 1)) (va / 2 ^ ((ℓ + 2) * c.offsetWidth)) hg hval
      by_cases hl0 : ℓ = 0
      · subst hl0
        have hcand := hchild.1 (by omega)
        have hcd : (⟨PMread s (g * c.pageSize +
            getOffset c (va / 2 ^ ((0 + 1) * c.offsetWidth))),
            g * c.pageSize + getOffset c (va / 2 ^ ((0 + 1) * c.offsetWidth)),
            (va / 2 ^ ((0 + 2) * c.offsetWidth)) * c.pageSize +
              getOffset c (va / 2 ^ ((0 + 1) * c.offsetWidth))⟩ : Cand) ∈
            cands (treeEvents c s) := cand_mem_cands _ _ hcand
        have hdigeq : getOffset c (va / 2 ^ ((0 + 1) * c.offsetWidth)) =
            va / c.pageSize % c.pageSize := by
          rw [hdig, hPS1]
        have hpageq : (va / 2 ^ ((0 + 2) * c.offsetWidth)) * c.pageSize +
            va / c.pageSize % c.pageSize = va / c.pageSize := by
          have h := hpre
          rw [hPS1] at h
          exact h
        rw [hdigeq] at hcd ⊢
        rw [hpageq] at hcd
        exact ih (by omega) (PMread s (g * c.pageSize + va / c.pageSize % c.pageSize)) g s
          hInv (Or.inr ⟨rfl, hcd⟩)
      · have htab := hchild.2 (by omega) (by omega)
        have hdep2 : c.tablesDepth - (ℓ + 1) + 1 = c.tablesDepth - ℓ := by omega
        rw [hdep2] at htab
        have hpageq2 : (va / 2 ^ ((ℓ + 2) * c.offsetWidth)) * c.pageSize +
            getOffset c (va / 2 ^ ((ℓ + 1) * c.offsetWidth)) =
            va / 2 ^ ((ℓ + 1) * c.offsetWidth) := by
          rw [hdig]
          exact hpre
        rw [hpageq2] at htab
        exact ih (by omega)
          (PMread s (g * c.pageSize + getOffset c (va / 2 ^ ((ℓ + 1) * c.offsetWidth)))) g s
          hInv (Or.inl ⟨by omega, ⟨g * c.pageSize +
            getOffset c (va / 2 ^ ((ℓ + 1) * c.offsetWidth)), htab⟩⟩)

end VM

namespace VM

theorem Inv_congr (c : Config) (s s' : PMState) (ht : treeEvents c s' = treeEvents c s)
    (hram : ∀ x j, x ∉ nodesOf (treeEvents c s) → j < c.pageSize →
      s'.ram (x * c.pageSize + j) = s.ram (x * c.pageSize + j))
    (hInv : Inv c s) : Inv c s' := by
  have hml : maxLinked c s' = maxLinked c s := by
    unfold maxLinked
    rw [ht]
  obtain ⟨h1, h2, h3, h4⟩ := hInv
  refine ⟨?_, ?_, ?_, ?_⟩
  · rw [ht]
    exact h1
  · intro x
    rw [ht, hml]
    exact h2 x
  · rw [hml]
    exact h3
  · intro x j hx hj
    rw [ht] at hx
    rw [hram x j hx hj]
    exact h4 x j hx hj

theorem translate_pres (c : Config) (va : Nat) (s : PMState)
    (hd : 1 ≤ c.tablesDepth) (hNF : c.tablesDepth + 1 ≤ c.numFrames) (hw : c.offsetWidth ≤ 64)
    (hva : va < c.virtualMemorySize)
    (hInv : Inv c s) :
    Inv c (translateVirtualAdd c s va).2 ∧
    ((⟨(translateVirtualAdd c s va).1,
      (translateLoop c va c.tablesDepth 0 0 s).2.1 * c.pageSize + va / c.pageSize % c.pageSize,
      va / c.pageSize⟩ : Cand) ∈ cands (treeEvents c (translateVirtualAdd c s va).2)) ∧
    (∀ e ∈ (translateVirtualAdd c s va).2.evicts, e ∈ s.evicts ∨ e.1 ≠ 0) ∧
    (∀ p' j, p' ≠ va / c.pageSize → j < c.pageSize →
      storedWord c (translateVirtualAdd c s va).2 p' j = storedWord c s p' j) := by
  have hroot : Ev.table 0 0 0 0 ∈ treeEvents c s := by
    obtain ⟨hcons, -, -⟩ := treeEvents_structure c s hd
    rw [hcons]
    exact List.mem_cons_self _ _
  have hpre0 : va / 2 ^ ((c.tablesDepth + 1) * c.offsetWidth) = 0 := by
    refine Nat.div_eq_of_lt ?_
    show va < 2 ^ ((c.tablesDepth + 1) * c.offsetWidth)
    exact hva
  have hdd : c.tablesDepth - c.tablesDepth = 0 := by omega
  have hloop := translateLoop_pres c va hd hNF hw c.tablesDepth (le_refl _) 0 0 s hInv
    (Or.inl ⟨hd, ⟨0, by rw [hpre0, hdd]; exact hroot⟩⟩)
  obtain ⟨hInvL, hcand, hevL, hstL⟩ := hloop
  obtain ⟨hsw1, hev1, hram1⟩ := PMrestore_effects c
    (translateLoop c va c.tablesDepth 0 0 s).2.2 (translateLoop c va c.tablesDepth 0 0 s).1
    (va / c.pageSize)
  have hPSpos : 0 < c.pageSize := Nat.pos_pow_of_pos _ (by norm_num)
  have htE1 : treeEvents c (PMrestore c (translateLoop c va c.tablesDepth 0 0 s).2.2
      (translateLoop c va c.tablesDepth 0 0 s).1 (va / c.pageSize)) =
      treeEvents c (translateLoop c va c.tablesDepth 0 0 s).2.2 := by
    refine treeEvents_congr_tables c _ _ ?_
    intro t' ht' j hj
    refine hram1 t' j hj ?_
    intro hc
    exact table_cand_distinct _ hInvL.1 t' ht' _ hcand (by rw [hc])
  have hInv1 : Inv c (PMrestore c (translateLoop c va c.tablesDepth 0 0 s).2.2
      (translateLoop c va c.tablesDepth 0 0 s).1 (va / c.pageSize)) := by
    refine Inv_congr c _ _ htE1 ?_ hInvL
    intro x j hx hj
    refine hram1 x j hj ?_
    intro hc
    exact hx (hc ▸ mem_nodesOf_of_cand _ _ hcand)
  have hdigeq : getOffset c (va / c.pageSize) = va / c.pageSize % c.pageSize := by
    have h := getOffset_eq_mod c (va / c.pageSize) hw
    exact h
  obtain ⟨tL, iL, paL, pAL, hiL, heaL, hramL, hevtL, hpageL⟩ :=
    cand_entry_sound c (translateLoop c va c.tablesDepth 0 0 s).2.2 c.tablesDepth 0 0 0 0 _ hcand
  have htLeq : tL = (translateLoop c va c.tablesDepth 0 0 s).2.1 ∧
      iL = va / c.pageSize % c.pageSize := by
    have h := @frame_addr_inj c.pageSize tL (translateLoop c va c.tablesDepth 0 0 s).2.1 iL (va / c.pageSize % c.pageSize) hiL (Nat.mod_lt _ hPSpos) heaL.symm
    exact h
  have htLtf : (translateLoop c va c.tablesDepth 0 0 s).2.1 ∈
      tableFrames (treeEvents c (translateLoop c va c.tablesDepth 0 0 s).2.2) := by
    rw [← htLeq.1]
    exact (mem_tableFrames_iff _ tL).mpr ⟨paL, c.tablesDepth - 1, pAL, hevtL⟩
  have hout : (translateVirtualAdd c s va).1 = (translateLoop c va c.tablesDepth 0 0 s).1 := by
    show PMread (PMrestore c (translateLoop c va c.tablesDepth 0 0 s).2.2
      (translateLoop c va c.tablesDepth 0 0 s).1 (va / c.pageSize))
      ((translateLoop c va c.tablesDepth 0 0 s).2.1 * c.pageSize +
        getOffset c (va / c.pageSize)) = _
    rw [hdigeq]
    have hne : (translateLoop c va c.tablesDepth 0 0 s).2.1 ≠
        (translateLoop c va c.tablesDepth 0 0 s).1 :=
      table_cand_distinct _ hInvL.1 _ htLtf _ hcand
    have hstep := hram1 (translateLoop c va c.tablesDepth 0 0 s).2.1
      (va / c.pageSize % c.pageSize) (Nat.mod_lt _ hPSpos) hne
    show (PMrestore c (translateLoop c va c.tablesDepth 0 0 s).2.2
      (translateLoop c va c.tablesDepth 0 0 s).1 (va / c.pageSize)).ram
      ((translateLoop c va c.tablesDepth 0 0 s).2.1 * c.pageSize +
        va / c.pageSize % c.pageSize) = _
    rw [hstep]
    have hfin : (translateLoop c va c.tablesDepth 0 0 s).2.2.ram
        ((translateLoop c va c.tablesDepth 0 0 s).2.1 * c.pageSize +
          va / c.pageSize % c.pageSize) = (translateLoop c va c.tablesDepth 0 0 s).1 := hramL
    exact hfin
  have hs2 : (translateVirtualAdd c s va).2 = PMrestore c
      (translateLoop c va c.tablesDepth 0 0 s).2.2
      (translateLoop c va c.tablesDepth 0 0 s).1 (va / c.pageSize) := rfl
  refine ⟨?_, ?_, ?_, ?_⟩
  · rw [hs2]
    exact hInv1
  · rw [hs2, hout, htE1]
    exact hcand
  · intro e hee
    rw [hs2, hev1] at hee
    exact hevL e hee
  · intro p' j hp' hj
    rw [hs2]
    have h1 : storedWord c (PMrestore c (translateLoop c va c.tablesDepth 0 0 s).2.2
        (translateLoop c va c.tablesDepth 0 0 s).1 (va / c.pageSize)) p' j =
        storedWord c (translateLoop c va c.tablesDepth 0 0 s).2.2 p' j := by
      refine storedWord_congr c _ _ p' j ?_ ?_ ?_
      · unfold pageCands
        rw [htE1]
      · intro cd hcd
        have hcd' : cd ∈ cands (treeEvents c (translateLoop c va c.tablesDepth 0 0 s).2.2) :=
          (List.mem_filter.mp hcd).1
        have hcdp : cd.page = p' := by
          have h := (List.mem_filter.mp hcd).2
          rw [beq_iff_eq] at h
          exact h
        refine hram1 cd.frame j hj ?_
        intro hc
        have hcdW : cd = ⟨(translateLoop c va c.tablesDepth 0 0 s).1,
            (translateLoop c va c.tablesDepth 0 0 s).2.1 * c.pageSize +
              va / c.pageSize % c.pageSize, va / c.pageSize⟩ :=
          cand_frame_inj _ hInvL.1 cd _ hcd' hcand (by rw [hc])
        apply hp'
        rw [← hcdp, hcdW]
      · rw [hsw1]
    rw [h1]
    exact hstL p' j hp' hj

end VM

namespace VM

theorem VMwrite_state_pres (c : Config) (a v : Nat) (s : PMState)
    (hd : 1 ≤ c.tablesDepth) (hNF : c.tablesDepth + 1 ≤ c.numFrames) (hw : c.offsetWidth ≤ 64)
    (hInv : Inv c s) :
    Inv c (VMwrite c s a v).2 ∧
    (∀ e ∈ (VMwrite c s a v).2.evicts, e ∈ s.evicts ∨ e.1 ≠ 0) ∧
    (∀ p' j, p' ≠ a / c.pageSize → j < c.pageSize →
      storedWord c (VMwrite c s a v).2 p' j = storedWord c s p' j) := by
  by_cases hb : a > c.virtualMemorySize - 1
  · have hVW : (VMwrite c s a v).2 = s := by
      unfold VMwrite
      rw [if_pos hb]
    rw [hVW]
    exact ⟨hInv, fun e hee => Or.inl hee, fun p' j _ _ => rfl⟩
  · have hVW : (VMwrite c s a v).2 = PMwrite (translateVirtualAdd c s a).2
        ((translateVirtualAdd c s a).1 * c.pageSize + getOffset c a) v := by
      unfold VMwrite
      rw [if_neg hb]
    have hVMSpos : 0 < c.virtualMemorySize := Nat.pos_pow_of_pos _ (by norm_num)
    have hva : a < c.virtualMemorySize := by omega
    obtain ⟨hInv1, hcand1, hev1, hst1⟩ := translate_pres c a s hd hNF hw hva hInv
    have hPSpos : 0 < c.pageSize := Nat.pos_pow_of_pos _ (by norm_num)
    have hoff : getOffset c a = a % c.pageSize := getOffset_eq_mod c a hw
    have hofflt : getOffset c a < c.pageSize := by
      rw [hoff]
      exact Nat.mod_lt _ hPSpos
    have hrfnodes : (translateVirtualAdd c s a).1 ∈
        nodesOf (treeEvents c (translateVirtualAdd c s a).2) :=
      mem_nodesOf_of_cand _ _ hcand1
    have htE2 : treeEvents c (PMwrite (translateVirtualAdd c s a).2
        ((translateVirtualAdd c s a).1 * c.pageSize + getOffset c a) v) =
        treeEvents c (translateVirtualAdd c s a).2 := by
      refine treeEvents_congr_tables c _ _ ?_
      intro t' ht' j hj
      refine PMwrite_ram_ne _ _ _ _ ?_
      intro heq
      exact table_cand_distinct _ hInv1.1 t' ht' _ hcand1
        (frame_addr_inj hj hofflt heq).1
    rw [hVW]
    refine ⟨?_, ?_, ?_⟩
    · refine Inv_congr c _ _ htE2 ?_ hInv1
      intro x j hx hj
      refine PMwrite_ram_ne _ _ _ _ ?_
      intro heq
      exact hx ((frame_addr_inj hj hofflt heq).1 ▸ hrfnodes)
    · intro e hee
      exact hev1 e hee
    · intro p' j hp' hj
      have h1 : storedWord c (PMwrite (translateVirtualAdd c s a).2
          ((translateVirtualAdd c s a).1 * c.pageSize + getOffset c a) v) p' j =
          storedWord c (translateVirtualAdd c s a).2 p' j := by
        refine storedWord_congr c _ _ p' j ?_ ?_ rfl
        · unfold pageCands
          rw [htE2]
        · intro cd hcd
          have hcd' : cd ∈ cands (treeEvents c (translateVirtualAdd c s a).2) :=
            (List.mem_filter.mp hcd).1
          have hcdp : cd.page = p' := by
            have h := (List.mem_filter.mp hcd).2
            rw [beq_iff_eq] at h
            exact h
          refine PMwrite_ram_ne _ _ _ _ ?_
          intro heq
          have hfr : cd.frame = (translateVirtualAdd c s a).1 :=
            (frame_addr_inj hj hofflt heq).1
          have hcdW : cd = ⟨(translateVirtualAdd c s a).1,
              (translateLoop c a c.tablesDepth 0 0 s).2.1 * c.pageSize +
                a / c.pageSize % c.pageSize, a / c.pageSize⟩ :=
            cand_frame_inj _ hInv1.1 cd _ hcd' hcand1 (by rw [hfr])
          apply hp'
          rw [← hcdp, hcdW]
      rw [h1]
      exact hst1 p' j hp' hj

theorem VMread_state_pres (c : Config) (a : Nat) (s : PMState)
    (hd : 1 ≤ c.tablesDepth) (hNF : c.tablesDepth + 1 ≤ c.numFrames) (hw : c.offsetWidth ≤ 64)
    (hInv : Inv c s) :
    Inv c (VMread c s a).2.2 ∧
    (∀ e ∈ (VMread c s a).2.2.evicts, e ∈ s.evicts ∨ e.1 ≠ 0) ∧
    (∀ p' j, p' ≠ a / c.pageSize → j < c.pageSize →
      storedWord c (VMread c s a).2.2 p' j = storedWord c s p' j) := by
  by_cases hb : a > c.virtualMemorySize - 1
  · have hVR : (VMread c s a).2.2 = s := by
      unfold VMread
      rw [if_pos hb]
    rw [hVR]
    exact ⟨hInv, fun e hee => Or.inl hee, fun p' j _ _ => rfl⟩
  · have hVR : (VMread c s a).2.2 = (translateVirtualAdd c s a).2 := by
      unfold VMread
      rw [if_neg hb]
    have hVMSpos : 0 < c.virtualMemorySize := Nat.pos_pow_of_pos _ (by norm_num)
    have hva : a < c.virtualMemorySize := by omega
    obtain ⟨hInv1, hcand1, hev1, hst1⟩ := translate_pres c a s hd hNF hw hva hInv
    rw [hVR]
    exact ⟨hInv1, hev1, hst1⟩

theorem runOp_pres (c : Config) (s : PMState) (op : Op)
    (hd : 1 ≤ c.tablesDepth) (hNF : c.tablesDepth + 1 ≤ c.numFrames) (hw : c.offsetWidth ≤ 64)
    (hInv : Inv c s) :
    Inv c (runOp c s op) ∧ (∀ e ∈ (runOp c s op).evicts, e ∈ s.evicts ∨ e.1 ≠ 0) := by
  cases op with
  | read a =>
    obtain ⟨h1, h2, -⟩ := VMread_state_pres c a s hd hNF hw hInv
    exact ⟨h1, h2⟩
  | write a v =>
    obtain ⟨h1, h2, -⟩ := VMwrite_state_pres c a v s hd hNF hw hInv
    exact ⟨h1, h2⟩

theorem runOps_pres (c : Config)
    (hd : 1 ≤ c.tablesDepth) (hNF : c.tablesDepth + 1 ≤ c.numFrames) (hw : c.offsetWidth ≤ 64) :
    ∀ (ops : List Op) (s : PMState), Inv c s → (∀ e ∈ s.evicts, e.1 ≠ 0) →
      Inv c (runOps c s ops) ∧ (∀ e ∈ (runOps c s ops).evicts, e.1 ≠ 0) := by
  intro ops
  induction ops with
  | nil =>
    intro s hInv hev
    exact ⟨hInv, hev⟩
  | cons op ops ih =>
    intro s hInv hev
    have h1 := runOp_pres c s op hd hNF hw hInv
    have hev1 : ∀ e ∈ (runOp c s op).evicts, e.1 ≠ 0 := by
      intro e hee
      rcases h1.2 e hee with h | h
      · exact hev e h
      · exact h
    exact ih (runOp c s op) h1.1 hev1

theorem inv_init (c : Config) (hd : 1 ≤ c.tablesDepth) (hNF : c.tablesDepth + 1 ≤ c.numFrames) :
    Inv c ( VMinitialize c initialState) ∧ ( VMinitialize c initialState).evicts = [] := by
  have hram0 : ∀ a, ( VMinitialize c initialState).ram a = 0 := by
    intro a
    show (clearFrame c initialState 0).ram a = 0
    rw [clearFrame_ram]
    split_ifs
    · rfl
    · rfl
  obtain ⟨d', hd'⟩ : ∃ d', c.tablesDepth = d' + 1 := ⟨c.tablesDepth - 1, by omega⟩
  have htE : treeEvents c ( VMinitialize c initialState) = [Ev.table 0 0 0 0] := by
    unfold treeEvents
    rw [hd']
    refine visit_allZero c _ d' 0 0 0 0 ?_
    unfold allZeroFrame
    rw [List.all_eq_true]
    intro i hi
    show (PMread ( VMinitialize c initialState) (0 * c.pageSize + i) == 0) = true
    rw [show PMread ( VMinitialize c initialState) (0 * c.pageSize + i) = 0 from hram0 _]
    rfl
  have hml : maxLinked c ( VMinitialize c initialState) = 0 := by
    unfold maxLinked
    rw [htE]
    rfl
  refine ⟨⟨?_, ?_, ?_, ?_⟩, ?_⟩
  · rw [htE]
    have hn : nodesOf [Ev.table 0 0 0 0] = [0] := rfl
    rw [hn]
    simp
  · intro g
    rw [htE, hml]
    have hn : nodesOf [Ev.table 0 0 0 0] = [0] := rfl
    rw [hn]
    simp [Nat.le_zero]
  · rw [hml]
    omega
  · intro x j _ _
    exact hram0 _
  · show (clearFrame c initialState 0).evicts = []
    rw [clearFrame_evicts]
    rfl

end VM

namespace VM

theorem linkVals_mem_split : ∀ (l : List Ev) (x : Nat), x ∈ linkVals l →
    (x ∈ tableFrames l ∧ x ≠ 0) ∨ ∃ cd ∈ cands l, x = cd.frame := by
  intro l
  induction l with
  | nil =>
    intro x hx
    exact absurd hx (by simp [linkVals])
  | cons e rest ih =>
    intro x hx
    cases e with
    | table f pa d p =>
      rw [linkVals] at hx
      rcases List.mem_append.mp hx with h | h
      · by_cases hf : f = 0
        · rw [if_pos hf] at h
          exact absurd h (by simp)
        · rw [if_neg hf] at h
          have hxf : x = f := List.mem_singleton.mp h
          subst hxf
          exact Or.inl ⟨by rw [tableFrames]; exact List.mem_cons_self _ _, hf⟩
      · rcases ih x h with ⟨h1, h2⟩ | ⟨cd, hcd, hcf⟩
        · exact Or.inl ⟨by rw [tableFrames]; exact List.mem_cons_of_mem _ h1, h2⟩
        · exact Or.inr ⟨cd, by rw [cands]; exact hcd, hcf⟩
    | cand cd2 =>
      rw [linkVals] at hx
      rcases List.mem_cons.mp hx with h | h
      · exact Or.inr ⟨cd2, by rw [cands]; exact List.mem_cons_self _ _, h⟩
      · rcases ih x h with ⟨h1, h2⟩ | ⟨cd, hcd, hcf⟩
        · exact Or.inl ⟨by rw [tableFrames]; exact h1, h2⟩
        · exact Or.inr ⟨cd, by rw [cands]; exact List.mem_cons_of_mem _ hcd, hcf⟩

/-- C7: in every state reachable by `VMinitialize` followed by any sequence of
`VMread`/`VMwrite` calls (out-of-range calls leave the state untouched), under
the spec's configuration-consistency assumptions (`TABLES_DEPTH ≥ 1`,
`NUM_FRAMES ≥ TABLES_DEPTH + 1`, `OFFSET_WIDTH ≤ 64`): each page number is
mapped by at most one data frame, no frame is linked by more than one nonzero
parent entry (the table forms a tree), and a further `VMwrite` to one page
never changes the stored data (frame contents if mapped, backing-storage copy
otherwise) of any address with a different page number. -/
theorem claim7 (c : Config) (ops : List Op)
    (hd : 1 ≤ c.tablesDepth) (hNF : c.tablesDepth + 1 ≤ c.numFrames)
    (hw : c.offsetWidth ≤ 64) :
    (∀ cd1 ∈ cands (treeEvents c (runOps c ( VMinitialize c initialState) ops)),
      ∀ cd2 ∈ cands (treeEvents c (runOps c ( VMinitialize c initialState) ops)),
        cd1.page = cd2.page → cd1 = cd2) ∧
    (linkVals (treeEvents c (runOps c ( VMinitialize c initialState) ops))).Nodup ∧
    (∀ a1 a2 v j, a1 / c.pageSize ≠ a2 / c.pageSize → j < c.pageSize →
      storedWord c (VMwrite c (runOps c ( VMinitialize c initialState) ops) a1 v).2
        (a2 / c.pageSize) j =
      storedWord c (runOps c ( VMinitialize c initialState) ops) (a2 / c.pageSize) j) := by
  obtain ⟨hInv0, hev0⟩ := inv_init c hd hNF
  have hrun := runOps_pres c hd hNF hw ops _ hInv0 (by rw [hev0]; simp)
  refine ⟨?_, ?_, ?_⟩
  · exact fun cd1 h1 cd2 h2 hpg => cand_page_inj c _ cd1 h1 cd2 h2 hpg
  · exact nodup_linkVals_of_nodes _ hrun.1.1
  · intro a1 a2 v j hp hj
    exact (VMwrite_state_pres c a1 v _ hd hNF hw hrun.1).2.2 (a2 / c.pageSize) j
      (fun hc => hp hc.symm) hj

theorem claim7_witness :
    (1 ≤ cfg2.tablesDepth ∧ cfg2.tablesDepth + 1 ≤ cfg2.numFrames ∧
      cfg2.offsetWidth ≤ 64) ∧
    ((∀ cd1 ∈ cands (treeEvents cfg2 (runOps cfg2 ( VMinitialize cfg2 initialState)
        [Op.write 0 5])),
      ∀ cd2 ∈ cands (treeEvents cfg2 (runOps cfg2 ( VMinitialize cfg2 initialState)
        [Op.write 0 5])),
        cd1.page = cd2.page → cd1 = cd2) ∧
    (linkVals (treeEvents cfg2 (runOps cfg2 ( VMinitialize cfg2 initialState)
      [Op.write 0 5]))).Nodup ∧
    (∀ a1 a2 v j, a1 / cfg2.pageSize ≠ a2 / cfg2.pageSize → j < cfg2.pageSize →
      storedWord cfg2 (VMwrite cfg2 (runOps cfg2 ( VMinitialize cfg2 initialState)
        [Op.write 0 5]) a1 v).2 (a2 / cfg2.pageSize) j =
      storedWord cfg2 (runOps cfg2 ( VMinitialize cfg2 initialState) [Op.write 0 5])
        (a2 / cfg2.pageSize) j)) :=
  ⟨⟨by decide, by decide, by decide⟩,
    claim7 cfg2 [Op.write 0 5] (by decide) (by decide) (by decide)⟩

/-- C8 (counterexample to the claim as stated): with `OFFSET_WIDTH = 1`,
`TABLES_DEPTH = 2` and `NUM_FRAMES = 2` (fewer frames than the
`TABLES_DEPTH + 1` a translation needs), already the first in-range
`VMwrite(0, 0)` after `VMinitialize` makes the allocator reach the eviction
tier with no eviction candidate, and the defaulted accumulators make it evict
frame 0 — the trace of `PMevict` calls is `[(0, 0)]`, so the root frame is
evicted, contradicting the claim's "never evicted". -/
theorem claim8_counterexample :
    (runOps cfg4 ( VMinitialize cfg4 initialState) [Op.write 0 0]).evicts = [(0, 0)] := by
  decide

/-- C8 (amended): under the spec's configuration-consistency assumption
`NUM_FRAMES ≥ TABLES_DEPTH + 1` (and `TABLES_DEPTH ≥ 1`,
`OFFSET_WIDTH ≤ 64`): `VMinitialize` clears frame 0 to all-zero, and in every
state reachable by any sequence of `VMread`/`VMwrite` calls, frame 0 appears
in the table tree exactly once — as the root, never as the value of a parent
entry, so it is never handed out by `findNewFrame` and never detached — and
no `PMevict` call ever names frame 0. -/
theorem claim8_amended (c : Config) (ops : List Op)
    (hd : 1 ≤ c.tablesDepth) (hNF : c.tablesDepth + 1 ≤ c.numFrames)
    (hw : c.offsetWidth ≤ 64) :
    (∀ j, j < c.pageSize → ( VMinitialize c initialState).ram (0 * c.pageSize + j) = 0) ∧
    (nodesOf (treeEvents c (runOps c ( VMinitialize c initialState) ops))).count 0 = 1 ∧
    0 ∉ linkVals (treeEvents c (runOps c ( VMinitialize c initialState) ops)) ∧
    (∀ e ∈ (runOps c ( VMinitialize c initialState) ops).evicts, e.1 ≠ 0) := by
  obtain ⟨hInv0, hev0⟩ := inv_init c hd hNF
  have hrun := runOps_pres c hd hNF hw ops _ hInv0 (by rw [hev0]; simp)
  refine ⟨?_, ?_, ?_, hrun.2⟩
  · intro j hj
    show (clearFrame c initialState 0).ram (0 * c.pageSize + j) = 0
    rw [clearFrame_ram, if_pos ⟨j, hj, rfl⟩]
  · obtain ⟨hnd, hmem, -, -⟩ := hrun.1
    have h0 : 0 ∈ nodesOf (treeEvents c (runOps c ( VMinitialize c initialState) ops)) :=
      (hmem 0).mpr (Nat.zero_le _)
    rw [List.nodup_iff_count_le_one] at hnd
    have h1 := hnd 0
    have h2 := List.count_pos_iff_mem.mpr h0
    omega
  · intro h0l
    rcases linkVals_mem_split _ 0 h0l with ⟨-, h0⟩ | ⟨cd, hcd, hcf⟩
    · exact h0 rfl
    · exact cands_visit_nonzero c _ c.tablesDepth 0 0 0 0 cd hcd hcf.symm

theorem claim8_amended_witness :
    (1 ≤ cfg2.tablesDepth ∧ cfg2.tablesDepth + 1 ≤ cfg2.numFrames ∧
      cfg2.offsetWidth ≤ 64) ∧
    ((∀ j, j < cfg2.pageSize →
        ( VMinitialize cfg2 initialState).ram (0 * cfg2.pageSize + j) = 0) ∧
    (nodesOf (treeEvents cfg2 (runOps cfg2 ( VMinitialize cfg2 initialState)
      [Op.write 0 5]))).count 0 = 1 ∧
    0 ∉ linkVals (treeEvents cfg2 (runOps cfg2 ( VMinitialize cfg2 initialState)
      [Op.write 0 5])) ∧
    (∀ e ∈ (runOps cfg2 ( VMinitialize cfg2 initialState) [Op.write 0 5]).evicts,
      e.1 ≠ 0)) :=
  ⟨⟨by decide, by decide, by decide⟩,
    claim8_amended cfg2 [Op.write 0 5] (by decide) (by decide) (by decide)⟩

end VM
